import Mathlib

/-!
# Verification of `permanent_magnet_optimization.cpp`

A shallow embedding of the numerical core of the permanent-magnet
optimization engine (MwPGP continuous solver, GPMO greedy solvers,
connectivity builder), together with proofs and refutations of the
spec's claims about it.

Modelling conventions:
* The GPMO family and the connectivity builder perform no square roots,
  so they are embedded over `ℚ` (exact arithmetic) and are fully
  executable.  The MwPGP solver and `find_max_alphaf` use square roots,
  so they are embedded over `ℝ`.
* C arrays are embedded as total functions out of `ℕ`; only indices
  below the declared bounds are ever meaningful, and all statements
  quantify over in-bounds indices.
* Division in Lean is total with `x / 0 = 0`; the embedding notes each
  place where the source could divide by zero.
* The source sorts dipoles by Euclidean distance `sqrt d` and uses the
  sentinel `1e10`; since `sqrt` is strictly monotone, the embedding
  compares squared distances with the squared sentinel `1e20`, which
  yields exactly the same comparisons.
-/

namespace PMOpt

/-- Sum `f 0 + ... + f (n-1)` over `ℚ`, as a `List` sum (executable). -/
def qsum (n : ℕ) (f : ℕ → ℚ) : ℚ :=
  ((List.range n).map f).sum

@[simp] theorem qsum_zero (f : ℕ → ℚ) : qsum 0 f = 0 := rfl

theorem qsum_succ (n : ℕ) (f : ℕ → ℚ) : qsum (n + 1) f = qsum n f + f n := by
  simp [qsum, List.range_succ]

theorem qsum_congr {n : ℕ} {f g : ℕ → ℚ} (h : ∀ i < n, f i = g i) :
    qsum n f = qsum n g := by
  induction n with
  | zero => rfl
  | succ m ih =>
      rw [qsum_succ, qsum_succ, ih (fun i hi => h i (Nat.lt_succ_of_lt hi)),
        h m (Nat.lt_succ_self m)]

theorem qsum_add (n : ℕ) (f g : ℕ → ℚ) :
    qsum n (fun i => f i + g i) = qsum n f + qsum n g := by
  induction n with
  | zero => simp
  | succ m ih => rw [qsum_succ, qsum_succ, qsum_succ, ih]; ring

theorem qsum_nonneg {n : ℕ} {f : ℕ → ℚ} (h : ∀ i < n, 0 ≤ f i) :
    0 ≤ qsum n f := by
  induction n with
  | zero => simp
  | succ m ih =>
      rw [qsum_succ]
      exact add_nonneg (ih (fun i hi => h i (Nat.lt_succ_of_lt hi)))
        (h m (Nat.lt_succ_self m))

/-- Updating one argument below the bound changes the sum by the slot delta. -/
theorem qsum_update (n c : ℕ) (hc : c < n) (v : ℕ → ℚ) (h : ℕ → ℚ) (t : ℚ) :
    qsum n (fun j => h j * (if j = c then t else v j)) =
      qsum n (fun j => h j * v j) + h c * (t - v c) := by
  induction n with
  | zero => exact absurd hc (Nat.not_lt_zero c)
  | succ m ih =>
      rw [qsum_succ, qsum_succ]
      rcases Nat.lt_succ_iff_lt_or_eq.mp hc with hlt | rfl
      · rw [ih hlt]
        have : ¬ (m = c) := Nat.ne_of_gt hlt
        simp only [this, if_false]
        ring
      · have : qsum c (fun j => h j * (if j = c then t else v j)) =
            qsum c (fun j => h j * v j) :=
          qsum_congr (fun i hi => by simp [Nat.ne_of_lt hi])
        rw [this]
        simp only [eq_self_iff_true, if_true]
        ring

/-! ## `std::min_element` / `std::max_element`

`minL`/`argminL` embed `*std::min_element(v.begin(), v.end())` and
`std::distance(v.begin(), std::min_element(...))`: the value of, and the
index of, the first occurrence of the minimum.  `argmaxL` likewise embeds
`std::max_element` (first occurrence of the maximum). -/

def minL : List ℚ → ℚ
  | [] => 0
  | [a] => a
  | a :: b :: t => min a (minL (b :: t))

def argminL : List ℚ → ℕ
  | [] => 0
  | [_] => 0
  | a :: b :: t => if a ≤ minL (b :: t) then 0 else argminL (b :: t) + 1

def maxL : List ℚ → ℚ
  | [] => 0
  | [a] => a
  | a :: b :: t => max a (maxL (b :: t))

def argmaxL : List ℚ → ℕ
  | [] => 0
  | [_] => 0
  | a :: b :: t => if maxL (b :: t) ≤ a then 0 else argmaxL (b :: t) + 1

/-! ## GPMO data model

The GPMO entry points take the design matrix `A_obj` in the transposed
layout `(3N, ngrid)` (columns contiguous) and the target `b_obj`.
`A c i` is the entry of column `c ∈ [0, 3N)` at grid point `i`. -/

structure GP where
  N : ℕ
  ngrid : ℕ
  A : ℕ → ℕ → ℚ
  b : ℕ → ℚ

/-- The mutable state of a GPMO solve.  `x` is the solution (dipole,
component), `gam` is `Gamma_complement` (row-major, `gam i d` for flat
index `3i+d`), `r` is the running residual `Aij_mj_sum`, `R2s` the
length-`6N` candidate table, `u` the `uk` vector of `GPMO_MC`, `skf` and
`skjjInd` the `sk_sign_fac` / `skjj_ind` bookkeeping of
`GPMO_backtracking` (the source sizes those two by `K` but indexes them
by dipole; we model them as total per-dipole maps), `placed` the list
`skj[0..k-1]` of placed dipoles, and `objH` / `mH` / `pIter` are
`objective_history`, `m_history` and `print_iter`. -/
structure GS where
  x : ℕ → ℕ → ℚ
  gam : ℕ → ℕ → Bool
  r : ℕ → ℚ
  R2s : ℕ → ℚ
  u : ℕ → ℚ
  skf : ℕ → ℚ
  skjjInd : ℕ → ℕ
  placed : List ℕ
  objH : ℕ → ℚ
  mH : ℕ → ℕ → ℕ → ℚ
  pIter : ℕ

/-- Disabled-slot sentinel `1e50`. -/
def SENT : ℚ := 10 ^ 50

/-- `Σ_i (r_i + sgn * A(c,i))²`: the quantity `R2` (with `sgn = 1`) or
`R2minus` (with `sgn = -1`) computed for candidate column `c`. -/
def colDot (P : GP) (r : ℕ → ℚ) (c : ℕ) (sgn : ℚ) : ℚ :=
  qsum P.ngrid (fun i => (r i + sgn * P.A c i) ^ 2)

/-- `Σ_i r_i²` (the quantity whose half is reported as `R2`). -/
def sumSq (P : GP) (r : ℕ → ℚ) : ℚ :=
  qsum P.ngrid (fun i => (r i) ^ 2)

/-- Initial GPMO state: `x = 0`, all slots available, `r = -b`,
`R2s = 1e50` everywhere, histories zeroed. -/
def initGS (P : GP) : GS where
  x := fun _ _ => 0
  gam := fun _ _ => true
  r := fun i => - P.b i
  R2s := fun _ => SENT
  u := fun _ => 0
  skf := fun _ => 0
  skjjInd := fun _ => 0
  placed := []
  objH := fun _ => 0
  mH := fun _ _ _ => 0
  pIter := 0

/-- The candidate columns scanned in one iteration: `j` runs from
`max(0, single_direction)` to `3N` in steps of `3` when
`single_direction ≥ 0`, else over all of `[0, 3N)`. -/
def scanIdxs (N3 : ℕ) (sd : ℤ) : List ℕ :=
  if sd < 0 then List.range N3
  else (List.range N3).filter (fun j => decide (sd.toNat ≤ j ∧ (j - sd.toNat) % 3 = 0))

/-- The body of the scan loop: if column `j` is available, overwrite
slots `j` and `j + 3N` of the candidate table with the `±` values. -/
def scanOne (P : GP) (s : GS) (f : ℕ → ℚ) (j : ℕ) : ℕ → ℚ :=
  if s.gam (j / 3) (j % 3) then
    fun idx =>
      if idx = j then colDot P s.r j 1
      else if idx = j + 3 * P.N then colDot P s.r j (-1)
      else f idx
  else f

/-- One scan pass: for every allowed, available column `j` overwrite
`R2s[j]` and `R2s[j + 3N]` with the `±` candidate values. -/
def scanR2s (P : GP) (sd : ℤ) (s : GS) : ℕ → ℚ :=
  (scanIdxs (3 * P.N) sd).foldl (scanOne P s) s.R2s

/-- Index (into the length-`6N` table) of the first minimum. -/
def selIdx (N : ℕ) (R2 : ℕ → ℚ) : ℕ :=
  argminL ((List.range (6 * N)).map R2)

/-- Write the disabled-slot sentinel into the six `R2s` slots of dipole
`dip` (indices `3*dip+j` and `3N+3*dip+j`, `j < 3`). -/
def sentR2s (N dip : ℕ) (R2 : ℕ → ℚ) : ℕ → ℚ := fun idx =>
  if (idx < 3 * N ∧ idx / 3 = dip) ∨
      (3 * N ≤ idx ∧ idx < 6 * N ∧ (idx - 3 * N) / 3 = dip) then SENT
  else R2 idx

/-- Place sign `sgn` at `(dip, comp)`: set `x`, add the column into the
running residual, and disable all three components of the dipole. -/
def place (P : GP) (dip comp : ℕ) (sgn : ℚ) (s : GS) : GS :=
  { s with
    x := fun i d => if i = dip ∧ d = comp then sgn else s.x i d
    r := fun i => s.r i + sgn * P.A (3 * dip + comp) i
    gam := fun i d => if i = dip then false else s.gam i d }

/-- The history snapshot of `print_GPMO`: store `R2 = ½‖r‖²` and the
current `x` at slot `print_iter`, then advance the slot counter.  Called
when `k % (K / nhistory) = 0` or `k = 0` or `k = K - 1`.  (`K / nhistory`
embeds `int(K / nhistory)`; when `nhistory > K` the C++ divisor is `0`
and `k % 0` is undefined behaviour there, while `Nat.mod` is total.) -/
def print_GPMO (P : GP) (K nh k : ℕ) (s : GS) : GS :=
  if k % (K / nh) = 0 ∨ k = 0 ∨ k = K - 1 then
    { s with
      objH := fun sl => if sl = s.pIter then (1 / 2) * sumSq P s.r else s.objH sl
      mH := fun sl i d =>
        if sl = s.pIter ∧ i < P.N ∧ d < 3 then s.x i d else s.mH sl i d
      pIter := s.pIter + 1 }
  else s

/-! ### `GPMO_baseline` -/

/-- One iteration of `GPMO_baseline`: scan, select the first minimum of
the `6N` candidates, place the corresponding signed magnet, disable the
dipole, and (if `verbose`) run `print_GPMO`. -/
def GPMO_baseline_step (P : GP) (sd : ℤ) (K nh : ℕ) (vb : Bool) (k : ℕ)
    (s : GS) : GS :=
  let R2n := scanR2s P sd s
  let sel := selIdx P.N R2n
  let sgn : ℚ := if 3 * P.N ≤ sel then -1 else 1
  let j0 := if 3 * P.N ≤ sel then sel - 3 * P.N else sel
  let s1 := place P (j0 / 3) (j0 % 3) sgn { s with R2s := R2n }
  let s2 := { s1 with R2s := sentR2s P.N (j0 / 3) s1.R2s }
  if vb then print_GPMO P K nh k s2 else s2

/-- The full `GPMO_baseline` solve: `K` iterations from the fresh state. -/
def GPMO_baseline (P : GP) (sd : ℤ) (K nh : ℕ) (vb : Bool) : GS :=
  (List.range K).foldl (fun s k => GPMO_baseline_step P sd K nh vb k s) (initGS P)

/-! ### `GPMO_MC` -/

/-- The column selected by `GPMO_MC`: first maximum of `|u_j|` over the
available columns (unavailable slots contribute `0`). -/
def mcSel (P : GP) (s : GS) : ℕ :=
  argmaxL ((List.range (3 * P.N)).map
    (fun j => if s.gam (j / 3) (j % 3) then |s.u j| else 0))

/-- One iteration of `GPMO_MC`: pick the column with the largest `|u|`,
choose the sign comparing `R2⁺` with `R2⁻`, place, update
`u ← u - AᵀA_{:,c}` over the still-available columns, and (if `verbose`)
snapshot the history.  The `GPMO_MC` print guard divides by
`nhistory - 1` (not `nhistory`). -/
def GPMO_MC_step (P : GP) (K nh : ℕ) (vb : Bool) (k : ℕ) (s : GS) : GS :=
  let sel := mcSel P s
  let R2p := colDot P s.r sel 1
  let R2m := colDot P s.r sel (-1)
  let sgn : ℚ := if R2m < R2p then -1 else 1
  let s1 := place P (sel / 3) (sel % 3) sgn s
  let s2 := { s1 with
    u := fun j => s1.u j -
      (if s1.gam (j / 3) (j % 3) then
        qsum P.ngrid (fun i => P.A j i * P.A sel i) else 0) }
  if vb ∧ (k % (K / (nh - 1)) = 0 ∨ k = 0 ∨ k = K - 1) then
    { s2 with
      objH := fun sl => if sl = s2.pIter then (1 / 2) * sumSq P s2.r else s2.objH sl
      mH := fun sl i d =>
        if sl = s2.pIter ∧ i < P.N ∧ d < 3 then s2.x i d else s2.mH sl i d
      pIter := s2.pIter + 1 }
  else s2

/-- The full `GPMO_MC` solve; `u` starts at the caller-supplied `ATb`. -/
def GPMO_MC (P : GP) (ATb : ℕ → ℚ) (K nh : ℕ) (vb : Bool) : GS :=
  (List.range K).foldl (fun s k => GPMO_MC_step P K nh vb k s)
    { initGS P with u := ATb }

/-! ### `connectivity_matrix`

The builder computes, for each dipole `j`, the list of all dipole
indices sorted by distance to `j` (repeated `std::min_element`, erasing
each found minimum by overwriting it with the sentinel distance `1e10`).
The source compares `sqrt` distances against `1e10`; we compare squared
distances against `1e20 = (1e10)²`, which gives identical comparisons. -/

/-- Squared Euclidean distance between two centers. -/
def distSq (c1 c2 : ℚ × ℚ × ℚ) : ℚ :=
  (c1.1 - c2.1) ^ 2 + (c1.2.1 - c2.2.1) ^ 2 + (c1.2.2 - c2.2.2) ^ 2

/-- Squared eliminated-entry sentinel (`1e10` squared). -/
def DSENT : ℚ := 10 ^ 20

/-- Extract `n` indices by repeated first-minimum selection, overwriting
each found minimum with the sentinel. -/
def extractRow : List ℚ → ℕ → List ℕ
  | _, 0 => []
  | d, n + 1 =>
      let m := argminL d
      m :: extractRow (d.set m DSENT) n

/-- Row `j` of `connectivity_matrix`: the 2000 indices produced by
repeated minimum extraction from the list of squared distances of every
dipole to dipole `j`. -/
def connectivity_matrix (xyz : List (ℚ × ℚ × ℚ)) (j : ℕ) : List ℕ :=
  extractRow (xyz.map (fun c => distSq c (xyz.getD j (0, 0, 0)))) 2000

/-! ### `GPMO_backtracking`

As baseline, with `sk_sign_fac` / `skjj_ind` bookkeeping and, every
`backtracking` iterations, a wyrm-removal pass over the dipoles placed
so far.  The neighbour table is the function `Conn`; the exported entry
point instantiates it with `connectivity_matrix`. -/

/-- The wyrm check for one previously placed dipole `jk`: find the first
neighbour `cj = Conn jk jj` (`jj < Nadjacent`) carrying the opposite
sign on the same axis; if found, erase both placements, re-enable both
dipoles, subtract their residual contributions and zero their sign
bookkeeping. -/
def wyrmOne (P : GP) (Conn : ℕ → ℕ → ℕ) (Nadj : ℕ) (s : GS) (jk : ℕ) : GS :=
  match (List.range Nadj).find? (fun jj =>
      let cj := Conn jk jj
      decide (s.skf jk ≠ 0 ∧ s.skf jk = - s.skf cj ∧
        s.skjjInd jk = s.skjjInd cj)) with
  | none => s
  | some jj =>
      let cj := Conn jk jj
      { s with
        x := fun i d =>
          if (i = jk ∧ d = s.skjjInd jk) ∨ (i = cj ∧ d = s.skjjInd cj) then 0
          else s.x i d
        gam := fun i d => if i = jk ∨ i = cj then true else s.gam i d
        r := fun i => s.r i -
          (s.skf jk * P.A (3 * jk + s.skjjInd jk) i +
            s.skf cj * P.A (3 * cj + s.skjjInd cj) i)
        skf := fun i => if i = jk ∨ i = cj then 0 else s.skf i }

/-- One iteration of `GPMO_backtracking`: the baseline scan/select/place
with sign bookkeeping, then (when `k > 0` and `k % backtracking = 0`)
the wyrm pass over the previously placed dipoles, then the history
snapshot. -/
def GPMO_backtracking_step (P : GP) (sd : ℤ) (Conn : ℕ → ℕ → ℕ)
    (Nadj bt K nh : ℕ) (vb : Bool) (k : ℕ) (s : GS) : GS :=
  let R2n := scanR2s P sd s
  let sel := selIdx P.N R2n
  let sgn : ℚ := if 3 * P.N ≤ sel then -1 else 1
  let j0 := if 3 * P.N ≤ sel then sel - 3 * P.N else sel
  let dip := j0 / 3
  let comp := j0 % 3
  let s1 := place P dip comp sgn { s with R2s := R2n }
  let s2 := { s1 with
    R2s := sentR2s P.N dip s1.R2s
    skf := fun i => if i = dip then sgn else s1.skf i
    skjjInd := fun i => if i = dip then comp else s1.skjjInd i }
  let s3 := if 0 < k ∧ k % bt = 0 then s.placed.foldl (wyrmOne P Conn Nadj) s2
    else s2
  let s4 := { s3 with placed := s.placed ++ [dip] }
  if vb then print_GPMO P K nh k s4 else s4

/-- `GPMO_backtracking` on an explicit neighbour table. -/
def GPMO_backtracking_with (P : GP) (sd : ℤ) (Conn : ℕ → ℕ → ℕ)
    (Nadj bt K nh : ℕ) (vb : Bool) : GS :=
  (List.range K).foldl
    (fun s k => GPMO_backtracking_step P sd Conn Nadj bt K nh vb k s) (initGS P)

/-- The exported `GPMO_backtracking`: the neighbour table is built by
`connectivity_matrix` from the dipole centers. -/
def GPMO_backtracking (P : GP) (sd : ℤ) (xyz : List (ℚ × ℚ × ℚ))
    (Nadj bt K nh : ℕ) (vb : Bool) : GS :=
  GPMO_backtracking_with P sd (fun j t => (connectivity_matrix xyz j).getD t 0)
    Nadj bt K nh vb

/-! ### `GPMO_multi`

Places a dipole together with its nearest still-available same-axis
neighbours.  The inner `while (not Gamma_ptr[cj_ind])` searches forward
through the neighbour table using a shared counter; in the source the
search is unbounded (running past column 2000 of `Connect` is
out-of-bounds), so the embedding gives it fuel 2000 and propagates
failure as `none`. -/

/-- The neighbour search: starting from candidate `cj`, while dipole
slot `(cj, comp)` is unavailable move to `Conn (Nadj + counter)` and
advance the counter. -/
def searchAvail (gam : ℕ → ℕ → Bool) (row : ℕ → ℕ) (Nadj comp : ℕ) :
    ℕ → ℕ → ℕ → Option (ℕ × ℕ)
  | cj, ct, 0 => if gam cj comp then some (cj, ct) else none
  | cj, ct, fuel + 1 =>
      if gam cj comp then some (cj, ct)
      else searchAvail gam row Nadj comp (row (Nadj + ct)) (ct + 1) fuel

/-- Aggregated candidate values for column `j` in `GPMO_multi`: the sums
of `R2⁺` and `R2⁻` over dipole `j/3` and its next available same-axis
neighbours. -/
def multiR2 (P : GP) (gam : ℕ → ℕ → Bool) (r : ℕ → ℚ) (Conn : ℕ → ℕ → ℕ)
    (Nadj : ℕ) (j : ℕ) : Option (ℚ × ℚ) :=
  ((List.range Nadj).foldl
    (fun acc jj => acc.bind (fun a =>
      (searchAvail gam (Conn (j / 3)) Nadj (j % 3) (Conn (j / 3) jj) a.1
          2000).map
        (fun cc => (cc.2, a.2.1 + colDot P r (3 * cc.1 + j % 3) 1,
          a.2.2 + colDot P r (3 * cc.1 + j % 3) (-1)))))
    (some (0, 0, 0))).map Prod.snd

/-- The `GPMO_multi` scan: for every allowed, available column compute
the aggregated candidate values; any failed neighbour search fails the
scan. -/
def multiScan (P : GP) (sd : ℤ) (Conn : ℕ → ℕ → ℕ) (Nadj : ℕ) (s : GS) :
    Option (ℕ → ℚ) :=
  (scanIdxs (3 * P.N) sd).foldl
    (fun of j => of.bind (fun f =>
      if s.gam (j / 3) (j % 3) then
        (multiR2 P s.gam s.r Conn Nadj j).map (fun a => fun idx =>
          if idx = j then a.1
          else if idx = j + 3 * P.N then a.2
          else f idx)
      else some f))
    (some s.R2s)

/-- The `GPMO_multi` commit: place sign `sgn` on axis `comp` at the
winning dipole and its next available neighbours, disabling each and
writing sentinels into its candidate slots. -/
def multiCommit (P : GP) (Conn : ℕ → ℕ → ℕ) (Nadj : ℕ) (dip comp : ℕ)
    (sgn : ℚ) (s : GS) : Option GS :=
  ((List.range Nadj).foldl
    (fun acc jj => acc.bind (fun a =>
      (searchAvail a.1.gam (Conn dip) Nadj comp (Conn dip jj) a.2 2000).map
        (fun cc =>
          (let s1 := place P cc.1 comp sgn a.1
           { s1 with R2s := sentR2s P.N cc.1 s1.R2s }, cc.2))))
    (some (s, 0))).map Prod.fst

/-- One iteration of `GPMO_multi`. -/
def GPMO_multi_step (P : GP) (sd : ℤ) (Conn : ℕ → ℕ → ℕ) (Nadj K nh : ℕ)
    (vb : Bool) (k : ℕ) (s : GS) : Option GS :=
  (multiScan P sd Conn Nadj s).bind (fun R2n =>
    let sel := selIdx P.N R2n
    let sgn : ℚ := if 3 * P.N ≤ sel then -1 else 1
    let j0 := if 3 * P.N ≤ sel then sel - 3 * P.N else sel
    (multiCommit P Conn Nadj (j0 / 3) (j0 % 3) sgn { s with R2s := R2n }).map
      (fun s2 => if vb then print_GPMO P K nh k s2 else s2))

/-- `GPMO_multi` on an explicit neighbour table. -/
def GPMO_multi_with (P : GP) (sd : ℤ) (Conn : ℕ → ℕ → ℕ) (Nadj K nh : ℕ)
    (vb : Bool) : Option GS :=
  (List.range K).foldl
    (fun os k => os.bind (GPMO_multi_step P sd Conn Nadj K nh vb k))
    (some (initGS P))

/-- The exported `GPMO_multi`. -/
def GPMO_multi (P : GP) (sd : ℤ) (xyz : List (ℚ × ℚ × ℚ)) (Nadj K nh : ℕ)
    (vb : Bool) : Option GS :=
  GPMO_multi_with P sd (fun j t => (connectivity_matrix xyz j).getD t 0)
    Nadj K nh vb

/-! ## Invariants of the GPMO state -/

/-- Flat column `j` is on an available dipole (`Gamma_ptr[j]`). -/
def slotAvail (s : GS) (j : ℕ) : Prop := s.gam (j / 3) (j % 3) = true

/-- Flat column `j` is visited by the scan loop for the given
`single_direction`. -/
def validJ (sd : ℤ) (j : ℕ) : Prop :=
  sd < 0 ∨ (sd.toNat ≤ j ∧ (j - sd.toNat) % 3 = 0)

/-- The `±` bank index `idx ∈ [0, 6N)` refers to flat column `flatOf`. -/
def flatOf (N idx : ℕ) : ℕ := if idx < 3 * N then idx else idx - 3 * N

/-- The running residual equals `A·x - b` recomputed from scratch. -/
def resOK (P : GP) (s : GS) : Prop :=
  ∀ g < P.ngrid,
    s.r g = qsum (3 * P.N) (fun j => P.A j g * s.x (j / 3) (j % 3)) - P.b g

/-- Each availability row is all-true or all-false (dipoles are enabled
and disabled three components at a time). -/
def rowsUniform (P : GP) (s : GS) : Prop :=
  ∀ i < P.N, (∀ d < 3, s.gam i d = true) ∨ (∀ d < 3, s.gam i d = false)

/-- An available dipole has a zero row in `x`. -/
def availZero (P : GP) (s : GS) : Prop :=
  ∀ i < P.N, s.gam i 0 = true → ∀ d < 3, s.x i d = 0

/-- Row `i` of `x` has entries in `{0, 1, -1}` with at most one nonzero. -/
def rowBin (x : ℕ → ℕ → ℚ) (i : ℕ) : Prop :=
  (∀ d < 3, x i d = 0 ∨ x i d = 1 ∨ x i d = -1) ∧
  ∀ d < 3, ∀ e < 3, d ≠ e → x i d ≠ 0 → x i e = 0

/-- GPMO binarity over all dipoles. -/
def binOK (P : GP) (s : GS) : Prop := ∀ i < P.N, rowBin s.x i

/-- Every `R2s` slot not belonging to a scanned available column holds
the sentinel `1e50`. -/
def sentOK (P : GP) (sd : ℤ) (s : GS) : Prop :=
  ∀ idx < 6 * P.N,
    (validJ sd (flatOf P.N idx) ∧ slotAvail s (flatOf P.N idx)) ∨ s.R2s idx = SENT

/-- The core state invariant shared by the GPMO variants. -/
def InvCore (P : GP) (s : GS) : Prop :=
  resOK P s ∧ rowsUniform P s ∧ availZero P s ∧ binOK P s

/-- Core invariant plus the `R2s` sentinel discipline (the variants that
keep a persistent candidate table). -/
def InvB (P : GP) (sd : ℤ) (s : GS) : Prop := InvCore P s ∧ sentOK P sd s

/-- Soundness of the `sk_sign_fac` / `skjj_ind` bookkeeping of
`GPMO_backtracking`: a zero sign marks an available (hence empty) dipole,
and a nonzero sign records exactly the placed component. -/
def skfOK (P : GP) (s : GS) : Prop :=
  ∀ i < P.N,
    (s.gam i 0 = true → s.skf i = 0) ∧
    (s.skf i ≠ 0 →
      s.gam i 0 = false ∧ (s.skf i = 1 ∨ s.skf i = -1) ∧ s.skjjInd i < 3 ∧
      s.x i (s.skjjInd i) = s.skf i ∧
      ∀ d < 3, d ≠ s.skjjInd i → s.x i d = 0)

/-- All recorded placements are genuine dipole indices. -/
def placedOK (P : GP) (s : GS) : Prop := ∀ jk ∈ s.placed, jk < P.N

/-- Invariant of the backtracking variant. -/
def InvBt (P : GP) (sd : ℤ) (s : GS) : Prop :=
  InvB P sd s ∧ skfOK P s ∧ placedOK P s

/-- The value at the selected `R2s` slot after the scan (the quantity
`*std::min_element(R2s.begin(), R2s.end())` of the selection step). -/
def selVal (P : GP) (sd : ℤ) (s : GS) : ℚ :=
  scanR2s P sd s (selIdx P.N (scanR2s P sd s))

/-- Both histories are still all-zero. -/
def histZero (s : GS) : Prop :=
  s.objH = (fun _ => 0) ∧ s.mH = (fun _ _ _ => 0)

/-- `histZero` through the fallible `GPMO_multi` embedding. -/
def histZeroOpt : Option GS → Prop
  | none => True
  | some s => histZero s

/-- `resOK` through the fallible `GPMO_multi` embedding. -/
def resOKopt (P : GP) : Option GS → Prop
  | none => True
  | some s => resOK P s

/-- `binOK` through the fallible `GPMO_multi` embedding. -/
def binOKopt (P : GP) : Option GS → Prop
  | none => True
  | some s => binOK P s

/-! ## Iterated minimum extraction (connectivity reasoning) -/

/-- The distance list after `m` extraction steps. -/
def iterSet (d : List ℚ) : ℕ → List ℚ
  | 0 => d
  | m + 1 => iterSet (d.set (argminL d) DSENT) m

/-- Squared distance of dipole `i` to dipole `j`. -/
def dTo (xyz : List (ℚ × ℚ × ℚ)) (j i : ℕ) : ℚ :=
  distSq (xyz.getD i (0, 0, 0)) (xyz.getD j (0, 0, 0))

/-! ## Concrete GPMO instances used in counterexamples and witnesses -/

/-- `N = 1`, `ngrid = 1`, column 0 is `[1]`, other columns zero, `b = [1]`. -/
def P4x : GP := ⟨1, 1, fun c i => if c = 0 ∧ i = 0 then 1 else 0,
  fun i => if i = 0 then 1 else 0⟩

/-- `N = 1`, `ngrid = 1`, column 1 is `[1]`, other columns zero, `b = [1]`. -/
def P5x : GP := ⟨1, 1, fun c i => if c = 1 ∧ i = 0 then 1 else 0,
  fun i => if i = 0 then 1 else 0⟩

/-- `N = 1`, `ngrid = 1`, column 0 is `[1]`, other columns zero, `b = [3]`. -/
def P6x : GP := ⟨1, 1, fun c i => if c = 0 ∧ i = 0 then 1 else 0,
  fun i => if i = 0 then 3 else 0⟩

/-- `N = 1`, `ngrid = 1`, column 0 is `[10]`, other columns zero, `b = [1]`. -/
def P2x : GP := ⟨1, 1, fun c i => if c = 0 ∧ i = 0 then 10 else 0,
  fun i => if i = 0 then 1 else 0⟩

/-- `ATb = (10, 0, 0)` for the `GPMO_MC` counterexample. -/
def u2x : ℕ → ℚ := fun j => if j = 0 then 10 else 0

/-- All-zero data (used for the history-overflow run). -/
def P7x : GP := ⟨1, 1, fun _ _ => 0, fun _ => 0⟩

/-! ## MwPGP over `ℝ`

`A_obj` has the row-major layout `(ngrid, 3N)` here: `A g j` is the
entry at grid point `g` and flat column `j`. -/

open scoped Classical

/-- Sum `f 0 + ... + f (n-1)` over `ℝ`. -/
noncomputable def rsum (n : ℕ) (f : ℕ → ℝ) : ℝ :=
  ((List.range n).map f).sum

/-- Component access for the 3-tuples the projection helpers return
(components beyond the third coincide with the third, which is harmless:
the solver only reads components `0`, `1`, `2`). -/
def tget (t : ℝ × ℝ × ℝ) (d : ℕ) : ℝ :=
  if d = 0 then t.1 else if d = 1 then t.2.1 else t.2.2

/-- `projection_L2_balls`: scale the triple down onto the `L2` ball of
radius `m`. -/
noncomputable def projection_L2_balls (x1 x2 x3 m : ℝ) : ℝ × ℝ × ℝ :=
  let denom := max 1 (Real.sqrt (x1 ^ 2 + x2 ^ 2 + x3 ^ 2) / m)
  (x1 / denom, x2 / denom, x3 / denom)

/-- `phi_MwPGP`: the gradient triple if `x` is away from the ball
surface, else zero. -/
noncomputable def phi_MwPGP (x1 x2 x3 g1 g2 g3 m : ℝ) : ℝ × ℝ × ℝ :=
  if |x1 ^ 2 + x2 ^ 2 + x3 ^ 2 - m ^ 2| > 1 / 10 ^ 8 + (1 / 10 ^ 5) * m ^ 2
  then (g1, g2, g3) else (0, 0, 0)

/-- `g_reduced_gradient`: the projected-gradient-step direction. -/
noncomputable def g_reduced_gradient (x1 x2 x3 g1 g2 g3 a m : ℝ) : ℝ × ℝ × ℝ :=
  let p := projection_L2_balls (x1 - a * g1) (x2 - a * g2) (x3 - a * g3) m
  ((x1 - p.1) / a, (x2 - p.2.1) / a, (x3 - p.2.2) / a)

/-- `beta_tilde`: zero off the surface; on the surface, `g` or the
reduced gradient depending on the sign of `x·g`. -/
noncomputable def beta_tilde (x1 x2 x3 g1 g2 g3 a m : ℝ) : ℝ × ℝ × ℝ :=
  if |x1 ^ 2 + x2 ^ 2 + x3 ^ 2 - m ^ 2| < 1 / 10 ^ 8 + (1 / 10 ^ 5) * m ^ 2
  then
    (if (x1 * g1 + x2 * g2 + x3 * g3) / Real.sqrt (x1 ^ 2 + x2 ^ 2 + x3 ^ 2) > 0
     then (g1, g2, g3) else g_reduced_gradient x1 x2 x3 g1 g2 g3 a m)
  else (0, 0, 0)

/-- `g_reduced_projected_gradient = phi + beta_tilde` componentwise. -/
noncomputable def g_reduced_projected_gradient (x1 x2 x3 g1 g2 g3 a m : ℝ) :
    ℝ × ℝ × ℝ :=
  let p := phi_MwPGP x1 x2 x3 g1 g2 g3 m
  let q := beta_tilde x1 x2 x3 g1 g2 g3 a m
  (p.1 + q.1, p.2.1 + q.2.1, p.2.2 + q.2.2)

/-- `find_max_alphaf`: positive root of `‖x - α p‖² = m²`, or the
sentinel `1e100` when `‖p‖² ≤ 1e-20`. -/
noncomputable def find_max_alphaf (x1 x2 x3 p1 p2 p3 m : ℝ) : ℝ :=
  let a := p1 ^ 2 + p2 ^ 2 + p3 ^ 2
  let c := x1 ^ 2 + x2 ^ 2 + x3 ^ 2 - m ^ 2
  let b := -2 * (x1 * p1 + x2 * p2 + x3 * p3)
  if a > 1 / 10 ^ 20 then (-b + Real.sqrt (b ^ 2 - 4 * a * c)) / (2 * a)
  else 10 ^ 100

/-- Inputs of one `MwPGP_algorithm` call (`verbose` is passed
separately). -/
structure MwIn where
  N : ℕ
  ngrid : ℕ
  A : ℕ → ℕ → ℝ
  b : ℕ → ℝ
  ATb : ℕ → ℕ → ℝ
  mprox : ℕ → ℕ → ℝ
  m0 : ℕ → ℕ → ℝ
  mmax : ℕ → ℝ
  alpha : ℝ
  nu : ℝ
  eps : ℝ
  regl2 : ℝ
  maxiter : ℕ
  minfb : ℝ

/-- The loop state of `MwPGP_algorithm`: iterate, gradient, conjugate
direction, the three history buffers, the history slot counter, and the
loop-exited flag (`break`). -/
structure MwS where
  x : ℕ → ℕ → ℝ
  g : ℕ → ℕ → ℝ
  p : ℕ → ℕ → ℝ
  objH : ℕ → ℝ
  R2H : ℕ → ℝ
  mH : ℕ → ℕ → ℕ → ℝ
  pIter : ℕ
  done : Bool

/-- `A·v` at grid point `g` (`v` in `(N, 3)` layout, flattened). -/
noncomputable def Amulvec (inp : MwIn) (v : ℕ → ℕ → ℝ) (g : ℕ) : ℝ :=
  rsum (3 * inp.N) (fun j => inp.A g j * v (j / 3) (j % 3))

/-- The operator `v ↦ AᵀA v + 2 (λ₂ + 1/(2ν)) v` applied at `(i, d)`. -/
noncomputable def Qop (inp : MwIn) (v : ℕ → ℕ → ℝ) (i d : ℕ) : ℝ :=
  rsum inp.ngrid (fun g => inp.A g (3 * i + d) * Amulvec inp v g) +
    2 * (inp.regl2 + 1 / (2 * inp.nu)) * v i d

/-- `ATb_rs = A^T b + m_proxy / ν`. -/
noncomputable def ATb_rs (inp : MwIn) (i d : ℕ) : ℝ :=
  inp.ATb i d + inp.mprox i d / inp.nu

/-- `phi` applied to the `i`-th triples of `x` and `g`. -/
noncomputable def mwPhi (inp : MwIn) (x g : ℕ → ℕ → ℝ) (i : ℕ) : ℝ × ℝ × ℝ :=
  phi_MwPGP (x i 0) (x i 1) (x i 2) (g i 0) (g i 1) (g i 2) (inp.mmax i)

/-- `g·p` (the numerator of `alpha_cg`). -/
noncomputable def mwGP (inp : MwIn) (g p : ℕ → ℕ → ℝ) : ℝ :=
  rsum inp.N (fun i => g i 0 * p i 0 + g i 1 * p i 1 + g i 2 * p i 2)

/-- `p·(AᵀA + 2(λ₂+1/(2ν)))p` (the denominator of `alpha_cg`). -/
noncomputable def mwPATAP (inp : MwIn) (p : ℕ → ℕ → ℝ) : ℝ :=
  rsum inp.N (fun i =>
    p i 0 * Qop inp p i 0 + p i 1 * Qop inp p i 1 +
      p i 2 * Qop inp p i 2)

/-- `alpha_cg = (g·p)/(p·Qp)`.  (Division is total in the embedding;
the source would produce IEEE `NaN` at `0/0` — the concrete runs below
avoid depending on that corner except where noted.) -/
noncomputable def mwAlphaCG (inp : MwIn) (g p : ℕ → ℕ → ℝ) : ℝ :=
  mwGP inp g p / mwPATAP inp p

/-- `alpha_f = min_i find_max_alphaf(x_i, p_i, M_i)` (as
`std::min_element` over a nonempty vector; `1e100` for `N = 0`). -/
noncomputable def mwAlphaF (inp : MwIn) (x p : ℕ → ℕ → ℝ) : ℝ :=
  match (List.range inp.N).map (fun i =>
      find_max_alphaf (x i 0) (x i 1) (x i 2) (p i 0) (p i 1)
        (p i 2) (inp.mmax i)) with
  | [] => 10 ^ 100
  | a :: t => t.foldl min a

/-- The verbose/history guard: `k % ⌊max_iter/20⌋ = 0` or `k = 0` or
`k = max_iter - 1`.  (`⌊max_iter/20⌋` embeds `int(max_iter / 20.0)`,
exact for these magnitudes; `Nat.mod` is total where `k % 0` is C++
undefined behaviour.) -/
def mwQual (inp : MwIn) (k : ℕ) : Prop :=
  k % (inp.maxiter / 20) = 0 ∨ k = 0 ∨ k = inp.maxiter - 1

/-- `ATAp` of the loop body: `Q` applied to the conjugate direction. -/
noncomputable def mwATAp (inp : MwIn) (p : ℕ → ℕ → ℝ) (i d : ℕ) : ℝ :=
  Qop inp p i d

/-- `norm_g_alpha_p`: squared norm of the reduced projected gradient. -/
noncomputable def mwNga (inp : MwIn) (x g : ℕ → ℕ → ℝ) : ℝ :=
  rsum inp.N (fun i =>
    let t := g_reduced_projected_gradient (x i 0) (x i 1) (x i 2)
      (g i 0) (g i 1) (g i 2) inp.alpha (inp.mmax i)
    t.1 ^ 2 + t.2.1 ^ 2 + t.2.2 ^ 2)

/-- `norm_phi_temp`: squared norm of `phi(x, g)`. -/
noncomputable def mwNphi (inp : MwIn) (x g : ℕ → ℕ → ℝ) : ℝ :=
  rsum inp.N (fun i =>
    let t := mwPhi inp x g i
    t.1 ^ 2 + t.2.1 ^ 2 + t.2.2 ^ 2)

/-- Conjugate-gradient step: the new iterate `x ← x − α_cg p`. -/
noncomputable def cgX (inp : MwIn) (x g p : ℕ → ℕ → ℝ) : ℕ → ℕ → ℝ :=
  fun i d => x i d - mwAlphaCG inp g p * p i d

/-- Conjugate-gradient step: the new gradient `g ← g − α_cg (Qp)`. -/
noncomputable def cgG (inp : MwIn) (g p : ℕ → ℕ → ℝ) : ℕ → ℕ → ℝ :=
  fun i d => g i d - mwAlphaCG inp g p * mwATAp inp p i d

/-- Conjugate-gradient step: the `gamma` deflation coefficient. -/
noncomputable def cgGamma (inp : MwIn) (x g p : ℕ → ℕ → ℝ) : ℝ :=
  rsum inp.N (fun i =>
    let t := mwPhi inp (cgX inp x g p) (cgG inp g p) i
    t.1 * mwATAp inp p i 0 + t.2.1 * mwATAp inp p i 1 +
      t.2.2 * mwATAp inp p i 2) / mwPATAP inp p

/-- Conjugate-gradient step: the new direction
`p ← phi(x, g) − gamma p`. -/
noncomputable def cgP (inp : MwIn) (x g p : ℕ → ℕ → ℝ) : ℕ → ℕ → ℝ :=
  fun i d => tget (mwPhi inp (cgX inp x g p) (cgG inp g p) i) d -
    cgGamma inp x g p * p i d

/-- Mixed projected-gradient step (taken when `α_cg ≥ α_f`): the
projected iterate. -/
noncomputable def pjX (inp : MwIn) (x g p : ℕ → ℕ → ℝ) : ℕ → ℕ → ℝ :=
  fun i d => tget (projection_L2_balls
    ((x i 0 - mwAlphaF inp x p * p i 0) -
      inp.alpha * (g i 0 - mwAlphaF inp x p * mwATAp inp p i 0))
    ((x i 1 - mwAlphaF inp x p * p i 1) -
      inp.alpha * (g i 1 - mwAlphaF inp x p * mwATAp inp p i 1))
    ((x i 2 - mwAlphaF inp x p * p i 2) -
      inp.alpha * (g i 2 - mwAlphaF inp x p * mwATAp inp p i 2))
    (inp.mmax i)) d

/-- Mixed projected-gradient step: the recomputed gradient. -/
noncomputable def pjG (inp : MwIn) (x g p : ℕ → ℕ → ℝ) : ℕ → ℕ → ℝ :=
  fun i d => Qop inp (pjX inp x g p) i d - ATb_rs inp i d

/-- Mixed projected-gradient step: the new direction `phi(x, g)`. -/
noncomputable def pjP (inp : MwIn) (x g p : ℕ → ℕ → ℝ) : ℕ → ℕ → ℝ :=
  fun i d => tget (mwPhi inp (pjX inp x g p) (pjG inp x g p) i) d

/-- Plain projected-gradient step (taken when
`norm_g_alpha_p > norm_phi_temp`): the projected iterate. -/
noncomputable def pgX (inp : MwIn) (x g : ℕ → ℕ → ℝ) : ℕ → ℕ → ℝ :=
  fun i d => tget (projection_L2_balls
    (x i 0 - inp.alpha * g i 0) (x i 1 - inp.alpha * g i 1)
    (x i 2 - inp.alpha * g i 2) (inp.mmax i)) d

/-- Plain projected-gradient step: the recomputed gradient. -/
noncomputable def pgG (inp : MwIn) (x g : ℕ → ℕ → ℝ) : ℕ → ℕ → ℝ :=
  fun i d => Qop inp (pgX inp x g) i d - ATb_rs inp i d

/-- Plain projected-gradient step: the new direction `phi(x, g)`. -/
noncomputable def pgP (inp : MwIn) (x g : ℕ → ℕ → ℝ) : ℕ → ℕ → ℝ :=
  fun i d => tget (mwPhi inp (pgX inp x g) (pgG inp x g) i) d

/-- The `(x, g, p)` update of one loop iteration: conjugate-gradient,
mixed projected-gradient, or plain projected-gradient step. -/
noncomputable def mwXGP (inp : MwIn) (x g p : ℕ → ℕ → ℝ) :
    (ℕ → ℕ → ℝ) × (ℕ → ℕ → ℝ) × (ℕ → ℕ → ℝ) :=
  if mwNga inp x g ≤ mwNphi inp x g then
    if mwAlphaCG inp g p < mwAlphaF inp x p then
      (cgX inp x g p, cgG inp g p, cgP inp x g p)
    else
      (pjX inp x g p, pjG inp x g p, pjP inp x g p)
  else
    (pgX inp x g, pgG inp x g, pgP inp x g)

/-- `x_sum`: the `L1` change of the iterate over one iteration. -/
noncomputable def mwXsum (inp : MwIn) (x g p : ℕ → ℕ → ℝ) : ℝ :=
  rsum inp.N (fun i =>
    |(mwXGP inp x g p).1 i 0 - x i 0| + |(mwXGP inp x g p).1 i 1 - x i 1| +
      |(mwXGP inp x g p).1 i 2 - x i 2|)

/-- The sampled `R² = ½‖A x − b‖²` of `print_MwPGP`. -/
noncomputable def mwR2 (inp : MwIn) (x1 : ℕ → ℕ → ℝ) : ℝ :=
  (1 / 2) * rsum inp.ngrid (fun g => (Amulvec inp x1 g - inp.b g) ^ 2)

/-- The sampled cost `R² + N²/(2ν) + λ₂ L²` of `print_MwPGP`. -/
noncomputable def mwCost (inp : MwIn) (x1 : ℕ → ℕ → ℝ) : ℝ :=
  mwR2 inp x1 +
    (1 / 2) * rsum inp.N (fun i =>
      (x1 i 0 - inp.mprox i 0) ^ 2 + (x1 i 1 - inp.mprox i 1) ^ 2 +
        (x1 i 2 - inp.mprox i 2) ^ 2) / inp.nu +
    inp.regl2 * rsum inp.N (fun i =>
      x1 i 0 ^ 2 + x1 i 1 ^ 2 + x1 i 2 ^ 2)

/-- One iteration of the `MwPGP_algorithm` main loop (the body of
`for (int k = 0; k < max_iter; ++k)`); a state with `done` set is
frozen (the loop was exited by a `break`). -/
noncomputable def MwPGP_step (inp : MwIn) (vb : Bool) (k : ℕ) (s : MwS) : MwS :=
  if s.done then s else
  let x1 := (mwXGP inp s.x s.g s.p).1
  let g1 := (mwXGP inp s.x s.g s.p).2.1
  let p1 := (mwXGP inp s.x s.g s.p).2.2
  if vb ∧ mwQual inp k then
    let objH1 := fun sl => if sl = s.pIter then mwCost inp x1 else s.objH sl
    let R2H1 := fun sl => if sl = s.pIter then mwR2 inp x1 else s.R2H sl
    let mH1 := fun sl i d =>
      if sl = s.pIter ∧ i < inp.N ∧ d < 3 then x1 i d else s.mH sl i d
    if mwR2 inp x1 < inp.minfb then
      ⟨x1, g1, p1, objH1, R2H1, mH1, s.pIter, true⟩
    else
      ⟨x1, g1, p1, objH1, R2H1, mH1, s.pIter + 1,
        if mwXsum inp s.x s.g s.p < inp.eps then true else false⟩
  else
    ⟨x1, g1, p1, s.objH, s.R2H, s.mH, s.pIter,
      if mwXsum inp s.x s.g s.p < inp.eps then true else false⟩

/-- The state entering the main loop: `x = m0`,
`g = Q m0 - (A^T b + w/ν)`, `p = phi(m0, g)`, zeroed histories. -/
noncomputable def MwPGP_start (inp : MwIn) : MwS where
  x := inp.m0
  g := fun i d => Qop inp inp.m0 i d - ATb_rs inp i d
  p := fun i d => tget (mwPhi inp inp.m0
    (fun i' d' => Qop inp inp.m0 i' d' - ATb_rs inp i' d') i) d
  objH := fun _ => 0
  R2H := fun _ => 0
  mH := fun _ _ _ => 0
  pIter := 0
  done := false

/-- The state after `n` loop iterations. -/
noncomputable def MwPGP_iter (inp : MwIn) (vb : Bool) : ℕ → MwS
  | 0 => MwPGP_start inp
  | n + 1 => MwPGP_step inp vb n (MwPGP_iter inp vb n)

/-- The full `MwPGP_algorithm` solve (state after `max_iter` loop
iterations; `x` is the returned iterate). -/
noncomputable def MwPGP_algorithm (inp : MwIn) (vb : Bool) : MwS :=
  MwPGP_iter inp vb inp.maxiter

/-- Capacity of the MwPGP history buffers (`xt::zeros<double>({21})`,
valid slots `0..20`). -/
def MwPGP_hist_cap : ℕ := 21

/-- Per-dipole step-safety at a state: nonnegative CG step size and all
direction triples above the `1e-20` floor of `find_max_alphaf`. -/
noncomputable def mwSafe (inp : MwIn) (s : MwS) : Prop :=
  0 ≤ mwAlphaCG inp s.g s.p ∧
  ∀ i < inp.N, 1 / 10 ^ 20 < s.p i 0 ^ 2 + s.p i 1 ^ 2 + s.p i 2 ^ 2

/-- Per-dipole feasibility `‖x_i‖ ≤ M_i` (squared form). -/
def mwFeas (inp : MwIn) (x : ℕ → ℕ → ℝ) : Prop :=
  ∀ i < inp.N, x i 0 ^ 2 + x i 1 ^ 2 + x i 2 ^ 2 ≤ inp.mmax i ^ 2

/-! ## Concrete MwPGP instances -/

/-- Triple-shaped array with values `(v0, v1, v2)` on dipole `0` and
zero elsewhere. -/
noncomputable def tri3 (v0 v1 v2 : ℝ) : ℕ → ℕ → ℝ := fun i d =>
  if i = 0 then (if d = 0 then v0 else if d = 1 then v1 else if d = 2 then v2 else 0)
  else 0

/-- Triple-shaped array following the `tget` convention (components
beyond the third coincide with the third); the closed form of the loop
states of the concrete single-dipole runs below. -/
noncomputable def triX (v0 v1 v2 : ℝ) : ℕ → ℕ → ℝ := fun i d =>
  if i = 0 then (if d = 0 then v0 else if d = 1 then v1 else v2)
  else 0

/-- C1 counterexample input: `N = 1`, `ngrid = 2`,
`A = [[1,0,0],[0,2,0]]`, `b = 0`, `ATb = (3/10, 2/5, 0)`, `m_proxy = 0`,
`m0 = 0`, `M = 1`, `α = 1`, `ν = 1/2`, `ε = 10⁻²⁰`, `λ₂ = 0`,
`max_iter = 20`, `min_fb = 1`. -/
noncomputable def mwCx1 : MwIn where
  N := 1
  ngrid := 2
  A := fun g j => if g = 0 ∧ j = 0 then 1 else if g = 1 ∧ j = 1 then 2 else 0
  b := fun _ => 0
  ATb := tri3 (3 / 10) (2 / 5) 0
  mprox := fun _ _ => 0
  m0 := fun _ _ => 0
  mmax := fun _ => 1
  alpha := 1
  nu := 1 / 2
  eps := 1 / 10 ^ 20
  regl2 := 0
  maxiter := 20
  minfb := 1

/-- C3 counterexample input: `N = 1`, `ngrid = 1`, `A = 0`, `b = 0`,
`ATb = (-10⁻¹¹, 0, 0)`, `m0 = 0`, `M = 1`, `ν = 10³⁰`,
`max_iter = 1`. -/
noncomputable def mwCx3 : MwIn where
  N := 1
  ngrid := 1
  A := fun _ _ => 0
  b := fun _ => 0
  ATb := tri3 (-(1 / 10 ^ 11)) 0 0
  mprox := fun _ _ => 0
  m0 := fun _ _ => 0
  mmax := fun _ => 1
  alpha := 1
  nu := 10 ^ 30
  eps := 0
  regl2 := 0
  maxiter := 1
  minfb := 0

/-- History-overflow input: all-zero data, `max_iter = 105`,
`min_fb = -1`, `ε = 0` (no break ever fires). -/
noncomputable def mwCx7 : MwIn where
  N := 1
  ngrid := 1
  A := fun _ _ => 0
  b := fun _ => 0
  ATb := fun _ _ => 0
  mprox := fun _ _ => 0
  m0 := fun _ _ => 0
  mmax := fun _ => 1
  alpha := 1
  nu := 1 / 2
  eps := 0
  regl2 := 0
  maxiter := 105
  minfb := -1

/-- Witness input (C1/C3 amended theorems): `N = 1`, `ngrid = 1`,
`A = 0`, `ATb = (1, 0, 0)`, `ν = 1/2`, `min_fb = -1`. -/
noncomputable def mwWit : MwIn where
  N := 1
  ngrid := 1
  A := fun _ _ => 0
  b := fun _ => 0
  ATb := tri3 1 0 0
  mprox := fun _ _ => 0
  m0 := fun _ _ => 0
  mmax := fun _ => 1
  alpha := 1
  nu := 1 / 2
  eps := 0
  regl2 := 0
  maxiter := 1
  minfb := -1

/-! # Lemmas and theorems -/

/-! ## First-minimum / first-maximum selection -/

theorem minL_le : ∀ (l : List ℚ), ∀ i < l.length, minL l ≤ l.getD i 0
  | [], i, h => absurd h (by simp)
  | [a], 0, _ => le_refl a
  | [a], i + 1, h => absurd h (by simp)
  | a :: b :: t, 0, _ => min_le_left _ _
  | a :: b :: t, i + 1, h =>
      le_trans (min_le_right _ _) (minL_le (b :: t) i (by simpa using h))

theorem argminL_lt_length : ∀ (l : List ℚ), l ≠ [] → argminL l < l.length
  | [], h => absurd rfl h
  | [a], _ => by simp [argminL]
  | a :: b :: t, _ => by
      by_cases h : a ≤ minL (b :: t)
      · simp [argminL, h]
      · have := argminL_lt_length (b :: t) (by simp)
        simp only [argminL, h, if_false, List.length_cons] at this ⊢
        omega

theorem argminL_val : ∀ (l : List ℚ), l ≠ [] → l.getD (argminL l) 0 = minL l
  | [], h => absurd rfl h
  | [a], _ => by simp [argminL, minL]
  | a :: b :: t, _ => by
      by_cases h : a ≤ minL (b :: t)
      · simp [argminL, minL, h, min_eq_left h]
      · have ih := argminL_val (b :: t) (by simp)
        have hlt : minL (b :: t) ≤ a := le_of_lt (lt_of_not_le h)
        simp only [argminL, minL, h, if_false]
        simpa [min_eq_right hlt] using ih

theorem argminL_first :
    ∀ (l : List ℚ), ∀ i < argminL l, minL l < l.getD i 0
  | [], i, h => absurd h (by simp [argminL])
  | [a], i, h => absurd h (by simp [argminL])
  | a :: b :: t, i, h => by
      by_cases hle : a ≤ minL (b :: t)
      · simp [argminL, hle] at h
      · have hlt : minL (b :: t) < a := lt_of_not_le hle
        have hmin : minL (a :: b :: t) = minL (b :: t) := by
          simp [minL, min_eq_right (le_of_lt hlt)]
        simp only [argminL, hle, if_false] at h
        match i, h with
        | 0, _ => simpa [hmin] using hlt
        | i + 1, h =>
            have := argminL_first (b :: t) i (by omega)
            simpa [hmin] using this

theorem minL_const :
    ∀ (l : List ℚ) (c : ℚ), l ≠ [] → (∀ v ∈ l, v = c) → minL l = c
  | [], _, h, _ => absurd rfl h
  | [a], c, _, hv => hv a (by simp)
  | a :: b :: t, c, _, hv => by
      have ht := minL_const (b :: t) c (by simp)
        (fun v hv' => hv v (List.mem_cons_of_mem a hv'))
      have ha := hv a (by simp)
      simp [minL, ht, ha]

theorem argminL_const (l : List ℚ) (c : ℚ) (h : ∀ v ∈ l, v = c) :
    argminL l = 0 := by
  match l with
  | [] => rfl
  | [a] => rfl
  | a :: b :: t =>
      have ha : a = c := h a (by simp)
      have ht : minL (b :: t) = c := minL_const (b :: t) c (by simp)
        (fun v hv => h v (List.mem_cons_of_mem a hv))
      simp [argminL, ha, ht]

theorem argmaxL_lt_length : ∀ (l : List ℚ), l ≠ [] → argmaxL l < l.length
  | [], h => absurd rfl h
  | [a], _ => by simp [argmaxL]
  | a :: b :: t, _ => by
      by_cases h : maxL (b :: t) ≤ a
      · simp [argmaxL, h]
      · have := argmaxL_lt_length (b :: t) (by simp)
        simp only [argmaxL, h, if_false, List.length_cons] at this ⊢
        omega

theorem getD_map_range {n i : ℕ} (f : ℕ → ℚ) (h : i < n) :
    ((List.range n).map f).getD i 0 = f i := by
  rw [List.getD_eq_getElem?_getD]
  rw [List.getElem?_eq_getElem (by simpa using h)]
  simp

/-! ## Scan and selection lemmas -/

theorem scanIdxs_mem {N3 : ℕ} {sd : ℤ} {j : ℕ} :
    j ∈ scanIdxs N3 sd ↔ j < N3 ∧ validJ sd j := by
  by_cases h : sd < 0
  · simp [scanIdxs, h, validJ, λ _ => h]
  · simp only [scanIdxs, h, if_false, List.mem_filter, List.mem_range,
      decide_eq_true_eq, validJ]
    constructor
    · rintro ⟨h1, h2⟩
      exact ⟨h1, Or.inr h2⟩
    · rintro ⟨h1, h2 | h2⟩
      · exact h2.elim
      · exact ⟨h1, h2⟩

theorem scanFold_not_written (P : GP) (s : GS) (l : List ℕ) (f : ℕ → ℚ)
    (idx : ℕ)
    (h : ∀ j ∈ l, s.gam (j / 3) (j % 3) = true →
      idx ≠ j ∧ idx ≠ j + 3 * P.N) :
    l.foldl (scanOne P s) f idx = f idx := by
  induction l generalizing f with
  | nil => rfl
  | cons a l ih =>
      rw [List.foldl_cons,
        ih _ (fun j hj hg => h j (List.mem_cons_of_mem a hj) hg)]
      by_cases hg : s.gam (a / 3) (a % 3) = true
      · have := h a (by simp) hg
        simp [scanOne, hg, this.1, this.2]
      · simp only [Bool.not_eq_true] at hg
        simp [scanOne, hg]

/-- Any slot not of the form `j` / `j + 3N` for a scanned available
column keeps its previous value. -/
theorem scanR2s_not_written (P : GP) (sd : ℤ) (s : GS) (idx : ℕ)
    (h : ∀ j, j < 3 * P.N → validJ sd j → s.gam (j / 3) (j % 3) = true →
      idx ≠ j ∧ idx ≠ j + 3 * P.N) :
    scanR2s P sd s idx = s.R2s idx := by
  refine scanFold_not_written P s _ _ idx ?_
  intro j hj hg
  obtain ⟨h1, h2⟩ := scanIdxs_mem.mp hj
  exact h j h1 h2 hg

theorem flatOf_lt {N idx : ℕ} (h : idx < 6 * N) : flatOf N idx < 3 * N := by
  unfold flatOf
  split <;> omega

/-- If the value at the selected slot is below the sentinel and the
state respects the sentinel discipline, the selected slot belongs to a
scanned available column. -/
theorem selVal_lt_sent (P : GP) (sd : ℤ) (s : GS) (hN : 0 < P.N)
    (hsent : sentOK P sd s) (hsel : selVal P sd s < SENT) :
    selIdx P.N (scanR2s P sd s) < 6 * P.N ∧
    validJ sd (flatOf P.N (selIdx P.N (scanR2s P sd s))) ∧
    slotAvail s (flatOf P.N (selIdx P.N (scanR2s P sd s))) := by
  have hlen : ((List.range (6 * P.N)).map (scanR2s P sd s)).length = 6 * P.N := by
    simp
  have hne : ((List.range (6 * P.N)).map (scanR2s P sd s)) ≠ [] := by
    intro hc
    rw [hc] at hlen
    simp at hlen
    omega
  have hlt : selIdx P.N (scanR2s P sd s) < 6 * P.N := by
    have := argminL_lt_length _ hne
    rwa [hlen] at this
  refine ⟨hlt, ?_⟩
  by_contra hcon
  rw [not_and_or] at hcon
  have hunw : scanR2s P sd s (selIdx P.N (scanR2s P sd s)) =
      s.R2s (selIdx P.N (scanR2s P sd s)) := by
    refine scanR2s_not_written P sd s _ ?_
    intro j hj hv hg
    constructor
    · intro hje
      rw [hje] at hcon
      have : flatOf P.N j = j := by unfold flatOf; simp [hj]
      rw [this] at hcon
      rcases hcon with hc | hc
      · exact hc hv
      · exact hc hg
    · intro hje
      rw [hje] at hcon
      have : flatOf P.N (j + 3 * P.N) = j := by unfold flatOf; split <;> omega
      rw [this] at hcon
      rcases hcon with hc | hc
      · exact hc hv
      · exact hc hg
  have hS : s.R2s (selIdx P.N (scanR2s P sd s)) = SENT := by
    rcases hsent _ hlt with h | h
    · rcases hcon with hc | hc
      · exact absurd h.1 hc
      · exact absurd h.2 hc
    · exact h
  have : selVal P sd s = SENT := by
    rw [selVal, hunw, hS]
  rw [this] at hsel
  exact lt_irrefl _ hsel

/-! ## Placement lemmas -/

theorem div_mod_flat {dip comp : ℕ} (hcomp : comp < 3) :
    (3 * dip + comp) / 3 = dip ∧ (3 * dip + comp) % 3 = comp := by
  omega

theorem place_resOK (P : GP) (s : GS) (dip comp : ℕ) (sgn : ℚ)
    (hdip : dip < P.N) (hcomp : comp < 3) (hres : resOK P s)
    (hzero : ∀ d < 3, s.x dip d = 0) :
    resOK P (place P dip comp sgn s) := by
  intro g hg
  have hc : 3 * dip + comp < 3 * P.N := by omega
  have hstep : qsum (3 * P.N)
      (fun j => P.A j g * (place P dip comp sgn s).x (j / 3) (j % 3)) =
      qsum (3 * P.N)
        (fun j => P.A j g *
          (if j = 3 * dip + comp then sgn else s.x (j / 3) (j % 3))) := by
    refine qsum_congr ?_
    intro j hj
    by_cases hj' : j = 3 * dip + comp
    · subst hj'
      simp [place, (div_mod_flat hcomp).1, (div_mod_flat hcomp).2]
    · have hne : ¬ (j / 3 = dip ∧ j % 3 = comp) := by
        intro hcon
        apply hj'
        omega
      simp only [place, if_neg hne]
      rw [if_neg hj']
  rw [hstep, qsum_update (3 * P.N) (3 * dip + comp) hc
    (fun j => s.x (j / 3) (j % 3)) (fun j => P.A j g) sgn]
  show s.r g + sgn * P.A (3 * dip + comp) g = _
  rw [hres g hg]
  simp only [(div_mod_flat hcomp).1, (div_mod_flat hcomp).2, hzero comp hcomp]
  ring

theorem place_rowsUniform (P : GP) (s : GS) (dip comp : ℕ) (sgn : ℚ)
    (h : rowsUniform P s) : rowsUniform P (place P dip comp sgn s) := by
  intro i hi
  by_cases hid : i = dip
  · subst hid
    right
    intro d _
    simp [place]
  · rcases h i hi with h' | h'
    · left
      intro d hd
      simpa [place, hid] using h' d hd
    · right
      intro d hd
      simpa [place, hid] using h' d hd

theorem place_availZero (P : GP) (s : GS) (dip comp : ℕ) (sgn : ℚ)
    (h : availZero P s) : availZero P (place P dip comp sgn s) := by
  intro i hi hg d hd
  by_cases hid : i = dip
  · subst hid
    simp [place] at hg
  · simp only [place, if_neg hid] at hg
    have := h i hi hg d hd
    have hne : ¬ (i = dip ∧ d = comp) := fun hc => hid hc.1
    simpa [place, hne] using this

theorem place_binOK (P : GP) (s : GS) (dip comp : ℕ) (sgn : ℚ)
    (hcomp : comp < 3) (hsgn : sgn = 1 ∨ sgn = -1) (h : binOK P s)
    (hzero : ∀ d < 3, s.x dip d = 0) :
    binOK P (place P dip comp sgn s) := by
  intro i hi
  by_cases hid : i = dip
  · subst hid
    constructor
    · intro d hd
      by_cases hdc : d = comp
      · subst hdc
        rcases hsgn with h' | h' <;> simp [place, h']
      · simp [place, hdc, hzero d hd]
    · intro d hd e he hde hx
      by_cases hdc : d = comp
      · subst hdc
        have hed : ¬ e = d := fun hc => hde hc.symm
        simp only [place]
        simp [hed, hzero e he]
      · exfalso
        apply hx
        simp [place, hdc, hzero d hd]
  · have hrow := h i hi
    constructor
    · intro d hd
      have hne : ¬ (i = dip ∧ d = comp) := fun hc => hid hc.1
      simpa [place, hne] using hrow.1 d hd
    · intro d hd e he hde hx
      have hned : ¬ (i = dip ∧ d = comp) := fun hc => hid hc.1
      have hnee : ¬ (i = dip ∧ e = comp) := fun hc => hid hc.1
      simp only [place, if_neg hned] at hx
      simp only [place, if_neg hnee]
      exact hrow.2 d hd e he hde hx

/-! ## Invariant preservation -/

/-- `InvB` only reads the `x`, `gam`, `r`, `R2s` fields. -/
theorem InvB_of_fields_eq {P : GP} {sd : ℤ} {s t : GS} (hx : t.x = s.x)
    (hg : t.gam = s.gam) (hr : t.r = s.r) (hR : t.R2s = s.R2s)
    (h : InvB P sd s) : InvB P sd t := by
  unfold InvB InvCore resOK rowsUniform availZero binOK rowBin sentOK slotAvail
    at h ⊢
  rw [hx, hg, hr, hR]
  exact h

/-- The scan preserves the sentinel discipline. -/
theorem scan_sentOK {P : GP} {sd : ℤ} {s : GS} (h : sentOK P sd s) :
    sentOK P sd { s with R2s := scanR2s P sd s } := by
  intro idx hidx
  by_cases hva : validJ sd (flatOf P.N idx) ∧ slotAvail s (flatOf P.N idx)
  · exact Or.inl hva
  · right
    rw [not_and_or] at hva
    show scanR2s P sd s idx = SENT
    have hunw : scanR2s P sd s idx = s.R2s idx := by
      refine scanR2s_not_written P sd s idx ?_
      intro j hj hv hg
      constructor
      · intro hje
        rw [hje] at hva
        have : flatOf P.N j = j := by unfold flatOf; simp [hj]
        rw [this] at hva
        rcases hva with hc | hc
        · exact hc hv
        · exact hc hg
      · intro hje
        rw [hje] at hva
        have : flatOf P.N (j + 3 * P.N) = j := by unfold flatOf; split <;> omega
        rw [this] at hva
        rcases hva with hc | hc
        · exact hc hv
        · exact hc hg
    rw [hunw]
    rcases h idx hidx with h' | h'
    · rcases hva with hc | hc
      · exact absurd h'.1 hc
      · exact absurd h'.2 hc
    · exact h'

/-- Placing a sign on an available slot and writing the sentinels into
the dipole's candidate slots preserves `InvB`. -/
theorem place_sent_InvB (P : GP) (sd : ℤ) (s : GS) (dip comp : ℕ) (sgn : ℚ)
    (hdip : dip < P.N) (hcomp : comp < 3) (hsgn : sgn = 1 ∨ sgn = -1)
    (havail : s.gam dip comp = true) (hI : InvB P sd s) :
    InvB P sd
      { place P dip comp sgn s with
        R2s := sentR2s P.N dip (place P dip comp sgn s).R2s } := by
  obtain ⟨⟨hres, hrows, hav, hbin⟩, hsent⟩ := hI
  have hrow0 : s.gam dip 0 = true := by
    rcases hrows dip hdip with h' | h'
    · exact h' 0 (by omega)
    · exact absurd havail (by simp [h' comp hcomp])
  have hzero : ∀ d < 3, s.x dip d = 0 := hav dip hdip hrow0
  have hcore : InvCore P (place P dip comp sgn s) :=
    ⟨place_resOK P s dip comp sgn hdip hcomp hres hzero,
     place_rowsUniform P s dip comp sgn hrows,
     place_availZero P s dip comp sgn hav,
     place_binOK P s dip comp sgn hcomp hsgn hbin hzero⟩
  refine ⟨?_, ?_⟩
  · exact hcore
  · -- sentinel discipline after disabling the dipole
    intro idx hidx
    by_cases hdb : flatOf P.N idx / 3 = dip
    · right
      show sentR2s P.N dip ((place P dip comp sgn s).R2s) idx = SENT
      unfold sentR2s
      rw [if_pos]
      unfold flatOf at hdb
      by_cases hlt : idx < 3 * P.N
      · left
        rw [if_pos hlt] at hdb
        exact ⟨hlt, hdb⟩
      · right
        rw [if_neg hlt] at hdb
        exact ⟨by omega, hidx, hdb⟩
    · have hRkeep : sentR2s P.N dip ((place P dip comp sgn s).R2s) idx =
          s.R2s idx := by
        unfold sentR2s
        rw [if_neg]
        · rfl
        · intro hc
          apply hdb
          unfold flatOf
          rcases hc with ⟨h1, h2⟩ | ⟨h1, h2, h3⟩
          · rw [if_pos h1]; exact h2
          · rw [if_neg (by omega)]; exact h3
      rcases hsent idx hidx with ⟨hv, ha⟩ | hS
      · left
        refine ⟨hv, ?_⟩
        show (place P dip comp sgn s).gam _ _ = true
        have : flatOf P.N idx / 3 ≠ dip := hdb
        simpa [place, this] using ha
      · right
        show sentR2s P.N dip ((place P dip comp sgn s).R2s) idx = SENT
        rw [hRkeep]
        exact hS

/-- One `GPMO_baseline` iteration preserves `InvB`, provided the
selected minimum is below the disabled-slot sentinel. -/
theorem GPMO_baseline_step_InvB (P : GP) (sd : ℤ) (K nh : ℕ) (vb : Bool)
    (k : ℕ) (s : GS) (hN : 0 < P.N) (hI : InvB P sd s)
    (hsel : selVal P sd s < SENT) :
    InvB P sd (GPMO_baseline_step P sd K nh vb k s) := by
  obtain ⟨hlt, hv, hav⟩ := selVal_lt_sent P sd s hN hI.2 hsel
  have hIscan : InvB P sd { s with R2s := scanR2s P sd s } :=
    ⟨hI.1, scan_sentOK hI.2⟩
  have hflat : (if 3 * P.N ≤ selIdx P.N (scanR2s P sd s)
      then selIdx P.N (scanR2s P sd s) - 3 * P.N
      else selIdx P.N (scanR2s P sd s)) =
      flatOf P.N (selIdx P.N (scanR2s P sd s)) := by
    unfold flatOf
    split <;> split <;> omega
  have hj0 : flatOf P.N (selIdx P.N (scanR2s P sd s)) < 3 * P.N :=
    flatOf_lt hlt
  have hstep : InvB P sd
      (let sel := selIdx P.N (scanR2s P sd s)
       let sgn : ℚ := if 3 * P.N ≤ sel then -1 else 1
       let j0 := if 3 * P.N ≤ sel then sel - 3 * P.N else sel
       let s1 := place P (j0 / 3) (j0 % 3) sgn { s with R2s := scanR2s P sd s }
       { s1 with R2s := sentR2s P.N (j0 / 3) s1.R2s }) := by
    simp only [hflat]
    refine place_sent_InvB P sd _ _ _ _ (by omega) (by omega) ?_ hav hIscan
    split
    · right; rfl
    · left; rfl
  unfold GPMO_baseline_step
  simp only [hflat] at hstep ⊢
  split
  · refine InvB_of_fields_eq ?_ ?_ ?_ ?_ hstep <;>
      (unfold print_GPMO; split <;> rfl)
  · exact hstep

/-- `InvCore` only reads the `x`, `gam`, `r` fields. -/
theorem InvCore_of_fields_eq {P : GP} {s t : GS} (hx : t.x = s.x)
    (hg : t.gam = s.gam) (hr : t.r = s.r) (h : InvCore P s) : InvCore P t := by
  unfold InvCore resOK rowsUniform availZero binOK rowBin at h ⊢
  rw [hx, hg, hr]
  exact h

/-- One `GPMO_MC` iteration preserves the core invariant, provided the
selected column is genuinely available. -/
theorem GPMO_MC_step_InvCore (P : GP) (K nh : ℕ) (vb : Bool) (k : ℕ) (s : GS)
    (hN : 0 < P.N) (hI : InvCore P s)
    (hav : s.gam (mcSel P s / 3) (mcSel P s % 3) = true) :
    InvCore P (GPMO_MC_step P K nh vb k s) := by
  obtain ⟨hres, hrows, havz, hbin⟩ := hI
  have hlen : ((List.range (3 * P.N)).map
      (fun j => if s.gam (j / 3) (j % 3) then |s.u j| else 0)).length =
      3 * P.N := by simp
  have hne : ((List.range (3 * P.N)).map
      (fun j => if s.gam (j / 3) (j % 3) then |s.u j| else 0)) ≠ [] := by
    intro hc
    rw [hc] at hlen
    simp at hlen
    omega
  have hsel3 : mcSel P s < 3 * P.N := by
    have := argmaxL_lt_length _ hne
    rwa [hlen] at this
  have hdip : mcSel P s / 3 < P.N := by omega
  have hrow0 : s.gam (mcSel P s / 3) 0 = true := by
    rcases hrows _ hdip with h' | h'
    · exact h' 0 (by omega)
    · exact absurd hav (by simp [h' (mcSel P s % 3) (by omega)])
  have hzero : ∀ d < 3, s.x (mcSel P s / 3) d = 0 := havz _ hdip hrow0
  have hplace : InvCore P (place P (mcSel P s / 3) (mcSel P s % 3)
      (if colDot P s.r (mcSel P s) (-1) < colDot P s.r (mcSel P s) 1
        then -1 else 1) s) := by
    refine ⟨place_resOK P s _ _ _ hdip (by omega) hres hzero,
      place_rowsUniform P s _ _ _ hrows,
      place_availZero P s _ _ _ havz,
      place_binOK P s _ _ _ (by omega) ?_ hbin hzero⟩
    split
    · right; rfl
    · left; rfl
  unfold GPMO_MC_step
  split
  · exact InvCore_of_fields_eq rfl rfl rfl hplace
  · exact InvCore_of_fields_eq rfl rfl rfl hplace

/-! ### Backtracking -/

theorem wyrmOne_placed (P : GP) (Conn : ℕ → ℕ → ℕ) (Nadj : ℕ) (s : GS)
    (jk : ℕ) : (wyrmOne P Conn Nadj s jk).placed = s.placed := by
  unfold wyrmOne
  split <;> rfl

/-- A row that is entirely zero is binary. -/
theorem rowBin_of_zero {x : ℕ → ℕ → ℚ} {i : ℕ} (h : ∀ d < 3, x i d = 0) :
    rowBin x i := by
  refine ⟨fun d hd => Or.inl (h d hd), ?_⟩
  intro d hd e he hde hx
  exact absurd (h d hd) hx

/-- `rowBin` only depends on the row's values. -/
theorem rowBin_congr {x y : ℕ → ℕ → ℚ} {i : ℕ}
    (h : ∀ d < 3, y i d = x i d) (hb : rowBin x i) : rowBin y i := by
  refine ⟨fun d hd => by rw [h d hd]; exact hb.1 d hd, ?_⟩
  intro d hd e he hde hy
  rw [h d hd] at hy
  rw [h e he]
  exact hb.2 d hd e he hde hy

/-- The wyrm-removal of a matched pair preserves the invariant and the
sign bookkeeping. -/
theorem wyrmOne_inv (P : GP) (sd : ℤ) (Conn : ℕ → ℕ → ℕ) (Nadj : ℕ)
    (hConn : ∀ a b, Conn a b < P.N) (s : GS) (jk : ℕ) (hjk : jk < P.N)
    (hI : InvB P sd s) (hskf : skfOK P s) :
    InvB P sd (wyrmOne P Conn Nadj s jk) ∧
      skfOK P (wyrmOne P Conn Nadj s jk) := by
  unfold wyrmOne
  split
  · exact ⟨hI, hskf⟩
  · rename_i jj heq
    have hpred := List.find?_some heq
    simp only [decide_eq_true_eq] at hpred
    obtain ⟨hsk0, hopp, hdd⟩ := hpred
    obtain ⟨⟨hres, hrows, havz, hbin⟩, hsent⟩ := hI
    have hcj : Conn jk jj < P.N := hConn jk jj
    have hsk2 : s.skf (Conn jk jj) ≠ 0 := by
      intro hc
      rw [hc] at hopp
      simp at hopp
      exact hsk0 hopp
    obtain ⟨hg1, hpm1, hd1, hx1, hoth1⟩ := (hskf jk hjk).2 hsk0
    obtain ⟨hg2, hpm2, hd2, hx2, hoth2⟩ := (hskf (Conn jk jj) hcj).2 hsk2
    have hne : jk ≠ Conn jk jj := by
      intro hc
      rw [← hc] at hopp
      have : s.skf jk = 0 := by linarith
      exact hsk0 this
    have hc1 : 3 * jk + s.skjjInd jk < 3 * P.N := by omega
    have hc2 : 3 * Conn jk jj + s.skjjInd (Conn jk jj) < 3 * P.N := by omega
    have hc12 : 3 * jk + s.skjjInd jk ≠
        3 * Conn jk jj + s.skjjInd (Conn jk jj) := by omega
    refine ⟨⟨⟨?_, ?_, ?_, ?_⟩, ?_⟩, ?_⟩
    · -- resOK
      intro g hg
      have hxform : ∀ j < 3 * P.N,
          (if (j / 3 = jk ∧ j % 3 = s.skjjInd jk) ∨
              (j / 3 = Conn jk jj ∧ j % 3 = s.skjjInd (Conn jk jj))
            then (0:ℚ) else s.x (j / 3) (j % 3)) =
          (if j = 3 * jk + s.skjjInd jk then (0:ℚ) else
            if j = 3 * Conn jk jj + s.skjjInd (Conn jk jj) then (0:ℚ)
            else s.x (j / 3) (j % 3)) := by
        intro j hj
        by_cases h1 : j = 3 * jk + s.skjjInd jk
        · rw [h1, if_pos (Or.inl ⟨(div_mod_flat hd1).1, (div_mod_flat hd1).2⟩),
            if_pos rfl]
        · by_cases h2 : j = 3 * Conn jk jj + s.skjjInd (Conn jk jj)
          · rw [h2,
              if_pos (Or.inr ⟨(div_mod_flat hd2).1, (div_mod_flat hd2).2⟩),
              if_neg (Ne.symm hc12), if_pos rfl]
          · have hno : ¬ ((j / 3 = jk ∧ j % 3 = s.skjjInd jk) ∨
                (j / 3 = Conn jk jj ∧
                  j % 3 = s.skjjInd (Conn jk jj))) := by
              rintro (⟨ha, hb⟩ | ⟨ha, hb⟩)
              · exact h1 (by omega)
              · exact h2 (by omega)
            rw [if_neg hno, if_neg h1, if_neg h2]
      show s.r g - _ = qsum (3 * P.N) _ - P.b g
      have hq1 : qsum (3 * P.N) (fun j => P.A j g *
          (if (j / 3 = jk ∧ j % 3 = s.skjjInd jk) ∨
              (j / 3 = Conn jk jj ∧ j % 3 = s.skjjInd (Conn jk jj))
            then (0:ℚ) else s.x (j / 3) (j % 3))) =
          qsum (3 * P.N) (fun j => P.A j g *
            (if j = 3 * jk + s.skjjInd jk then (0:ℚ) else
              if j = 3 * Conn jk jj + s.skjjInd (Conn jk jj) then (0:ℚ)
              else s.x (j / 3) (j % 3))) :=
        qsum_congr (fun j hj => by rw [hxform j hj])
      have hq2 := qsum_update (3 * P.N) (3 * jk + s.skjjInd jk) hc1
        (fun j => if j = 3 * Conn jk jj + s.skjjInd (Conn jk jj) then (0:ℚ)
          else s.x (j / 3) (j % 3))
        (fun j => P.A j g) 0
      have hq3 := qsum_update (3 * P.N)
        (3 * Conn jk jj + s.skjjInd (Conn jk jj)) hc2
        (fun j => s.x (j / 3) (j % 3)) (fun j => P.A j g) 0
      rw [hq1, hq2, hq3, if_neg hc12]
      rw [(div_mod_flat hd1).1, (div_mod_flat hd1).2,
        (div_mod_flat hd2).1, (div_mod_flat hd2).2, hx1, hx2, hres g hg]
      ring
    · -- rowsUniform
      intro i hi
      by_cases hp : i = jk ∨ i = Conn jk jj
      · left
        intro d _
        simp [hp]
      · rcases hrows i hi with h' | h'
        · left
          intro d hd
          simpa [hp] using h' d hd
        · right
          intro d hd
          simpa [hp] using h' d hd
    · -- availZero
      intro i hi hg0 d hd
      show (if (i = jk ∧ d = s.skjjInd jk) ∨
          (i = Conn jk jj ∧ d = s.skjjInd (Conn jk jj)) then (0:ℚ)
          else s.x i d) = 0
      by_cases hcd : (i = jk ∧ d = s.skjjInd jk) ∨
          (i = Conn jk jj ∧ d = s.skjjInd (Conn jk jj))
      · rw [if_pos hcd]
      · rw [if_neg hcd]
        by_cases hp1 : i = jk
        · rw [hp1]
          exact hoth1 d hd (fun hc => hcd (Or.inl ⟨hp1, hc⟩))
        · by_cases hp2 : i = Conn jk jj
          · rw [hp2]
            exact hoth2 d hd (fun hc => hcd (Or.inr ⟨hp2, hc⟩))
          · have hg0' : (if i = jk ∨ i = Conn jk jj then true
                else s.gam i 0) = true := hg0
            rw [if_neg (fun hc => hc.elim hp1 hp2)] at hg0'
            exact havz i hi hg0' d hd
    · -- binOK
      intro i hi
      by_cases hp1 : i = jk
      · refine rowBin_of_zero ?_
        intro d hd
        show (if (i = jk ∧ d = s.skjjInd jk) ∨
            (i = Conn jk jj ∧ d = s.skjjInd (Conn jk jj)) then (0:ℚ)
            else s.x i d) = 0
        by_cases hcd : (i = jk ∧ d = s.skjjInd jk) ∨
            (i = Conn jk jj ∧ d = s.skjjInd (Conn jk jj))
        · rw [if_pos hcd]
        · rw [if_neg hcd, hp1]
          exact hoth1 d hd (fun hc => hcd (Or.inl ⟨hp1, hc⟩))
      · by_cases hp2 : i = Conn jk jj
        · refine rowBin_of_zero ?_
          intro d hd
          show (if (i = jk ∧ d = s.skjjInd jk) ∨
              (i = Conn jk jj ∧ d = s.skjjInd (Conn jk jj)) then (0:ℚ)
              else s.x i d) = 0
          by_cases hcd : (i = jk ∧ d = s.skjjInd jk) ∨
              (i = Conn jk jj ∧ d = s.skjjInd (Conn jk jj))
          · rw [if_pos hcd]
          · rw [if_neg hcd, hp2]
            exact hoth2 d hd (fun hc => hcd (Or.inr ⟨hp2, hc⟩))
        · refine rowBin_congr ?_ (hbin i hi)
          intro d hd
          show (if (i = jk ∧ d = s.skjjInd jk) ∨
              (i = Conn jk jj ∧ d = s.skjjInd (Conn jk jj)) then (0:ℚ)
              else s.x i d) = s.x i d
          rw [if_neg]
          rintro (⟨hc, _⟩ | ⟨hc, _⟩)
          · exact hp1 hc
          · exact hp2 hc
    · -- sentOK
      intro idx hidx
      rcases hsent idx hidx with ⟨hv, ha⟩ | hS
      · left
        refine ⟨hv, ?_⟩
        show (if flatOf P.N idx / 3 = jk ∨ flatOf P.N idx / 3 = Conn jk jj
          then true else s.gam (flatOf P.N idx / 3) (flatOf P.N idx % 3)) = true
        split
        · rfl
        · exact ha
      · exact Or.inr hS
    · -- skfOK
      intro i hi
      by_cases hp : i = jk ∨ i = Conn jk jj
      · constructor
        · intro _
          show (if i = jk ∨ i = Conn jk jj then (0:ℚ) else s.skf i) = 0
          rw [if_pos hp]
        · intro hcon
          have h0 : (if i = jk ∨ i = Conn jk jj then (0:ℚ) else s.skf i) = 0 := by
            rw [if_pos hp]
          exact absurd h0 hcon
      · rw [not_or] at hp
        have hnp : ¬ (i = jk ∨ i = Conn jk jj) := fun hc => hc.elim hp.1 hp.2
        have hcd : ∀ d, ¬ ((i = jk ∧ d = s.skjjInd jk) ∨
            (i = Conn jk jj ∧ d = s.skjjInd (Conn jk jj))) := by
          intro d
          rintro (⟨hc, _⟩ | ⟨hc, _⟩)
          · exact hp.1 hc
          · exact hp.2 hc
        constructor
        · intro h0
          have h0' : (if i = jk ∨ i = Conn jk jj then true else s.gam i 0) =
              true := h0
          rw [if_neg hnp] at h0'
          show (if i = jk ∨ i = Conn jk jj then (0:ℚ) else s.skf i) = 0
          rw [if_neg hnp]
          exact (hskf i hi).1 h0'
        · intro hcon
          have hcon' : s.skf i ≠ 0 := by
            intro hc
            apply hcon
            show (if i = jk ∨ i = Conn jk jj then (0:ℚ) else s.skf i) = 0
            rw [if_neg hnp]
            exact hc
          obtain ⟨ha1, ha2, ha3, ha4, ha5⟩ := (hskf i hi).2 hcon'
          refine ⟨?_, ?_, ha3, ?_, ?_⟩
          · show (if i = jk ∨ i = Conn jk jj then true else s.gam i 0) = false
            rw [if_neg hnp]
            exact ha1
          · show (if i = jk ∨ i = Conn jk jj then (0:ℚ) else s.skf i) = 1 ∨
              (if i = jk ∨ i = Conn jk jj then (0:ℚ) else s.skf i) = -1
            rw [if_neg hnp]
            exact ha2
          · show (if (i = jk ∧ s.skjjInd i = s.skjjInd jk) ∨
                (i = Conn jk jj ∧ s.skjjInd i = s.skjjInd (Conn jk jj))
                then (0:ℚ) else s.x i (s.skjjInd i)) =
              (if i = jk ∨ i = Conn jk jj then (0:ℚ) else s.skf i)
            rw [if_neg (hcd _), if_neg hnp]
            exact ha4
          · intro d hd hdne
            show (if (i = jk ∧ d = s.skjjInd jk) ∨
                (i = Conn jk jj ∧ d = s.skjjInd (Conn jk jj))
                then (0:ℚ) else s.x i d) = 0
            rw [if_neg (hcd _)]
            exact ha5 d hd hdne

/-- The wyrm pass over any list of placed dipoles preserves the
invariant, the sign bookkeeping and the placement log. -/
theorem wyrmFold_inv (P : GP) (sd : ℤ) (Conn : ℕ → ℕ → ℕ) (Nadj : ℕ)
    (hConn : ∀ a b, Conn a b < P.N) (l : List ℕ)
    (hl : ∀ jk ∈ l, jk < P.N) (s : GS) (hI : InvB P sd s) (hskf : skfOK P s) :
    InvB P sd (l.foldl (wyrmOne P Conn Nadj) s) ∧
      skfOK P (l.foldl (wyrmOne P Conn Nadj) s) ∧
      (l.foldl (wyrmOne P Conn Nadj) s).placed = s.placed := by
  induction l generalizing s with
  | nil => exact ⟨hI, hskf, rfl⟩
  | cons a l ih =>
      rw [List.foldl_cons]
      obtain ⟨hI', hskf'⟩ := wyrmOne_inv P sd Conn Nadj hConn s a
        (hl a (by simp)) hI hskf
      obtain ⟨h1, h2, h3⟩ := ih (fun jk hjk => hl jk (List.mem_cons_of_mem a hjk))
        (wyrmOne P Conn Nadj s a) hI' hskf'
      exact ⟨h1, h2, by rw [h3, wyrmOne_placed]⟩

/-- One `GPMO_backtracking` iteration preserves the full backtracking
invariant, provided the selected minimum is below the sentinel. -/
theorem GPMO_backtracking_step_InvBt (P : GP) (sd : ℤ) (Conn : ℕ → ℕ → ℕ)
    (Nadj bt K nh : ℕ) (vb : Bool) (k : ℕ) (s : GS) (hN : 0 < P.N)
    (hConn : ∀ a b, Conn a b < P.N) (hI : InvBt P sd s)
    (hsel : selVal P sd s < SENT) :
    InvBt P sd (GPMO_backtracking_step P sd Conn Nadj bt K nh vb k s) := by
  obtain ⟨hIB, hskf, hplaced⟩ := hI
  obtain ⟨hlt, hv, hav⟩ := selVal_lt_sent P sd s hN hIB.2 hsel
  have hIscan : InvB P sd { s with R2s := scanR2s P sd s } :=
    ⟨hIB.1, scan_sentOK hIB.2⟩
  have hflat : (if 3 * P.N ≤ selIdx P.N (scanR2s P sd s)
      then selIdx P.N (scanR2s P sd s) - 3 * P.N
      else selIdx P.N (scanR2s P sd s)) =
      flatOf P.N (selIdx P.N (scanR2s P sd s)) := by
    unfold flatOf
    split <;> split <;> omega
  have hj0 : flatOf P.N (selIdx P.N (scanR2s P sd s)) < 3 * P.N :=
    flatOf_lt hlt
  -- names for the selection quantities
  set sel := selIdx P.N (scanR2s P sd s) with hseldef
  set sgn : ℚ := if 3 * P.N ≤ sel then (-1:ℚ) else 1 with hsgndef
  set j0 := flatOf P.N sel with hj0def
  set dip := j0 / 3 with hdipdef
  set comp := j0 % 3 with hcompdef
  have hdip : dip < P.N := by omega
  have hcomp : comp < 3 := by omega
  have hsgn : sgn = 1 ∨ sgn = -1 := by
    rw [hsgndef]
    split
    · right; rfl
    · left; rfl
  have hrow0 : s.gam dip 0 = true := by
    rcases hIB.1.2.1 dip hdip with h' | h'
    · exact h' 0 (by omega)
    · exact absurd hav (by simp [slotAvail, ← hdipdef, ← hcompdef, h' comp hcomp])
  have hzero : ∀ d < 3, s.x dip d = 0 :=
    hIB.1.2.2.1 dip hdip hrow0
  -- the placed-and-marked state s2
  have hI1 : InvB P sd
      { place P dip comp sgn { s with R2s := scanR2s P sd s } with
        R2s := sentR2s P.N dip
          (place P dip comp sgn { s with R2s := scanR2s P sd s }).R2s } :=
    place_sent_InvB P sd _ dip comp sgn hdip hcomp hsgn hav hIscan
  have hI2 : InvB P sd
      (let s1 := place P dip comp sgn { s with R2s := scanR2s P sd s }
       { s1 with
         R2s := sentR2s P.N dip s1.R2s
         skf := fun i => if i = dip then sgn else s1.skf i
         skjjInd := fun i => if i = dip then comp else s1.skjjInd i }) :=
    InvB_of_fields_eq rfl rfl rfl rfl hI1
  have hskf2 : skfOK P
      (let s1 := place P dip comp sgn { s with R2s := scanR2s P sd s }
       { s1 with
         R2s := sentR2s P.N dip s1.R2s
         skf := fun i => if i = dip then sgn else s1.skf i
         skjjInd := fun i => if i = dip then comp else s1.skjjInd i }) := by
    intro i hi
    by_cases hid : i = dip
    · constructor
      · intro hg0
        have hg0' : (if i = dip then false else s.gam i 0) = true := hg0
        simp [hid] at hg0'
      · intro _
        refine ⟨?_, ?_, ?_, ?_, ?_⟩
        · show (if i = dip then false else s.gam i 0) = false
          simp [hid]
        · show (if i = dip then sgn else s.skf i) = 1 ∨
            (if i = dip then sgn else s.skf i) = -1
          simpa [hid] using hsgn
        · show (if i = dip then comp else s.skjjInd i) < 3
          simpa [hid] using hcomp
        · show (if i = dip ∧ (if i = dip then comp else s.skjjInd i) = comp
              then sgn
              else s.x i (if i = dip then comp else s.skjjInd i)) =
            (if i = dip then sgn else s.skf i)
          simp [hid]
        · intro d hd hdne
          have hdne' : d ≠ (if i = dip then comp else s.skjjInd i) := hdne
          simp only [hid, if_true, eq_self_iff_true] at hdne'
          show (if i = dip ∧ d = comp then sgn else s.x i d) = 0
          simp [hid, hdne', hzero d hd]
    · constructor
      · intro hg0
        have hg0' : (if i = dip then false else s.gam i 0) = true := hg0
        rw [if_neg hid] at hg0'
        show (if i = dip then sgn else s.skf i) = 0
        rw [if_neg hid]
        exact (hskf i hi).1 hg0'
      · intro hcon
        have hcon' : s.skf i ≠ 0 := by
          intro hc
          apply hcon
          show (if i = dip then sgn else s.skf i) = 0
          rw [if_neg hid]
          exact hc
        obtain ⟨ha1, ha2, ha3, ha4, ha5⟩ := (hskf i hi).2 hcon'
        refine ⟨?_, ?_, ?_, ?_, ?_⟩
        · show (if i = dip then false else s.gam i 0) = false
          rw [if_neg hid]
          exact ha1
        · show (if i = dip then sgn else s.skf i) = 1 ∨
            (if i = dip then sgn else s.skf i) = -1
          rw [if_neg hid]
          exact ha2
        · show (if i = dip then comp else s.skjjInd i) < 3
          rw [if_neg hid]
          exact ha3
        · show (if i = dip ∧ (if i = dip then comp else s.skjjInd i) = comp
              then sgn
              else s.x i (if i = dip then comp else s.skjjInd i)) =
            (if i = dip then sgn else s.skf i)
          simpa [hid] using ha4
        · intro d hd hdne
          have hdne' : d ≠ (if i = dip then comp else s.skjjInd i) := hdne
          rw [if_neg hid] at hdne'
          show (if i = dip ∧ d = comp then sgn else s.x i d) = 0
          simpa [hid] using ha5 d hd hdne'
  -- transports through the history snapshot and the log append
  have hprint : ∀ t : GS, (print_GPMO P K nh k t).x = t.x ∧
      (print_GPMO P K nh k t).gam = t.gam ∧ (print_GPMO P K nh k t).r = t.r ∧
      (print_GPMO P K nh k t).R2s = t.R2s ∧
      (print_GPMO P K nh k t).skf = t.skf ∧
      (print_GPMO P K nh k t).skjjInd = t.skjjInd ∧
      (print_GPMO P K nh k t).placed = t.placed := by
    intro t
    unfold print_GPMO
    split <;> exact ⟨rfl, rfl, rfl, rfl, rfl, rfl, rfl⟩
  have hassemble : ∀ t : GS, InvB P sd t → skfOK P t → t.placed = s.placed →
      InvBt P sd (if vb then
        print_GPMO P K nh k { t with placed := s.placed ++ [dip] }
        else { t with placed := s.placed ++ [dip] }) := by
    intro t hIt hskft hplt
    have hIB4 : InvB P sd { t with placed := s.placed ++ [dip] } :=
      InvB_of_fields_eq rfl rfl rfl rfl hIt
    have hskf4 : skfOK P { t with placed := s.placed ++ [dip] } := hskft
    have hpl4 : placedOK P { t with placed := s.placed ++ [dip] } := by
      intro jk hjk
      rcases List.mem_append.mp hjk with h | h
      · exact hplaced jk h
      · have : jk = dip := by simpa using h
        rw [this]
        exact hdip
    split
    · obtain ⟨e1, e2, e3, e4, e5, e6, e7⟩ :=
        hprint { t with placed := s.placed ++ [dip] }
      refine ⟨InvB_of_fields_eq e1 e2 e3 e4 hIB4, ?_, ?_⟩
      · unfold skfOK at hskf4 ⊢
        rw [e1, e2, e5, e6]
        exact hskf4
      · unfold placedOK at hpl4 ⊢
        rw [e7]
        exact hpl4
    · exact ⟨hIB4, hskf4, hpl4⟩
  -- the skf bookkeeping of the freshly placed dipole, and the wyrm pass
  show InvBt P sd (GPMO_backtracking_step P sd Conn Nadj bt K nh vb k s)
  simp only [GPMO_backtracking_step]
  rw [← hseldef]
  rw [← hsgndef]
  rw [hflat, ← hdipdef, ← hcompdef]
  by_cases hbt : 0 < k ∧ k % bt = 0
  · rw [if_pos hbt]
    obtain ⟨h1, h2, h3⟩ := wyrmFold_inv P sd Conn Nadj hConn s.placed hplaced
      _ hI2 hskf2
    have hpl : (s.placed.foldl (wyrmOne P Conn Nadj)
        (let s1 := place P dip comp sgn { s with R2s := scanR2s P sd s }
         { s1 with
           R2s := sentR2s P.N dip s1.R2s
           skf := fun i => if i = dip then sgn else s1.skf i
           skjjInd := fun i => if i = dip then comp else s1.skjjInd i })).placed =
        s.placed := h3
    exact hassemble _ h1 h2 hpl
  · rw [if_neg hbt]
    exact hassemble _ hI2 hskf2 rfl

/-! ### Multi -/

theorem foldl_bind_none {α β : Type} (g : α → β → Option β) (l : List α) :
    l.foldl (fun ob a => ob.bind (g a)) none = none := by
  induction l with
  | nil => rfl
  | cons a l ih => simpa using ih

/-- A successful neighbour search lands on an available dipole, and the
result stays below any bound respected by the start point and the table
row. -/
theorem searchAvail_spec (gam : ℕ → ℕ → Bool) (row : ℕ → ℕ) (Nadj comp n : ℕ)
    (hrow : ∀ t, row t < n) :
    ∀ (fuel cj ct cj' ct' : ℕ), cj < n →
      searchAvail gam row Nadj comp cj ct fuel = some (cj', ct') →
      cj' < n ∧ gam cj' comp = true := by
  intro fuel
  induction fuel with
  | zero =>
      intro cj ct cj' ct' hcj heq
      unfold searchAvail at heq
      split at heq
      · rename_i hg
        simp only [Option.some.injEq, Prod.mk.injEq] at heq
        obtain ⟨h1, h2⟩ := heq
        rw [← h1]
        exact ⟨hcj, hg⟩
      · exact absurd heq (by simp)
  | succ fuel ih =>
      intro cj ct cj' ct' hcj heq
      unfold searchAvail at heq
      split at heq
      · rename_i hg
        simp only [Option.some.injEq, Prod.mk.injEq] at heq
        obtain ⟨h1, h2⟩ := heq
        rw [← h1]
        exact ⟨hcj, hg⟩
      · exact ih (row (Nadj + ct)) (ct + 1) cj' ct' (hrow _) heq

/-- The commit loop of `GPMO_multi` preserves `InvB`: every placement it
makes lands on an available (hence empty) dipole row. -/
theorem multiCommitFold_InvB (P : GP) (sd : ℤ) (Conn : ℕ → ℕ → ℕ)
    (Nadj dip comp : ℕ) (sgn : ℚ) (hcomp : comp < 3)
    (hsgn : sgn = 1 ∨ sgn = -1) (hConn : ∀ a b, Conn a b < P.N)
    (l : List ℕ) :
    ∀ (st : GS) (ct : ℕ) (res : GS × ℕ), InvB P sd st →
      (l.foldl
        (fun acc jj => acc.bind (fun a =>
          (searchAvail a.1.gam (Conn dip) Nadj comp (Conn dip jj) a.2
              2000).map
            (fun cc =>
              (let s1 := place P cc.1 comp sgn a.1
               { s1 with R2s := sentR2s P.N cc.1 s1.R2s }, cc.2))))
        (some (st, ct))) = some res →
      InvB P sd res.1 := by
  induction l with
  | nil =>
      intro st ct res hI heq
      simp only [List.foldl_nil, Option.some.injEq] at heq
      rw [← heq]
      exact hI
  | cons jj l ih =>
      intro st ct res hI heq
      rw [List.foldl_cons] at heq
      simp only [Option.some_bind] at heq
      rcases hsrc : searchAvail st.gam (Conn dip) Nadj comp (Conn dip jj) ct
          2000 with _ | ⟨cj', ct'⟩
      · rw [hsrc] at heq
        simp only [Option.map_none'] at heq
        rw [foldl_bind_none] at heq
        exact absurd heq (by simp)
      · rw [hsrc] at heq
        simp only [Option.map_some'] at heq
        obtain ⟨hcj', hav'⟩ := searchAvail_spec st.gam (Conn dip) Nadj comp
          P.N (fun t => hConn dip t) 2000 (Conn dip jj) ct cj' ct'
          (hConn dip jj) hsrc
        have hrow0 : st.gam cj' comp = true := hav'
        have hI1 : InvB P sd
            (let s1 := place P cj' comp sgn st
             { s1 with R2s := sentR2s P.N cj' s1.R2s }) :=
          place_sent_InvB P sd st cj' comp sgn hcj' hcomp hsgn hrow0 hI
        exact ih _ ct' res hI1 heq

theorem multiScanFold_not_written (P : GP) (Conn : ℕ → ℕ → ℕ) (Nadj : ℕ)
    (s : GS) (l : List ℕ) :
    ∀ (f R2n : ℕ → ℚ) (idx : ℕ),
      (∀ j ∈ l, s.gam (j / 3) (j % 3) = true →
        idx ≠ j ∧ idx ≠ j + 3 * P.N) →
      (l.foldl
        (fun of j => of.bind (fun f' =>
          if s.gam (j / 3) (j % 3) then
            (multiR2 P s.gam s.r Conn Nadj j).map (fun a => fun i =>
              if i = j then a.1
              else if i = j + 3 * P.N then a.2
              else f' i)
          else some f'))
        (some f)) = some R2n →
      R2n idx = f idx := by
  induction l with
  | nil =>
      intro f R2n idx _ heq
      simp only [List.foldl_nil, Option.some.injEq] at heq
      rw [← heq]
  | cons j l ih =>
      intro f R2n idx h heq
      rw [List.foldl_cons] at heq
      simp only [Option.some_bind] at heq
      by_cases hg : s.gam (j / 3) (j % 3) = true
      · rw [if_pos hg] at heq
        rcases hm : multiR2 P s.gam s.r Conn Nadj j with _ | a
        · rw [hm] at heq
          simp only [Option.map_none'] at heq
          rw [foldl_bind_none] at heq
          exact absurd heq (by simp)
        · rw [hm] at heq
          simp only [Option.map_some'] at heq
          have hidx := h j (by simp) hg
          have := ih _ R2n idx
            (fun j' hj' hg' => h j' (List.mem_cons_of_mem j hj') hg') heq
          rw [this, if_neg hidx.1, if_neg hidx.2]
      · rw [if_neg hg] at heq
        exact ih _ R2n idx
          (fun j' hj' hg' => h j' (List.mem_cons_of_mem j hj') hg') heq

/-- A successful `GPMO_multi` scan preserves the sentinel discipline. -/
theorem multiScan_sentOK {P : GP} {sd : ℤ} {Conn : ℕ → ℕ → ℕ} {Nadj : ℕ}
    {s : GS} {R2n : ℕ → ℚ} (h : sentOK P sd s)
    (heq : multiScan P sd Conn Nadj s = some R2n) :
    sentOK P sd { s with R2s := R2n } := by
  intro idx hidx
  by_cases hva : validJ sd (flatOf P.N idx) ∧ slotAvail s (flatOf P.N idx)
  · exact Or.inl hva
  · right
    rw [not_and_or] at hva
    show R2n idx = SENT
    have hunw : R2n idx = s.R2s idx := by
      refine multiScanFold_not_written P Conn Nadj s _ _ _ idx ?_ heq
      intro j hj hg
      obtain ⟨hjlt, hjv⟩ := scanIdxs_mem.mp hj
      constructor
      · intro hje
        rw [hje] at hva
        have : flatOf P.N j = j := by unfold flatOf; simp [hjlt]
        rw [this] at hva
        rcases hva with hc | hc
        · exact hc hjv
        · exact hc hg
      · intro hje
        rw [hje] at hva
        have : flatOf P.N (j + 3 * P.N) = j := by unfold flatOf; split <;> omega
        rw [this] at hva
        rcases hva with hc | hc
        · exact hc hjv
        · exact hc hg
    rw [hunw]
    rcases h idx hidx with h' | h'
    · rcases hva with hc | hc
      · exact absurd h'.1 hc
      · exact absurd h'.2 hc
    · exact h'

/-- One `GPMO_multi` iteration preserves `InvB` whenever it succeeds. -/
theorem GPMO_multi_step_InvB (P : GP) (sd : ℤ) (Conn : ℕ → ℕ → ℕ)
    (Nadj K nh : ℕ) (vb : Bool) (k : ℕ) (s : GS)
    (hConn : ∀ a b, Conn a b < P.N) (hI : InvB P sd s) :
    ∀ s', GPMO_multi_step P sd Conn Nadj K nh vb k s = some s' →
      InvB P sd s' := by
  intro s' heq
  unfold GPMO_multi_step at heq
  rw [Option.bind_eq_some] at heq
  obtain ⟨R2n, hscan, heq⟩ := heq
  rw [Option.map_eq_some'] at heq
  obtain ⟨s2, hcommit, heq⟩ := heq
  have hIscan : InvB P sd { s with R2s := R2n } :=
    ⟨hI.1, multiScan_sentOK hI.2 hscan⟩
  have hsgn : (if 3 * P.N ≤ selIdx P.N R2n then (-1:ℚ) else 1) = 1 ∨
      (if 3 * P.N ≤ selIdx P.N R2n then (-1:ℚ) else 1) = -1 := by
    split
    · right; rfl
    · left; rfl
  have hcomp : (if 3 * P.N ≤ selIdx P.N R2n
      then selIdx P.N R2n - 3 * P.N else selIdx P.N R2n) % 3 < 3 := by omega
  have hI2 : InvB P sd s2 := by
    unfold multiCommit at hcommit
    rw [Option.map_eq_some'] at hcommit
    obtain ⟨res, hfold, hres⟩ := hcommit
    rw [← hres]
    exact multiCommitFold_InvB P sd Conn Nadj _ _ _ hcomp hsgn hConn _
      _ 0 res hIscan hfold
  rw [← heq]
  split
  · exact InvB_of_fields_eq
      (by unfold print_GPMO; split <;> rfl)
      (by unfold print_GPMO; split <;> rfl)
      (by unfold print_GPMO; split <;> rfl)
      (by unfold print_GPMO; split <;> rfl) hI2
  · exact hI2

/-! ### The fresh state -/

theorem qsum_zero_fun (n : ℕ) : qsum n (fun _ => (0:ℚ)) = 0 := by
  induction n with
  | zero => rfl
  | succ m ih => rw [qsum_succ, ih]; ring

theorem initGS_InvB (P : GP) (sd : ℤ) : InvB P sd (initGS P) := by
  refine ⟨⟨?_, ?_, ?_, ?_⟩, ?_⟩
  · intro g hg
    show -P.b g = qsum (3 * P.N) (fun _ => P.A _ g * 0) - P.b g
    rw [show (qsum (3 * P.N) fun j => P.A j g * 0) =
      qsum (3 * P.N) (fun _ => (0:ℚ)) from qsum_congr (fun j _ => by ring),
      qsum_zero_fun]
    ring
  · intro i _
    left
    intro d _
    rfl
  · intro i _ _ d _
    rfl
  · intro i _
    exact rowBin_of_zero (fun d _ => rfl)
  · intro idx _
    right
    rfl

theorem initGS_skfOK (P : GP) : skfOK P (initGS P) := by
  intro i _
  exact ⟨fun _ => rfl, fun hc => absurd rfl hc⟩

theorem initGS_placedOK (P : GP) : placedOK P (initGS P) := by
  intro jk hjk
  exact absurd hjk (List.not_mem_nil jk)

theorem initGS_InvBt (P : GP) (sd : ℤ) : InvBt P sd (initGS P) :=
  ⟨initGS_InvB P sd, initGS_skfOK P, initGS_placedOK P⟩

/-! ### The behaviour of an exhausted baseline iteration -/

/-- C6 (amended): `GPMO_baseline` runs exactly `K` iterations and does
not stop early.  When every dipole is disabled and the whole candidate
table holds the `1e50` sentinel, an iteration still "places a magnet":
the first-minimum selection lands on slot `0`, `x(0,0)` is set to `+1`,
and column `0` is added into the running residual once more; histories
keep being written on the normal schedule rather than truncated. -/
theorem GPMO_exhausted_keeps_placing (P : GP) (sd : ℤ) (K nh : ℕ)
    (vb : Bool) (k : ℕ) (s : GS) (hN : 0 < P.N)
    (hgam : ∀ i < P.N, ∀ d < 3, s.gam i d = false)
    (hR2 : ∀ idx < 6 * P.N, s.R2s idx = SENT) :
    (GPMO_baseline_step P sd K nh vb k s).x 0 0 = 1 ∧
    ∀ g, (GPMO_baseline_step P sd K nh vb k s).r g = s.r g + P.A 0 g := by
  have hscan : ∀ idx, scanR2s P sd s idx = s.R2s idx := by
    intro idx
    refine scanR2s_not_written P sd s idx ?_
    intro j hj _ hg
    have : s.gam (j / 3) (j % 3) = false :=
      hgam (j / 3) (by omega) (j % 3) (by omega)
    rw [this] at hg
    exact absurd hg (by simp)
  have hconst : ∀ v ∈ (List.range (6 * P.N)).map (scanR2s P sd s), v = SENT := by
    intro v hv
    rw [List.mem_map] at hv
    obtain ⟨idx, hidx, hveq⟩ := hv
    rw [List.mem_range] at hidx
    rw [← hveq, hscan idx, hR2 idx hidx]
  have hsel0 : selIdx P.N (scanR2s P sd s) = 0 :=
    argminL_const _ SENT hconst
  have hno0 : ¬ (3 * P.N ≤ 0) := by omega
  have hxv : ∀ t : GS, (if vb then print_GPMO P K nh k t else t).x = t.x := by
    intro t
    split
    · unfold print_GPMO; split <;> rfl
    · rfl
  have hrv : ∀ t : GS, (if vb then print_GPMO P K nh k t else t).r = t.r := by
    intro t
    split
    · unfold print_GPMO; split <;> rfl
    · rfl
  constructor
  · show (GPMO_baseline_step P sd K nh vb k s).x 0 0 = 1
    simp only [GPMO_baseline_step, hsel0, if_neg hno0, Nat.zero_div,
      Nat.zero_mod]
    rw [hxv]
    show (if (0 = 0 ∧ 0 = 0) then (1:ℚ) else s.x 0 0) = 1
    rw [if_pos ⟨rfl, rfl⟩]
  · intro g
    show (GPMO_baseline_step P sd K nh vb k s).r g = s.r g + P.A 0 g
    simp only [GPMO_baseline_step, hsel0, if_neg hno0, Nat.zero_div,
      Nat.zero_mod]
    rw [hrv]
    show s.r g + 1 * P.A (3 * 0 + 0) g = s.r g + P.A 0 g
    norm_num

/-! ### The sign choice of `GPMO_MC` -/

/-- C2 (amended): after one `GPMO_MC` iteration the squared norm of the
running residual equals the smaller of the two sign options `R2⁺`/`R2⁻`
at the selected column — the sign choice is locally optimal — but
nothing relates the new value to `‖r‖²` before the iteration, so the
sampled objective `R² = ½‖r‖²` is not monotone. -/
theorem GPMO_MC_sign_choice (P : GP) (K nh : ℕ) (vb : Bool) (k : ℕ) (s : GS) :
    sumSq P (GPMO_MC_step P K nh vb k s).r =
      min (colDot P s.r (mcSel P s) 1) (colDot P s.r (mcSel P s) (-1)) := by
  have hflat : 3 * (mcSel P s / 3) + mcSel P s % 3 = mcSel P s :=
    Nat.div_add_mod _ 3
  have hr : (GPMO_MC_step P K nh vb k s).r = fun i =>
      s.r i + (if colDot P s.r (mcSel P s) (-1) < colDot P s.r (mcSel P s) 1
        then (-1:ℚ) else 1) * P.A (mcSel P s) i := by
    simp only [GPMO_MC_step]
    split <;> (funext i; show s.r i + _ * P.A (3 * (mcSel P s / 3) +
      mcSel P s % 3) i = _; rw [hflat])
  rw [hr]
  by_cases hlt : colDot P s.r (mcSel P s) (-1) < colDot P s.r (mcSel P s) 1
  · simp only [if_pos hlt]
    rw [min_eq_right (le_of_lt hlt)]
    rfl
  · simp only [if_neg hlt]
    rw [min_eq_left (le_of_not_lt hlt)]
    rfl

/-! ### Quiet runs never touch the histories -/

theorem GPMO_MC_step_hist (P : GP) (K nh : ℕ) (k : ℕ) (s : GS) :
    (GPMO_MC_step P K nh false k s).objH = s.objH ∧
    (GPMO_MC_step P K nh false k s).mH = s.mH := by
  unfold GPMO_MC_step
  rw [if_neg (by simp)]
  exact ⟨rfl, rfl⟩

theorem wyrmOne_hist (P : GP) (Conn : ℕ → ℕ → ℕ) (Nadj : ℕ) (s : GS)
    (jk : ℕ) : (wyrmOne P Conn Nadj s jk).objH = s.objH ∧
      (wyrmOne P Conn Nadj s jk).mH = s.mH := by
  unfold wyrmOne
  split <;> exact ⟨rfl, rfl⟩

theorem wyrmFold_hist (P : GP) (Conn : ℕ → ℕ → ℕ) (Nadj : ℕ) (l : List ℕ) :
    ∀ s : GS, (l.foldl (wyrmOne P Conn Nadj) s).objH = s.objH ∧
      (l.foldl (wyrmOne P Conn Nadj) s).mH = s.mH := by
  induction l with
  | nil => exact fun s => ⟨rfl, rfl⟩
  | cons a l ih =>
      intro s
      rw [List.foldl_cons]
      obtain ⟨h1, h2⟩ := ih (wyrmOne P Conn Nadj s a)
      obtain ⟨h3, h4⟩ := wyrmOne_hist P Conn Nadj s a
      exact ⟨h1.trans h3, h2.trans h4⟩

theorem GPMO_backtracking_step_hist (P : GP) (sd : ℤ) (Conn : ℕ → ℕ → ℕ)
    (Nadj bt K nh : ℕ) (k : ℕ) (s : GS) :
    (GPMO_backtracking_step P sd Conn Nadj bt K nh false k s).objH = s.objH ∧
    (GPMO_backtracking_step P sd Conn Nadj bt K nh false k s).mH = s.mH := by
  unfold GPMO_backtracking_step
  split
  · obtain ⟨h1, h2⟩ := wyrmFold_hist P Conn Nadj s.placed _
    exact ⟨h1, h2⟩
  · exact ⟨rfl, rfl⟩

theorem foldl_hist_pres (step : ℕ → GS → GS)
    (hs : ∀ k s, (step k s).objH = s.objH ∧ (step k s).mH = s.mH)
    (l : List ℕ) : ∀ s : GS,
      (l.foldl (fun s k => step k s) s).objH = s.objH ∧
      (l.foldl (fun s k => step k s) s).mH = s.mH := by
  induction l with
  | nil => exact fun s => ⟨rfl, rfl⟩
  | cons a l ih =>
      intro s
      rw [List.foldl_cons]
      obtain ⟨h1, h2⟩ := ih (step a s)
      obtain ⟨h3, h4⟩ := hs a s
      exact ⟨h1.trans h3, h2.trans h4⟩

theorem multiCommitFold_hist (P : GP) (Conn : ℕ → ℕ → ℕ)
    (Nadj dip comp : ℕ) (sgn : ℚ) (l : List ℕ) :
    ∀ (st : GS) (ct : ℕ) (res : GS × ℕ),
      (l.foldl
        (fun acc jj => acc.bind (fun a =>
          (searchAvail a.1.gam (Conn dip) Nadj comp (Conn dip jj) a.2
              2000).map
            (fun cc =>
              (let s1 := place P cc.1 comp sgn a.1
               { s1 with R2s := sentR2s P.N cc.1 s1.R2s }, cc.2))))
        (some (st, ct))) = some res →
      res.1.objH = st.objH ∧ res.1.mH = st.mH := by
  induction l with
  | nil =>
      intro st ct res heq
      simp only [List.foldl_nil, Option.some.injEq] at heq
      rw [← heq]
      exact ⟨rfl, rfl⟩
  | cons jj l ih =>
      intro st ct res heq
      rw [List.foldl_cons] at heq
      simp only [Option.some_bind] at heq
      rcases hsrc : searchAvail st.gam (Conn dip) Nadj comp (Conn dip jj) ct
          2000 with _ | ⟨cj', ct'⟩
      · rw [hsrc] at heq
        simp only [Option.map_none'] at heq
        rw [foldl_bind_none] at heq
        exact absurd heq (by simp)
      · rw [hsrc] at heq
        simp only [Option.map_some'] at heq
        have hres := ih
          (let s1 := place P cj' comp sgn st
           { s1 with R2s := sentR2s P.N cj' s1.R2s }) ct' res heq
        exact hres

theorem GPMO_multi_step_hist (P : GP) (sd : ℤ) (Conn : ℕ → ℕ → ℕ)
    (Nadj K nh : ℕ) (k : ℕ) (s : GS) :
    ∀ s', GPMO_multi_step P sd Conn Nadj K nh false k s = some s' →
      s'.objH = s.objH ∧ s'.mH = s.mH := by
  intro s' heq
  unfold GPMO_multi_step at heq
  rw [Option.bind_eq_some] at heq
  obtain ⟨R2n, _, heq⟩ := heq
  rw [Option.map_eq_some'] at heq
  obtain ⟨s2, hcommit, heq⟩ := heq
  unfold multiCommit at hcommit
  rw [Option.map_eq_some'] at hcommit
  obtain ⟨res, hfold, hres⟩ := hcommit
  obtain ⟨h1, h2⟩ := multiCommitFold_hist P Conn Nadj _ _ _ _ _ 0 res hfold
  have heq' : s2 = s' := by
    rw [if_neg (by simp)] at heq
    exact heq
  rw [← heq']
  rw [hres] at h1 h2
  exact ⟨h1, h2⟩

theorem foldl_opt_hist (mstep : ℕ → GS → Option GS)
    (hs : ∀ k s s', mstep k s = some s' →
      s'.objH = s.objH ∧ s'.mH = s.mH)
    (l : List ℕ) : ∀ (s s' : GS),
      (l.foldl (fun os k => os.bind (mstep k)) (some s)) = some s' →
      s'.objH = s.objH ∧ s'.mH = s.mH := by
  induction l with
  | nil =>
      intro s s' heq
      simp only [List.foldl_nil, Option.some.injEq] at heq
      rw [← heq]
      exact ⟨rfl, rfl⟩
  | cons a l ih =>
      intro s s' heq
      rw [List.foldl_cons] at heq
      simp only [Option.some_bind] at heq
      rcases hstep : mstep a s with _ | s1
      · rw [hstep] at heq
        rw [foldl_bind_none] at heq
        exact absurd heq (by simp)
      · rw [hstep] at heq
        obtain ⟨h1, h2⟩ := ih s1 s' heq
        obtain ⟨h3, h4⟩ := hs a s s1 hstep
        exact ⟨h1.trans h3, h2.trans h4⟩

/-! ## Claim theorems for the GPMO family -/

/-- C2 (counterexample): a concrete `GPMO_MC` run on which the sampled
objective `R² = ½‖r‖²` strictly increases after the first iteration
(`N = 1`, `ngrid = 1`, `A` column 0 `= [10]`, `b = [1]`,
`ATb = (10,0,0)`): the coherence rule selects column `0`, and either
sign increases the residual norm, refuting exact monotonicity. -/
theorem GPMO_MC_R2_increases_cx :
    (1 / 2) * sumSq P2x (GPMO_MC P2x u2x 1 2 false).r >
      (1 / 2) * sumSq P2x (initGS P2x).r := by
  simp only [GPMO_MC, GPMO_MC_step, initGS, place, mcSel, argmaxL, maxL,
    colDot, sumSq, qsum, SENT, List.range_succ, List.foldl_append,
    List.foldl, List.range_zero, List.map, List.sum_cons, List.sum_nil,
    List.nil_append, List.cons_append]
  norm_num [P2x, u2x]

/-- C4 (counterexample): in `GPMO_baseline` with `N = 1`, `ngrid = 1`,
`A` column 0 `= [1]`, `b = [1]` and `K = 2`, after the second iteration
(whose selection hits the all-sentinel table because every slot was
disabled in iteration one) the incrementally maintained residual no
longer equals `A·x − b`. -/
theorem GPMO_residual_inconsistency_cx :
    ¬ resOK P4x (GPMO_baseline P4x (-1) 2 2 false) := by
  intro h
  have h0 := h 0 (by norm_num [P4x])
  rw [show (3 * P4x.N) = 3 from by norm_num [P4x]] at h0
  rw [qsum_succ, qsum_succ, qsum_succ, qsum_zero] at h0
  norm_num [GPMO_baseline, GPMO_baseline_step, initGS, place, print_GPMO,
    scanR2s, scanOne, scanIdxs, selIdx, sentR2s, colDot, sumSq, qsum,
    argminL, minL, SENT, P4x, List.range_succ, List.foldl_append,
    List.foldl] at h0

/-- C5 (counterexample): in `GPMO_baseline` with `N = 1`, `ngrid = 1`,
`A` column 1 `= [1]`, `b = [1]` and `K = 2`, iteration one places
`x(0,1) = 1` and disables the dipole; iteration two selects slot `0` of
the all-sentinel table and overwrites `x(0,0) = 1`, so row 0 ends with
two nonzero components. -/
theorem GPMO_binarity_cx :
    ¬ binOK P5x (GPMO_baseline P5x (-1) 2 2 false) := by
  intro h
  have h00 : (GPMO_baseline P5x (-1) 2 2 false).x 0 0 = 1 := by
    norm_num [GPMO_baseline, GPMO_baseline_step, initGS, place, print_GPMO,
      scanR2s, scanOne, scanIdxs, selIdx, sentR2s, colDot, sumSq, qsum,
      argminL, minL, SENT, P5x, List.range_succ, List.foldl_append,
      List.foldl]
  have h01 : (GPMO_baseline P5x (-1) 2 2 false).x 0 1 = 1 := by
    norm_num [GPMO_baseline, GPMO_baseline_step, initGS, place, print_GPMO,
      scanR2s, scanOne, scanIdxs, selIdx, sentR2s, colDot, sumSq, qsum,
      argminL, minL, SENT, P5x, List.range_succ, List.foldl_append,
      List.foldl]
  have hz := (h 0 (by norm_num [P5x])).2 0 (by omega) 1 (by omega)
    (by omega) (by rw [h00]; norm_num)
  rw [h01] at hz
  norm_num at hz

/-- C6 (counterexample): in `GPMO_baseline` with `N = 1`, `ngrid = 1`,
`A` column 0 `= [1]`, `b = [3]`, after iteration one every availability
slot is `false`, yet iteration two still changes the running residual —
the solver continues placing magnets rather than stopping early. -/
theorem GPMO_no_early_stop_cx :
    (GPMO_baseline P6x (-1) 1 2 false).gam 0 0 = false ∧
    (GPMO_baseline P6x (-1) 1 2 false).gam 0 1 = false ∧
    (GPMO_baseline P6x (-1) 1 2 false).gam 0 2 = false ∧
    (GPMO_baseline P6x (-1) 2 2 false).r 0 ≠
      (GPMO_baseline P6x (-1) 1 2 false).r 0 := by
  refine ⟨?_, ?_, ?_, ?_⟩ <;>
  norm_num [GPMO_baseline, GPMO_baseline_step, initGS, place, print_GPMO,
    scanR2s, scanOne, scanIdxs, selIdx, sentR2s, colDot, sumSq, qsum,
    argminL, minL, SENT, P6x, List.range_succ, List.foldl_append,
    List.foldl]

/-- C6 (amended, witness): the exhausted-iteration behaviour at a
concrete exhausted state. -/
theorem GPMO_exhausted_keeps_placing_wit :
    (GPMO_baseline_step P4x (-1) 2 2 false 1
      { initGS P4x with gam := fun _ _ => false }).x 0 0 = 1 ∧
    (GPMO_baseline_step P4x (-1) 2 2 false 1
      { initGS P4x with gam := fun _ _ => false }).r 0 =
      ({ initGS P4x with gam := fun _ _ => false } : GS).r 0 + P4x.A 0 0 := by
  have h := GPMO_exhausted_keeps_placing P4x (-1) 2 2 false 1
    { initGS P4x with gam := fun _ _ => false }
    (by norm_num [P4x])
    (fun i _ d _ => rfl)
    (fun idx _ => rfl)
  exact ⟨h.1, h.2 0⟩

/-- C4 (amended): the incremental residual equals `A·x − b` from
scratch at the fresh state and after every iteration of
`GPMO_baseline`, `GPMO_backtracking` and `GPMO_multi` that preserves
the state invariant and whose selection stays below the `1e50`
disabled-slot sentinel (for `GPMO_multi`, whenever the iteration's
neighbour searches succeed).  The counterexample shows the hypothesis is
necessary: once slots are exhausted the selection hits the sentinel and
consistency breaks. -/
theorem GPMO_residual_consistency_amended :
    (∀ P : GP, resOK P (initGS P)) ∧
    (∀ (P : GP) (sd : ℤ) (K nh : ℕ) (vb : Bool) (k : ℕ) (s : GS),
      0 < P.N → InvB P sd s → selVal P sd s < SENT →
      resOK P (GPMO_baseline_step P sd K nh vb k s)) ∧
    (∀ (P : GP) (sd : ℤ) (Conn : ℕ → ℕ → ℕ) (Nadj bt K nh : ℕ) (vb : Bool)
      (k : ℕ) (s : GS),
      0 < P.N → (∀ a b, Conn a b < P.N) → InvBt P sd s →
      selVal P sd s < SENT →
      resOK P (GPMO_backtracking_step P sd Conn Nadj bt K nh vb k s)) ∧
    (∀ (P : GP) (sd : ℤ) (Conn : ℕ → ℕ → ℕ) (Nadj K nh : ℕ) (vb : Bool)
      (k : ℕ) (s : GS),
      (∀ a b, Conn a b < P.N) → InvB P sd s →
      resOKopt P (GPMO_multi_step P sd Conn Nadj K nh vb k s)) := by
  refine ⟨?_, ?_, ?_, ?_⟩
  · intro P
    exact (initGS_InvB P 0).1.1
  · intro P sd K nh vb k s hN hI hsel
    exact (GPMO_baseline_step_InvB P sd K nh vb k s hN hI hsel).1.1
  · intro P sd Conn Nadj bt K nh vb k s hN hConn hI hsel
    exact (GPMO_backtracking_step_InvBt P sd Conn Nadj bt K nh vb k s hN
      hConn hI hsel).1.1.1
  · intro P sd Conn Nadj K nh vb k s hConn hI
    show resOKopt P (GPMO_multi_step P sd Conn Nadj K nh vb k s)
    rcases hres : GPMO_multi_step P sd Conn Nadj K nh vb k s with _ | s'
    · rw [show resOKopt P none = True from rfl]
      trivial
    · show resOK P s'
      exact (GPMO_multi_step_InvB P sd Conn Nadj K nh vb k s hConn hI
        s' hres).1.1

/-- C4 (amended, witness): the four conjuncts at concrete inputs. -/
theorem GPMO_residual_consistency_amended_wit :
    resOK P4x (initGS P4x) ∧
    resOK P4x (GPMO_baseline_step P4x (-1) 2 2 false 0 (initGS P4x)) ∧
    resOK P4x (GPMO_backtracking_step P4x (-1) (fun _ _ => 0) 1 1 2 2 false 0
      (initGS P4x)) ∧
    resOKopt P4x
      (GPMO_multi_step P4x (-1) (fun _ _ => 0) 1 2 2 false 0 (initGS P4x)) := by
  obtain ⟨h1, h2, h3, h4⟩ := GPMO_residual_consistency_amended
  have hN : 0 < P4x.N := by norm_num [P4x]
  have hConn : ∀ a b : ℕ, (fun _ _ => 0 : ℕ → ℕ → ℕ) a b < P4x.N := by
    intro a b
    norm_num [P4x]
  have hsel : selVal P4x (-1) (initGS P4x) < SENT := by
    norm_num [selVal, GPMO_baseline, GPMO_baseline_step, initGS, place,
      scanR2s, scanOne, scanIdxs, selIdx, colDot, qsum, argminL, minL, SENT,
      P4x, List.range_succ, List.foldl_append, List.foldl]
  exact ⟨h1 P4x,
    h2 P4x (-1) 2 2 false 0 (initGS P4x) hN (initGS_InvB P4x (-1)) hsel,
    h3 P4x (-1) (fun _ _ => 0) 1 1 2 2 false 0 (initGS P4x) hN hConn
      (initGS_InvBt P4x (-1)) hsel,
    h4 P4x (-1) (fun _ _ => 0) 1 2 2 false 0 (initGS P4x) hConn
      (initGS_InvB P4x (-1))⟩

/-- C5 (amended): every row of `x` holds at most one nonzero component,
and that component is `±1`, at the fresh state and after every
iteration of any GPMO variant whose selection stays on a genuinely
available slot (below the `1e50` sentinel for the table-based variants,
an available argmax column for `GPMO_MC`, successful searches for
`GPMO_multi`).  The counterexample shows the proviso is necessary. -/
theorem GPMO_binarity_amended :
    (∀ P : GP, binOK P (initGS P)) ∧
    (∀ (P : GP) (sd : ℤ) (K nh : ℕ) (vb : Bool) (k : ℕ) (s : GS),
      0 < P.N → InvB P sd s → selVal P sd s < SENT →
      binOK P (GPMO_baseline_step P sd K nh vb k s)) ∧
    (∀ (P : GP) (K nh : ℕ) (vb : Bool) (k : ℕ) (s : GS),
      0 < P.N → InvCore P s →
      s.gam (mcSel P s / 3) (mcSel P s % 3) = true →
      binOK P (GPMO_MC_step P K nh vb k s)) ∧
    (∀ (P : GP) (sd : ℤ) (Conn : ℕ → ℕ → ℕ) (Nadj bt K nh : ℕ) (vb : Bool)
      (k : ℕ) (s : GS),
      0 < P.N → (∀ a b, Conn a b < P.N) → InvBt P sd s →
      selVal P sd s < SENT →
      binOK P (GPMO_backtracking_step P sd Conn Nadj bt K nh vb k s)) ∧
    (∀ (P : GP) (sd : ℤ) (Conn : ℕ → ℕ → ℕ) (Nadj K nh : ℕ) (vb : Bool)
      (k : ℕ) (s : GS),
      (∀ a b, Conn a b < P.N) → InvB P sd s →
      binOKopt P (GPMO_multi_step P sd Conn Nadj K nh vb k s)) := by
  refine ⟨?_, ?_, ?_, ?_, ?_⟩
  · intro P
    exact (initGS_InvB P 0).1.2.2.2
  · intro P sd K nh vb k s hN hI hsel
    exact (GPMO_baseline_step_InvB P sd K nh vb k s hN hI hsel).1.2.2.2
  · intro P K nh vb k s hN hI hav
    exact (GPMO_MC_step_InvCore P K nh vb k s hN hI hav).2.2.2
  · intro P sd Conn Nadj bt K nh vb k s hN hConn hI hsel
    exact (GPMO_backtracking_step_InvBt P sd Conn Nadj bt K nh vb k s hN
      hConn hI hsel).1.1.2.2.2
  · intro P sd Conn Nadj K nh vb k s hConn hI
    show binOKopt P (GPMO_multi_step P sd Conn Nadj K nh vb k s)
    rcases hres : GPMO_multi_step P sd Conn Nadj K nh vb k s with _ | s'
    · rw [show binOKopt P none = True from rfl]
      trivial
    · show binOK P s'
      exact (GPMO_multi_step_InvB P sd Conn Nadj K nh vb k s hConn hI
        s' hres).1.2.2.2

/-- C5 (amended, witness): the five conjuncts at concrete inputs. -/
theorem GPMO_binarity_amended_wit :
    binOK P4x (initGS P4x) ∧
    binOK P4x (GPMO_baseline_step P4x (-1) 2 2 false 0 (initGS P4x)) ∧
    binOK P2x (GPMO_MC_step P2x 1 2 false 0 { initGS P2x with u := u2x }) ∧
    binOK P4x (GPMO_backtracking_step P4x (-1) (fun _ _ => 0) 1 1 2 2 false 0
      (initGS P4x)) ∧
    binOKopt P4x
      (GPMO_multi_step P4x (-1) (fun _ _ => 0) 1 2 2 false 0 (initGS P4x)) := by
  obtain ⟨h1, h2, h3, h4, h5⟩ := GPMO_binarity_amended
  have hN : 0 < P4x.N := by norm_num [P4x]
  have hConn : ∀ a b : ℕ, (fun _ _ => 0 : ℕ → ℕ → ℕ) a b < P4x.N := by
    intro a b
    norm_num [P4x]
  have hsel : selVal P4x (-1) (initGS P4x) < SENT := by
    norm_num [selVal, GPMO_baseline, GPMO_baseline_step, initGS, place,
      scanR2s, scanOne, scanIdxs, selIdx, colDot, qsum, argminL, minL, SENT,
      P4x, List.range_succ, List.foldl_append, List.foldl]
  exact ⟨h1 P4x,
    h2 P4x (-1) 2 2 false 0 (initGS P4x) hN (initGS_InvB P4x (-1)) hsel,
    h3 P2x 1 2 false 0 { initGS P2x with u := u2x } (by norm_num [P2x])
      (InvCore_of_fields_eq rfl rfl rfl (initGS_InvB P2x 0).1) rfl,
    h4 P4x (-1) (fun _ _ => 0) 1 1 2 2 false 0 (initGS P4x) hN hConn
      (initGS_InvBt P4x (-1)) hsel,
    h5 P4x (-1) (fun _ _ => 0) 1 2 2 false 0 (initGS P4x) hConn
      (initGS_InvB P4x (-1))⟩

/-- C10: when `verbose = false`, no GPMO variant ever writes to its
history buffers: the returned `objective_history` and `m_history` are
exactly the all-zero arrays they were initialized to. -/
theorem GPMO_quiet_histories :
    (∀ (P : GP) (sd : ℤ) (K nh : ℕ), histZero (GPMO_baseline P sd K nh false)) ∧
    (∀ (P : GP) (ATb : ℕ → ℚ) (K nh : ℕ), histZero (GPMO_MC P ATb K nh false)) ∧
    (∀ (P : GP) (sd : ℤ) (xyz : List (ℚ × ℚ × ℚ)) (Nadj bt K nh : ℕ),
      histZero (GPMO_backtracking P sd xyz Nadj bt K nh false)) ∧
    (∀ (P : GP) (sd : ℤ) (xyz : List (ℚ × ℚ × ℚ)) (Nadj K nh : ℕ),
      histZeroOpt (GPMO_multi P sd xyz Nadj K nh false)) := by
  refine ⟨?_, ?_, ?_, ?_⟩
  · intro P sd K nh
    have h := foldl_hist_pres (fun k s => GPMO_baseline_step P sd K nh false k s)
      (fun k s => ⟨rfl, rfl⟩) (List.range K) (initGS P)
    exact ⟨h.1, h.2⟩
  · intro P ATb K nh
    have h := foldl_hist_pres (fun k s => GPMO_MC_step P K nh false k s)
      (fun k s => GPMO_MC_step_hist P K nh k s) (List.range K)
      { initGS P with u := ATb }
    exact ⟨h.1, h.2⟩
  · intro P sd xyz Nadj bt K nh
    have h := foldl_hist_pres
      (fun k s => GPMO_backtracking_step P sd
        (fun j t => (connectivity_matrix xyz j).getD t 0) Nadj bt K nh false k s)
      (fun k s => GPMO_backtracking_step_hist P sd _ Nadj bt K nh k s)
      (List.range K) (initGS P)
    exact ⟨h.1, h.2⟩
  · intro P sd xyz Nadj K nh
    show histZeroOpt (GPMO_multi P sd xyz Nadj K nh false)
    rcases hres : GPMO_multi P sd xyz Nadj K nh false with _ | s'
    · rw [show histZeroOpt none = True from rfl]
      trivial
    · show histZero s'
      have h := foldl_opt_hist
        (GPMO_multi_step P sd
          (fun j t => (connectivity_matrix xyz j).getD t 0) Nadj K nh false)
        (fun k s s' h => GPMO_multi_step_hist P sd _ Nadj K nh k s s' h)
        (List.range K) (initGS P) s' hres
      exact ⟨h.1, h.2⟩

/-! ## Connectivity-matrix extraction lemmas -/

theorem getD_set_self (d : List ℚ) (m : ℕ) (v : ℚ) (h : m < d.length) :
    (d.set m v).getD m 0 = v := by
  rw [List.getD_eq_getElem?_getD]
  rw [List.getElem?_eq_getElem (by simpa using h)]
  simp [List.getElem_set]

theorem getD_set_other (d : List ℚ) (m i : ℕ) (v : ℚ) (h : i ≠ m) :
    (d.set m v).getD i 0 = d.getD i 0 := by
  rw [List.getD_eq_getElem?_getD, List.getD_eq_getElem?_getD]
  rw [List.getElem?_set_ne (by omega)]

theorem getD_take_lt {α : Type} (l : List α) (a : α) (m k : ℕ) (h : k < m) :
    (l.take m).getD k a = l.getD k a := by
  rw [List.getD_eq_getElem?_getD, List.getD_eq_getElem?_getD]
  rw [List.getElem?_take, if_pos h]

theorem mem_take_getElem {α : Type} (l : List α) (m : ℕ) (x : α)
    (h : x ∈ l.take m) : ∃ k, ∃ hk : k < l.length, k < m ∧ l[k] = x := by
  obtain ⟨k, hk, hval⟩ := List.mem_iff_getElem.mp h
  have hb : k < m ∧ k < l.length := by
    simpa [List.length_take] using hk
  refine ⟨k, hb.2, hb.1, ?_⟩
  rw [← hval, List.getElem_take]

theorem mem_of_nodup_bound (l : List ℕ) (n : ℕ) (hnd : l.Nodup)
    (hlen : l.length = n) (hlt : ∀ x ∈ l, x < n) (i : ℕ) (hi : i < n) :
    i ∈ l := by
  have hsub : l.toFinset ⊆ Finset.range n := by
    intro x hx
    simp only [Finset.mem_range]
    exact hlt x (List.mem_toFinset.mp hx)
  have hcard : l.toFinset.card = n := by
    rw [List.toFinset_card_of_nodup hnd, hlen]
  have heq : l.toFinset = Finset.range n := by
    apply Finset.eq_of_subset_of_card_le hsub
    rw [hcard, Finset.card_range]
  have hmem : i ∈ l.toFinset := by
    rw [heq]
    simp [hi]
  exact List.mem_toFinset.mp hmem

theorem exists_not_mem_of_short (S : List ℕ) (n : ℕ) (hnd : S.Nodup)
    (hlen : S.length < n) : ∃ i, i < n ∧ i ∉ S := by
  by_contra hcon
  push_neg at hcon
  have hsub : Finset.range n ⊆ S.toFinset := by
    intro x hx
    exact List.mem_toFinset.mpr (hcon x (Finset.mem_range.mp hx))
  have hc := Finset.card_le_card hsub
  rw [Finset.card_range, List.toFinset_card_of_nodup hnd] at hc
  omega

theorem getD_map_distSq (xyz : List (ℚ × ℚ × ℚ)) (q : ℚ × ℚ × ℚ) (i : ℕ)
    (h : i < xyz.length) :
    (xyz.map (fun c => distSq c q)).getD i 0 =
      distSq (xyz.getD i (0, 0, 0)) q := by
  rw [List.getD_eq_getElem?_getD]
  rw [List.getElem?_eq_getElem (by simpa using h)]
  rw [List.getD_eq_getElem _ _ h]
  simp

theorem distSq_nonneg (c1 c2 : ℚ × ℚ × ℚ) : 0 ≤ distSq c1 c2 := by
  unfold distSq
  positivity

theorem dTo_self (xyz : List (ℚ × ℚ × ℚ)) (j : ℕ) : dTo xyz j j = 0 := by
  simp [dTo, distSq]

theorem extractRow_length : ∀ (d : List ℚ) (n : ℕ), (extractRow d n).length = n
  | _, 0 => rfl
  | d, n + 1 => by
      simp only [extractRow, List.length_cons]
      rw [extractRow_length _ n]

theorem extractRow_succ (d : List ℚ) (n : ℕ) :
    extractRow d (n + 1) = argminL d :: extractRow (d.set (argminL d) DSENT) n :=
  rfl

theorem extractRow_take :
    ∀ (n m : ℕ) (d : List ℚ), n ≤ m → (extractRow d m).take n = extractRow d n
  | 0, _, _, _ => by simp [extractRow]
  | n + 1, 0, _, h => absurd h (by omega)
  | n + 1, m + 1, d, h => by
      rw [extractRow_succ, extractRow_succ, List.take_succ_cons]
      rw [extractRow_take n m _ (by omega)]

theorem extract_pick (d0 d : List ℚ) (S : List ℕ)
    (hlen : d.length = d0.length)
    (hS : ∀ i, i < d0.length → i ∈ S → d.getD i 0 = DSENT)
    (hNS : ∀ i, i < d0.length → i ∉ S → d.getD i 0 = d0.getD i 0)
    (hd0 : ∀ i, i < d0.length → d0.getD i 0 < DSENT)
    (i0 : ℕ) (hi0 : i0 < d0.length) (hi0S : i0 ∉ S) :
    argminL d < d0.length ∧ argminL d ∉ S ∧
    ∀ i, i < d0.length → i ∉ S → i ≠ argminL d →
      d0.getD (argminL d) 0 < d0.getD i 0 ∨
      (d0.getD (argminL d) 0 = d0.getD i 0 ∧ argminL d < i) := by
  have hne : d ≠ [] := by
    intro h
    rw [h] at hlen
    simp at hlen
    omega
  have hmlt : argminL d < d.length := argminL_lt_length d hne
  have hmlen : argminL d < d0.length := hlen ▸ hmlt
  have hval : d.getD (argminL d) 0 = minL d := argminL_val d hne
  have hle0 : minL d ≤ d.getD i0 0 := minL_le d i0 (by omega)
  have hlive0 : d.getD i0 0 = d0.getD i0 0 := hNS i0 hi0 hi0S
  have hmsent : d.getD (argminL d) 0 < DSENT := by
    rw [hval]
    calc minL d ≤ d.getD i0 0 := hle0
    _ = d0.getD i0 0 := hlive0
    _ < DSENT := hd0 i0 hi0
  have hmS : argminL d ∉ S := by
    intro hmem
    rw [hS (argminL d) hmlen hmem] at hmsent
    exact lt_irrefl _ hmsent
  have hm0 : d.getD (argminL d) 0 = d0.getD (argminL d) 0 :=
    hNS (argminL d) hmlen hmS
  refine ⟨hmlen, hmS, ?_⟩
  intro i hi hiS hine
  have hlei : minL d ≤ d.getD i 0 := minL_le d i (by omega)
  have hlive : d.getD i 0 = d0.getD i 0 := hNS i hi hiS
  have hle : d0.getD (argminL d) 0 ≤ d0.getD i 0 := by
    rw [← hm0, ← hlive, hval]
    exact hlei
  rcases lt_or_eq_of_le hle with hlt | heq2
  · exact Or.inl hlt
  · refine Or.inr ⟨heq2, ?_⟩
    by_contra hnlt
    have hilt : i < argminL d := by omega
    have hfirst := argminL_first d i hilt
    rw [hlive, ← heq2, ← hm0, hval] at hfirst
    exact lt_irrefl _ hfirst

theorem extractRow_props (d0 : List ℚ)
    (hd0 : ∀ i, i < d0.length → d0.getD i 0 < DSENT) :
    ∀ (n : ℕ) (d : List ℚ) (S : List ℕ),
      d.length = d0.length →
      (∀ i, i < d0.length → i ∈ S → d.getD i 0 = DSENT) →
      (∀ i, i < d0.length → i ∉ S → d.getD i 0 = d0.getD i 0) →
      S.Nodup →
      S.length + n ≤ d0.length →
      (∀ x ∈ extractRow d n, x < d0.length ∧ x ∉ S) ∧
      (extractRow d n).Nodup ∧
      ∀ k, k < n → ∀ i, i < d0.length → i ∉ S →
        i ∉ (extractRow d n).take (k + 1) →
        d0.getD ((extractRow d n).getD k 0) 0 < d0.getD i 0 ∨
        (d0.getD ((extractRow d n).getD k 0) 0 = d0.getD i 0 ∧
          (extractRow d n).getD k 0 < i)
  | 0, d, S, _, _, _, _, _ => by
      refine ⟨?_, ?_, ?_⟩
      · intro x hx
        simp [extractRow] at hx
      · simp [extractRow]
      · intro k hk
        exact absurd hk (Nat.not_lt_zero k)
  | n + 1, d, S, hlen, hS, hNS, hSnd, hcount => by
      obtain ⟨i0, hi0, hi0S⟩ := exists_not_mem_of_short S d0.length hSnd (by omega)
      obtain ⟨hmlt, hmS, hmin⟩ :=
        extract_pick d0 d S hlen hS hNS hd0 i0 hi0 hi0S
      have hlen' : (d.set (argminL d) DSENT).length = d0.length := by
        rw [List.length_set]
        exact hlen
      have hS' : ∀ i, i < d0.length → i ∈ argminL d :: S →
          (d.set (argminL d) DSENT).getD i 0 = DSENT := by
        intro i hi hmem
        rcases List.mem_cons.mp hmem with rfl | hmem'
        · exact getD_set_self d (argminL d) DSENT (by omega)
        · have hine : i ≠ argminL d := by
            intro h
            exact hmS (h ▸ hmem')
          rw [getD_set_other d (argminL d) i DSENT hine]
          exact hS i hi hmem'
      have hNS' : ∀ i, i < d0.length → i ∉ argminL d :: S →
          (d.set (argminL d) DSENT).getD i 0 = d0.getD i 0 := by
        intro i hi hmem
        have hine : i ≠ argminL d := by
          intro h
          exact hmem (h ▸ List.mem_cons_self _ _)
        rw [getD_set_other d (argminL d) i DSENT hine]
        exact hNS i hi (fun h => hmem (List.mem_cons_of_mem _ h))
      have hSnd' : (argminL d :: S).Nodup := List.nodup_cons.mpr ⟨hmS, hSnd⟩
      have hcount' : (argminL d :: S).length + n ≤ d0.length := by
        simp only [List.length_cons]
        omega
      obtain ⟨ihmem, ihnd, ihmin⟩ := extractRow_props d0 hd0 n
        (d.set (argminL d) DSENT) (argminL d :: S) hlen' hS' hNS' hSnd' hcount'
      rw [extractRow_succ]
      refine ⟨?_, ?_, ?_⟩
      · intro x hx
        rcases List.mem_cons.mp hx with rfl | hx'
        · exact ⟨hmlt, hmS⟩
        · obtain ⟨h1, h2⟩ := ihmem x hx'
          exact ⟨h1, fun hmem => h2 (List.mem_cons_of_mem _ hmem)⟩
      · refine List.nodup_cons.mpr ⟨?_, ihnd⟩
        intro hmem
        exact (ihmem _ hmem).2 (List.mem_cons_self _ _)
      · intro k hk i hi hiS hitake
        rcases k with _ | k'
        · rw [List.getD_cons_zero]
          have hine : i ≠ argminL d := by
            intro h
            apply hitake
            rw [h]
            simp
          exact hmin i hi hiS hine
        · rw [List.getD_cons_succ]
          have hk' : k' < n := by omega
          have hiS' : i ∉ argminL d :: S := by
            intro hmem
            rcases List.mem_cons.mp hmem with rfl | h2
            · apply hitake
              rw [List.take_succ_cons]
              exact List.mem_cons_self _ _
            · exact hiS h2
          have hitake' :
              i ∉ (extractRow (d.set (argminL d) DSENT) n).take (k' + 1) := by
            intro hmem
            apply hitake
            rw [List.take_succ_cons]
            exact List.mem_cons_of_mem _ hmem
          exact ihmin k' hk' i hi hiS' hitake'

theorem iterSet_length : ∀ (n : ℕ) (d : List ℚ), (iterSet d n).length = d.length
  | 0, _ => rfl
  | n + 1, d => by
      show (iterSet (d.set (argminL d) DSENT) n).length = d.length
      rw [iterSet_length n, List.length_set]

theorem extractRow_split :
    ∀ (a b : ℕ) (d : List ℚ),
      extractRow d (a + b) = extractRow d a ++ extractRow (iterSet d a) b
  | 0, b, d => by
      rw [Nat.zero_add]
      rfl
  | a + 1, b, d => by
      rw [show a + 1 + b = (a + b) + 1 from by omega, extractRow_succ,
        extractRow_split a b (d.set (argminL d) DSENT),
        extractRow_succ d a, List.cons_append]
      rfl

theorem iterSet_sent (d0 : List ℚ)
    (hd0 : ∀ i, i < d0.length → d0.getD i 0 < DSENT) :
    ∀ (n : ℕ) (d : List ℚ) (S : List ℕ),
      d.length = d0.length →
      (∀ i, i < d0.length → i ∈ S → d.getD i 0 = DSENT) →
      (∀ i, i < d0.length → i ∉ S → d.getD i 0 = d0.getD i 0) →
      (∀ x ∈ S, x < d0.length) →
      S.Nodup →
      S.length + n = d0.length →
      ∀ i, i < d0.length → (iterSet d n).getD i 0 = DSENT
  | 0, d, S, _, hS, _, hSlt, hSnd, hcount => by
      intro i hi
      show d.getD i 0 = DSENT
      exact hS i hi (mem_of_nodup_bound S d0.length hSnd (by omega) hSlt i hi)
  | n + 1, d, S, hlen, hS, hNS, hSlt, hSnd, hcount => by
      obtain ⟨i0, hi0, hi0S⟩ :=
        exists_not_mem_of_short S d0.length hSnd (by omega)
      obtain ⟨hmlt, hmS, _⟩ := extract_pick d0 d S hlen hS hNS hd0 i0 hi0 hi0S
      have hlen' : (d.set (argminL d) DSENT).length = d0.length := by
        rw [List.length_set]
        exact hlen
      have hS' : ∀ i, i < d0.length → i ∈ argminL d :: S →
          (d.set (argminL d) DSENT).getD i 0 = DSENT := by
        intro i hi hmem
        rcases List.mem_cons.mp hmem with rfl | hmem'
        · exact getD_set_self d (argminL d) DSENT (by omega)
        · have hine : i ≠ argminL d := by
            intro h
            exact hmS (h ▸ hmem')
          rw [getD_set_other d (argminL d) i DSENT hine]
          exact hS i hi hmem'
      have hNS' : ∀ i, i < d0.length → i ∉ argminL d :: S →
          (d.set (argminL d) DSENT).getD i 0 = d0.getD i 0 := by
        intro i hi hmem
        have hine : i ≠ argminL d := by
          intro h
          exact hmem (h ▸ List.mem_cons_self _ _)
        rw [getD_set_other d (argminL d) i DSENT hine]
        exact hNS i hi (fun h => hmem (List.mem_cons_of_mem _ h))
      have hSlt' : ∀ x ∈ argminL d :: S, x < d0.length := by
        intro x hx
        rcases List.mem_cons.mp hx with rfl | hx'
        · exact hmlt
        · exact hSlt x hx'
      have hSnd' : (argminL d :: S).Nodup := List.nodup_cons.mpr ⟨hmS, hSnd⟩
      have hcount' : (argminL d :: S).length + n = d0.length := by
        simp only [List.length_cons]
        omega
      intro i hi
      show (iterSet (d.set (argminL d) DSENT) n).getD i 0 = DSENT
      exact iterSet_sent d0 hd0 n (d.set (argminL d) DSENT) (argminL d :: S)
        hlen' hS' hNS' hSlt' hSnd' hcount' i hi

theorem extractRow_const_sent :
    ∀ (n : ℕ) (d : List ℚ),
      (∀ i, i < d.length → d.getD i 0 = DSENT) →
      ∀ k, k < n → (extractRow d n).getD k 0 = 0
  | 0, _, _, k, hk => absurd hk (Nat.not_lt_zero k)
  | n + 1, d, hd, k, hk => by
      have hargmin : argminL d = 0 := by
        apply argminL_const d DSENT
        intro v hv
        obtain ⟨i, hi, hval⟩ := List.mem_iff_getElem.mp hv
        have := hd i hi
        rw [List.getD_eq_getElem _ 0 hi] at this
        rw [← hval]
        exact this
      rw [extractRow_succ]
      rcases k with _ | k'
      · rw [List.getD_cons_zero, hargmin]
      · rw [List.getD_cons_succ]
        refine extractRow_const_sent n (d.set (argminL d) DSENT) ?_ k' (by omega)
        intro i hi
        rw [List.length_set] at hi
        by_cases hia : i = argminL d
        · rw [hia]
          exact getD_set_self d (argminL d) DSENT (hia ▸ hi)
        · rw [getD_set_other d (argminL d) i DSENT hia]
          exact hd i hi

theorem getD_append_right {α : Type} (l1 l2 : List α) (a : α) (k : ℕ)
    (h : l1.length ≤ k) :
    (l1 ++ l2).getD k a = l2.getD (k - l1.length) a := by
  rw [List.getD_eq_getElem?_getD, List.getD_eq_getElem?_getD,
    List.getElem?_append_right h]

/-- C9 (counterexample): with two dipoles at the same center, row 1 of
the connectivity table begins with index 0, not 1 — the first entry of
a row is the smallest index at minimal distance, which need not be the
row's own dipole when centers coincide. -/
theorem connectivity_matrix_row0_cx :
    (connectivity_matrix [((0 : ℚ), (0 : ℚ), (0 : ℚ)), (0, 0, 0)] 1).getD 0 0
      = 0 ∧ (0 : ℕ) ≠ 1 := by
  constructor
  · rw [connectivity_matrix, show (2000 : ℕ) = 1999 + 1 from by norm_num,
      extractRow_succ, List.getD_cons_zero]
    norm_num [argminL, minL, distSq, List.getD]
  · decide

/-- C9 (amended): provided all pairwise distances of the centers to
center `j` lie below the `1e10` elimination sentinel (and
`Ndipole ≤ 2000`), the first `Ndipole` entries of row `j` of
`connectivity_matrix` list dipole indices in ascending order of squared
Euclidean distance to dipole `j`, ties broken by smaller index first,
every dipole index appearing exactly once, and every entry beyond the
first `Ndipole` equals `0`, the argmin of the exhausted all-sentinel
table; if additionally no other center coincides with center `j`, the
row starts with `j` itself.  (With coinciding centers the first entry
is the smallest index at minimal distance, which need not be `j` — see
the counterexample.) -/
theorem connectivity_matrix_amended (xyz : List (ℚ × ℚ × ℚ)) (j : ℕ)
    (hcap : xyz.length ≤ 2000) (hj : j < xyz.length)
    (hsent : ∀ i, i < xyz.length → dTo xyz j i < DSENT) :
    (∀ k, k < xyz.length → (connectivity_matrix xyz j).getD k 0 < xyz.length) ∧
    (∀ k1 k2, k1 < k2 → k2 < xyz.length →
      dTo xyz j ((connectivity_matrix xyz j).getD k1 0) <
        dTo xyz j ((connectivity_matrix xyz j).getD k2 0) ∨
      (dTo xyz j ((connectivity_matrix xyz j).getD k1 0) =
        dTo xyz j ((connectivity_matrix xyz j).getD k2 0) ∧
        (connectivity_matrix xyz j).getD k1 0 <
          (connectivity_matrix xyz j).getD k2 0)) ∧
    (∀ i, i < xyz.length → ∃ k, k < xyz.length ∧
      (connectivity_matrix xyz j).getD k 0 = i) ∧
    (∀ k, xyz.length ≤ k → k < 2000 →
      (connectivity_matrix xyz j).getD k 0 = 0) ∧
    ((∀ i, i < xyz.length → i ≠ j → 0 < dTo xyz j i) →
      (connectivity_matrix xyz j).getD 0 0 = j) := by
  have hd0len : (xyz.map (fun c => distSq c (xyz.getD j (0, 0, 0)))).length
      = xyz.length := by simp
  have hd0get : ∀ i, i < xyz.length →
      (xyz.map (fun c => distSq c (xyz.getD j (0, 0, 0)))).getD i 0
        = dTo xyz j i := by
    intro i hi
    exact getD_map_distSq xyz _ i hi
  have hd0sent : ∀ i,
      i < (xyz.map (fun c => distSq c (xyz.getD j (0, 0, 0)))).length →
      (xyz.map (fun c => distSq c (xyz.getD j (0, 0, 0)))).getD i 0 < DSENT := by
    intro i hi
    rw [hd0len] at hi
    rw [hd0get i hi]
    exact hsent i hi
  obtain ⟨hmem, hnd, hmin⟩ := extractRow_props
    (xyz.map (fun c => distSq c (xyz.getD j (0, 0, 0)))) hd0sent
    xyz.length (xyz.map (fun c => distSq c (xyz.getD j (0, 0, 0)))) []
    rfl (by intro i _ h; simp at h) (fun i _ _ => rfl) List.nodup_nil
    (by simp [hd0len])
  have hlenout :
      (extractRow (xyz.map (fun c => distSq c (xyz.getD j (0, 0, 0))))
        xyz.length).length = xyz.length := extractRow_length _ _
  have hrowgd : ∀ k, k < xyz.length → (connectivity_matrix xyz j).getD k 0 =
      (extractRow (xyz.map (fun c => distSq c (xyz.getD j (0, 0, 0))))
        xyz.length).getD k 0 := by
    intro k hk
    rw [connectivity_matrix,
      ← extractRow_take xyz.length 2000 _ hcap,
      getD_take_lt _ _ _ _ hk]
  have hbound : ∀ k, k < xyz.length →
      (connectivity_matrix xyz j).getD k 0 < xyz.length := by
    intro k hk
    rw [hrowgd k hk]
    have hkl : k <
        (extractRow (xyz.map (fun c => distSq c (xyz.getD j (0, 0, 0))))
          xyz.length).length := by omega
    have hmem' : (extractRow (xyz.map (fun c => distSq c (xyz.getD j (0, 0, 0))))
        xyz.length).getD k 0 ∈
        extractRow (xyz.map (fun c => distSq c (xyz.getD j (0, 0, 0))))
          xyz.length := by
      rw [List.getD_eq_getElem _ 0 hkl]
      exact List.mem_iff_getElem.mpr ⟨k, hkl, rfl⟩
    have hlt := (hmem _ hmem').1
    omega
  have hnotake : ∀ k1 k2, k1 < k2 → k2 < xyz.length →
      (extractRow (xyz.map (fun c => distSq c (xyz.getD j (0, 0, 0))))
        xyz.length).getD k2 0 ∉
      (extractRow (xyz.map (fun c => distSq c (xyz.getD j (0, 0, 0))))
        xyz.length).take (k1 + 1) := by
    intro k1 k2 h12 hk2 hmemT
    obtain ⟨k', hk'len, hk'lt, hk'val⟩ := mem_take_getElem _ _ _ hmemT
    have hk2l : k2 <
        (extractRow (xyz.map (fun c => distSq c (xyz.getD j (0, 0, 0))))
          xyz.length).length := by omega
    rw [List.getD_eq_getElem _ 0 hk2l] at hk'val
    have := (List.Nodup.getElem_inj_iff hnd).mp hk'val
    omega
  have hsorted : ∀ k1 k2, k1 < k2 → k2 < xyz.length →
      dTo xyz j ((connectivity_matrix xyz j).getD k1 0) <
        dTo xyz j ((connectivity_matrix xyz j).getD k2 0) ∨
      (dTo xyz j ((connectivity_matrix xyz j).getD k1 0) =
        dTo xyz j ((connectivity_matrix xyz j).getD k2 0) ∧
        (connectivity_matrix xyz j).getD k1 0 <
          (connectivity_matrix xyz j).getD k2 0) := by
    intro k1 k2 h12 hk2
    have hb2 := hbound k2 hk2
    have hb1 := hbound k1 (by omega)
    have h := hmin k1 (by omega)
      ((connectivity_matrix xyz j).getD k2 0)
      (by rw [hd0len]; exact hb2)
      (by simp)
      (by rw [hrowgd k2 hk2]; exact hnotake k1 k2 h12 hk2)
    rw [← hrowgd k1 (by omega), hd0get _ hb1, hd0get _ hb2] at h
    exact h
  have hcomplete : ∀ i, i < xyz.length → ∃ k, k < xyz.length ∧
      (connectivity_matrix xyz j).getD k 0 = i := by
    intro i hi
    have himem : i ∈ extractRow
        (xyz.map (fun c => distSq c (xyz.getD j (0, 0, 0)))) xyz.length := by
      apply mem_of_nodup_bound _ xyz.length hnd hlenout
      · intro x hx
        have hlt := (hmem x hx).1
        omega
      · exact hi
    obtain ⟨k, hk, hval⟩ := List.mem_iff_getElem.mp himem
    have hklen : k < xyz.length := by omega
    refine ⟨k, hklen, ?_⟩
    rw [hrowgd k hklen, List.getD_eq_getElem _ 0 hk]
    exact hval
  have hpad : ∀ k, xyz.length ≤ k → k < 2000 →
      (connectivity_matrix xyz j).getD k 0 = 0 := by
    intro k hk1 hk2
    rw [connectivity_matrix,
      show (2000 : ℕ) = xyz.length + (2000 - xyz.length) from by omega,
      extractRow_split,
      getD_append_right _ _ _ k (by rw [extractRow_length]; exact hk1),
      extractRow_length]
    refine extractRow_const_sent (2000 - xyz.length) _ ?_ (k - xyz.length)
      (by omega)
    intro i hi
    have hil : (iterSet (xyz.map (fun c => distSq c (xyz.getD j (0, 0, 0))))
        xyz.length).length = xyz.length := by
      rw [iterSet_length]
      exact hd0len
    rw [hil] at hi
    exact iterSet_sent (xyz.map (fun c => distSq c (xyz.getD j (0, 0, 0))))
      hd0sent xyz.length (xyz.map (fun c => distSq c (xyz.getD j (0, 0, 0))))
      [] rfl (by intro i _ h; simp at h) (fun i _ _ => rfl)
      (by intro x hx; simp at hx) List.nodup_nil (by simp [hd0len])
      i (by rw [hd0len]; exact hi)
  have hrow0 : (∀ i, i < xyz.length → i ≠ j → 0 < dTo xyz j i) →
      (connectivity_matrix xyz j).getD 0 0 = j := by
    intro hpos
    by_contra hne
    have hb0 := hbound 0 (by omega)
    have hjtake : j ∉
        (extractRow (xyz.map (fun c => distSq c (xyz.getD j (0, 0, 0))))
          xyz.length).take (0 + 1) := by
      intro hmemT
      obtain ⟨k', hk'len, hk'lt, hk'val⟩ := mem_take_getElem _ _ _ hmemT
      have hk0 : k' = 0 := by omega
      subst hk0
      apply hne
      rw [hrowgd 0 (by omega), List.getD_eq_getElem _ 0 hk'len]
      exact hk'val
    have h := hmin 0 (by omega) j (by rw [hd0len]; exact hj) (by simp) hjtake
    rw [← hrowgd 0 (by omega), hd0get _ hb0, hd0get _ hj, dTo_self] at h
    have hpos0 : 0 < dTo xyz j ((connectivity_matrix xyz j).getD 0 0) :=
      hpos _ hb0 hne
    rcases h with h | h
    · linarith
    · linarith [h.1]
  exact ⟨hbound, hsorted, hcomplete, hpad, hrow0⟩

/-- C9 (amended, witness): the amended connectivity statement at two
distinct centers, row 0 starting with dipole 0. -/
theorem connectivity_matrix_amended_wit :
    (connectivity_matrix [((0 : ℚ), (0 : ℚ), (0 : ℚ)), (1, 0, 0)] 0).getD 0 0
      = 0 :=
  (connectivity_matrix_amended [((0 : ℚ), (0 : ℚ), (0 : ℚ)), (1, 0, 0)] 0
    (by norm_num) (by norm_num)
    (by
      intro i hi
      have hi2 : i < 2 := by simpa using hi
      interval_cases i <;> norm_num [dTo, distSq, DSENT, List.getD])).2.2.2.2
    (by
      intro i hi hne
      have hi2 : i < 2 := by simpa using hi
      interval_cases i
      · exact absurd rfl hne
      · norm_num [dTo, distSq, List.getD])

/-! ## Real-side helper lemmas -/

theorem rsum_zero (f : ℕ → ℝ) : rsum 0 f = 0 := rfl

theorem rsum_succ (n : ℕ) (f : ℕ → ℝ) : rsum (n + 1) f = rsum n f + f n := by
  unfold rsum
  rw [List.range_succ, List.map_append, List.sum_append]
  simp

theorem rsum_congr {n : ℕ} {f g : ℕ → ℝ} (h : ∀ i, i < n → f i = g i) :
    rsum n f = rsum n g := by
  induction n with
  | zero => rfl
  | succ m ih =>
      rw [rsum_succ, rsum_succ, ih (fun i hi => h i (by omega)),
        h m (by omega)]

theorem rsum_zero_fun (n : ℕ) : rsum n (fun _ => (0 : ℝ)) = 0 := by
  induction n with
  | zero => rfl
  | succ m ih => rw [rsum_succ, ih, add_zero]

theorem rsum_one (f : ℕ → ℝ) : rsum 1 f = f 0 := by
  rw [show (1 : ℕ) = 0 + 1 from rfl, rsum_succ, rsum_zero, zero_add]

theorem rsum_two (f : ℕ → ℝ) : rsum 2 f = f 0 + f 1 := by
  rw [show (2 : ℕ) = 1 + 1 from rfl, rsum_succ, rsum_one]

theorem rsum_three (f : ℕ → ℝ) : rsum 3 f = f 0 + f 1 + f 2 := by
  rw [show (3 : ℕ) = 2 + 1 from rfl, rsum_succ, rsum_two]

theorem rsum_nonneg {n : ℕ} {f : ℕ → ℝ} (h : ∀ i, i < n → 0 ≤ f i) :
    0 ≤ rsum n f := by
  induction n with
  | zero => exact le_refl 0
  | succ m ih =>
      rw [rsum_succ]
      have h1 := ih (fun i hi => h i (by omega))
      have h2 := h m (by omega)
      linarith

theorem tget_zero (t : ℝ × ℝ × ℝ) : tget t 0 = t.1 := rfl

theorem tget_one (t : ℝ × ℝ × ℝ) : tget t 1 = t.2.1 := rfl

theorem tget_two (t : ℝ × ℝ × ℝ) : tget t 2 = t.2.2 := rfl

theorem tget_triv (d : ℕ) : tget (0, 0, 0) d = 0 := by
  unfold tget
  split <;> [rfl; split <;> rfl]

theorem foldl_min_le_init :
    ∀ (t : List ℝ) (a : ℝ), t.foldl min a ≤ a
  | [], a => le_refl a
  | b :: t, a =>
      le_trans (foldl_min_le_init t (min a b)) (min_le_left a b)

theorem foldl_min_le_mem :
    ∀ (t : List ℝ) (a x : ℝ), x ∈ t → t.foldl min a ≤ x
  | [], _, x, hx => absurd hx (by simp)
  | b :: t, a, x, hx => by
      rcases List.mem_cons.mp hx with rfl | hx'
      · exact le_trans (foldl_min_le_init t (min a x)) (min_le_right a x)
      · exact foldl_min_le_mem t (min a b) x hx'

theorem foldl_min_le (t : List ℝ) (a x : ℝ) (hx : x ∈ a :: t) :
    t.foldl min a ≤ x := by
  rcases List.mem_cons.mp hx with rfl | hx'
  · exact foldl_min_le_init t x
  · exact foldl_min_le_mem t a x hx'

theorem mwAlphaF_le (inp : MwIn) (x p : ℕ → ℕ → ℝ) (i : ℕ) (hi : i < inp.N) :
    mwAlphaF inp x p ≤ find_max_alphaf (x i 0) (x i 1) (x i 2)
      (p i 0) (p i 1) (p i 2) (inp.mmax i) := by
  have hmem : find_max_alphaf (x i 0) (x i 1) (x i 2)
      (p i 0) (p i 1) (p i 2) (inp.mmax i) ∈
      (List.range inp.N).map (fun i => find_max_alphaf (x i 0) (x i 1)
        (x i 2) (p i 0) (p i 1) (p i 2) (inp.mmax i)) :=
    List.mem_map.mpr ⟨i, List.mem_range.mpr hi, rfl⟩
  unfold mwAlphaF
  split
  · rename_i heq
    rw [heq] at hmem
    simp at hmem
  · rename_i a t heq
    rw [heq] at hmem
    exact foldl_min_le t a _ hmem

/-- Nonpositivity of an upward parabola between a nonpositive value at
`0` and a root `f`. -/
theorem quad_nonpos {a b c α f : ℝ} (ha : 0 ≤ a) (hc : c ≤ 0)
    (hf : a * f ^ 2 + b * f + c = 0) (h0 : 0 ≤ α) (h2 : α ≤ f) :
    a * α ^ 2 + b * α + c ≤ 0 := by
  rcases eq_or_lt_of_le (le_trans h0 h2) with hf0 | hf0
  · have hα : α = 0 := le_antisymm (hf0 ▸ h2) h0
    rw [hα]
    simpa using hc
  · have hid : (a * α ^ 2 + b * α + c) * f = (f - α) * (c - a * α * f) := by
      linear_combination α * hf
    by_contra hpos
    push_neg at hpos
    have h1 : 0 < (a * α ^ 2 + b * α + c) * f := mul_pos hpos hf0
    have h2' : 0 ≤ (f - α) * (a * α * f - c) :=
      mul_nonneg (by linarith)
        (by nlinarith [mul_nonneg (mul_nonneg ha h0) hf0.le])
    nlinarith [hid]

/-- The classical largest-root formula for an upward parabola with
nonpositive constant term: nonnegative, a root, and an upper bound for
every nonnegative point where the parabola is nonpositive. -/
theorem quad_formula {a b c : ℝ} (ha : 0 < a) (hc : c ≤ 0) :
    0 ≤ (-b + Real.sqrt (b ^ 2 - 4 * a * c)) / (2 * a) ∧
    a * ((-b + Real.sqrt (b ^ 2 - 4 * a * c)) / (2 * a)) ^ 2 +
      b * ((-b + Real.sqrt (b ^ 2 - 4 * a * c)) / (2 * a)) + c = 0 ∧
    ∀ α, 0 ≤ α → a * α ^ 2 + b * α + c ≤ 0 →
      α ≤ (-b + Real.sqrt (b ^ 2 - 4 * a * c)) / (2 * a) := by
  have hdisc : 0 ≤ b ^ 2 - 4 * a * c := by nlinarith [sq_nonneg b]
  have hD2 : Real.sqrt (b ^ 2 - 4 * a * c) ^ 2 = b ^ 2 - 4 * a * c :=
    Real.sq_sqrt hdisc
  have hDnn : 0 ≤ Real.sqrt (b ^ 2 - 4 * a * c) := Real.sqrt_nonneg _
  have hbD : b ≤ Real.sqrt (b ^ 2 - 4 * a * c) := by
    rcases le_or_lt b 0 with hb | hb
    · linarith
    · refine (Real.le_sqrt hb.le hdisc).mpr ?_
      nlinarith
  refine ⟨div_nonneg (by linarith) (by linarith), ?_, ?_⟩
  · field_simp
    nlinarith [hD2]
  · intro α h0 hq
    by_contra hgt
    push_neg at hgt
    rw [div_lt_iff (by linarith)] at hgt
    have h2a : Real.sqrt (b ^ 2 - 4 * a * c) < 2 * a * α + b := by linarith
    have hpos2 : 0 < 2 * a * α + b := lt_of_le_of_lt hDnn h2a
    have hsq : b ^ 2 - 4 * a * c < (2 * a * α + b) ^ 2 := by
      calc b ^ 2 - 4 * a * c = Real.sqrt (b ^ 2 - 4 * a * c) ^ 2 := hD2.symm
      _ < (2 * a * α + b) ^ 2 := by nlinarith [hDnn, h2a]
    nlinarith [mul_nonpos_of_nonneg_of_nonpos ha.le hq]

/-- In the root branch, `find_max_alphaf` is nonnegative, is a root of
the step quadratic, and dominates every feasible nonnegative step. -/
theorem find_max_alphaf_spec (x1 x2 x3 p1 p2 p3 m : ℝ)
    (ha : 1 / 10 ^ 20 < p1 ^ 2 + p2 ^ 2 + p3 ^ 2)
    (hc : x1 ^ 2 + x2 ^ 2 + x3 ^ 2 ≤ m ^ 2) :
    0 ≤ find_max_alphaf x1 x2 x3 p1 p2 p3 m ∧
    (p1 ^ 2 + p2 ^ 2 + p3 ^ 2) * find_max_alphaf x1 x2 x3 p1 p2 p3 m ^ 2 +
      (-2 * (x1 * p1 + x2 * p2 + x3 * p3)) *
        find_max_alphaf x1 x2 x3 p1 p2 p3 m +
      (x1 ^ 2 + x2 ^ 2 + x3 ^ 2 - m ^ 2) = 0 ∧
    ∀ α, 0 ≤ α →
      (x1 - α * p1) ^ 2 + (x2 - α * p2) ^ 2 + (x3 - α * p3) ^ 2 ≤ m ^ 2 →
      α ≤ find_max_alphaf x1 x2 x3 p1 p2 p3 m := by
  have ha0 : (0 : ℝ) < p1 ^ 2 + p2 ^ 2 + p3 ^ 2 :=
    lt_trans (by positivity) ha
  have hc0 : x1 ^ 2 + x2 ^ 2 + x3 ^ 2 - m ^ 2 ≤ 0 := by linarith
  have hval : find_max_alphaf x1 x2 x3 p1 p2 p3 m =
      (-(-2 * (x1 * p1 + x2 * p2 + x3 * p3)) +
        Real.sqrt ((-2 * (x1 * p1 + x2 * p2 + x3 * p3)) ^ 2 -
          4 * (p1 ^ 2 + p2 ^ 2 + p3 ^ 2) *
            (x1 ^ 2 + x2 ^ 2 + x3 ^ 2 - m ^ 2))) /
      (2 * (p1 ^ 2 + p2 ^ 2 + p3 ^ 2)) := by
    rw [find_max_alphaf, if_pos ha]
  obtain ⟨hq1, hq2, hq3⟩ := quad_formula (a := p1 ^ 2 + p2 ^ 2 + p3 ^ 2)
    (b := -2 * (x1 * p1 + x2 * p2 + x3 * p3))
    (c := x1 ^ 2 + x2 ^ 2 + x3 ^ 2 - m ^ 2) ha0 hc0
  refine ⟨?_, ?_, ?_⟩
  · rw [hval]
    exact hq1
  · rw [hval]
    exact hq2
  · intro α h0 hle
    have hq : (p1 ^ 2 + p2 ^ 2 + p3 ^ 2) * α ^ 2 +
        (-2 * (x1 * p1 + x2 * p2 + x3 * p3)) * α +
        (x1 ^ 2 + x2 ^ 2 + x3 ^ 2 - m ^ 2) ≤ 0 := by
      have hexp : (p1 ^ 2 + p2 ^ 2 + p3 ^ 2) * α ^ 2 +
          (-2 * (x1 * p1 + x2 * p2 + x3 * p3)) * α +
          (x1 ^ 2 + x2 ^ 2 + x3 ^ 2 - m ^ 2) =
          (x1 - α * p1) ^ 2 + (x2 - α * p2) ^ 2 + (x3 - α * p3) ^ 2 - m ^ 2 := by
        ring
      rw [hexp]
      linarith
    rw [hval]
    exact hq3 α h0 hq

/-- Feasibility of any intermediate nonnegative step up to
`find_max_alphaf` (root branch). -/
theorem find_max_alphaf_between (x1 x2 x3 p1 p2 p3 m α : ℝ)
    (ha : 1 / 10 ^ 20 < p1 ^ 2 + p2 ^ 2 + p3 ^ 2)
    (hc : x1 ^ 2 + x2 ^ 2 + x3 ^ 2 ≤ m ^ 2) (h0 : 0 ≤ α)
    (hle : α ≤ find_max_alphaf x1 x2 x3 p1 p2 p3 m) :
    (x1 - α * p1) ^ 2 + (x2 - α * p2) ^ 2 + (x3 - α * p3) ^ 2 ≤ m ^ 2 := by
  obtain ⟨-, hroot, -⟩ := find_max_alphaf_spec x1 x2 x3 p1 p2 p3 m ha hc
  have hq := quad_nonpos (a := p1 ^ 2 + p2 ^ 2 + p3 ^ 2)
    (b := -2 * (x1 * p1 + x2 * p2 + x3 * p3))
    (c := x1 ^ 2 + x2 ^ 2 + x3 ^ 2 - m ^ 2)
    (by positivity) (by linarith) hroot h0 hle
  nlinarith [hq]

/-- C8: `find_max_alphaf` correctness: for inputs with `‖x‖ ≤ M`, in
the root branch (`‖p‖²` above the `1e-20` floor) the returned `α_f` is
nonnegative, satisfies `‖x − α_f p‖ = M`, and is the largest `α ≥ 0`
with `‖x − α p‖² ≤ M²`; otherwise the sentinel `1e100` is returned. -/
theorem find_max_alphaf_correct (x1 x2 x3 p1 p2 p3 m : ℝ)
    (hfeas : x1 ^ 2 + x2 ^ 2 + x3 ^ 2 ≤ m ^ 2) (hm : 0 ≤ m) :
    ((1 / 10 ^ 20 < p1 ^ 2 + p2 ^ 2 + p3 ^ 2) →
      0 ≤ find_max_alphaf x1 x2 x3 p1 p2 p3 m ∧
      Real.sqrt ((x1 - find_max_alphaf x1 x2 x3 p1 p2 p3 m * p1) ^ 2 +
        (x2 - find_max_alphaf x1 x2 x3 p1 p2 p3 m * p2) ^ 2 +
        (x3 - find_max_alphaf x1 x2 x3 p1 p2 p3 m * p3) ^ 2) = m ∧
      (∀ α, 0 ≤ α →
        (x1 - α * p1) ^ 2 + (x2 - α * p2) ^ 2 + (x3 - α * p3) ^ 2 ≤ m ^ 2 →
        α ≤ find_max_alphaf x1 x2 x3 p1 p2 p3 m)) ∧
    (¬ (1 / 10 ^ 20 < p1 ^ 2 + p2 ^ 2 + p3 ^ 2) →
      find_max_alphaf x1 x2 x3 p1 p2 p3 m = 10 ^ 100) := by
  constructor
  · intro ha
    obtain ⟨hnn, hroot, hmax⟩ :=
      find_max_alphaf_spec x1 x2 x3 p1 p2 p3 m ha hfeas
    refine ⟨hnn, ?_, hmax⟩
    have hsq : (x1 - find_max_alphaf x1 x2 x3 p1 p2 p3 m * p1) ^ 2 +
        (x2 - find_max_alphaf x1 x2 x3 p1 p2 p3 m * p2) ^ 2 +
        (x3 - find_max_alphaf x1 x2 x3 p1 p2 p3 m * p3) ^ 2 = m ^ 2 := by
      nlinarith [hroot]
    rw [hsq]
    exact Real.sqrt_sq hm
  · intro ha
    rw [find_max_alphaf, if_neg ha]

/-- C8 (witness): the root branch at `x = 0`, `p = (1,0,0)`, `M = 1`
and the sentinel branch at `p = 0`. -/
theorem find_max_alphaf_correct_wit :
    0 ≤ find_max_alphaf 0 0 0 1 0 0 1 ∧
    find_max_alphaf 0 0 0 0 0 0 1 = 10 ^ 100 := by
  have h := find_max_alphaf_correct 0 0 0 1 0 0 1 (by norm_num) (by norm_num)
  have h2 := find_max_alphaf_correct 0 0 0 0 0 0 1 (by norm_num) (by norm_num)
  exact ⟨(h.1 (by norm_num)).1, h2.2 (by norm_num)⟩

/-! ## MwPGP step lemmas -/

theorem MwPGP_step_frozen (inp : MwIn) (vb : Bool) (k : ℕ) (s : MwS)
    (h : s.done = true) : MwPGP_step inp vb k s = s := by
  rw [MwPGP_step, if_pos h]

theorem MwPGP_iter_frozen (inp : MwIn) (vb : Bool) (n : ℕ)
    (h : (MwPGP_iter inp vb n).done = true) :
    ∀ m, n ≤ m → MwPGP_iter inp vb m = MwPGP_iter inp vb n := by
  intro m hm
  induction m with
  | zero =>
      have : n = 0 := by omega
      rw [this]
  | succ l ih =>
      rcases Nat.lt_or_ge l n with hl | hl
      · have : n = l + 1 := by omega
        rw [this]
      · have heq := ih hl
        rw [MwPGP_iter, heq, MwPGP_step_frozen inp vb l _ h]

theorem MwPGP_step_noprint (inp : MwIn) (vb : Bool) (k : ℕ) (s : MwS)
    (hdone : s.done = false) (hq : ¬ (vb = true ∧ mwQual inp k)) :
    MwPGP_step inp vb k s =
      ⟨(mwXGP inp s.x s.g s.p).1, (mwXGP inp s.x s.g s.p).2.1,
        (mwXGP inp s.x s.g s.p).2.2, s.objH, s.R2H, s.mH, s.pIter,
        if mwXsum inp s.x s.g s.p < inp.eps then true else false⟩ := by
  rw [MwPGP_step, if_neg (by simp [hdone]), if_neg hq]

theorem MwPGP_step_print (inp : MwIn) (k : ℕ) (s : MwS)
    (hdone : s.done = false) (hq : mwQual inp k)
    (hnb : ¬ mwR2 inp (mwXGP inp s.x s.g s.p).1 < inp.minfb) :
    MwPGP_step inp true k s =
      ⟨(mwXGP inp s.x s.g s.p).1, (mwXGP inp s.x s.g s.p).2.1,
        (mwXGP inp s.x s.g s.p).2.2,
        (fun sl => if sl = s.pIter then mwCost inp (mwXGP inp s.x s.g s.p).1
          else s.objH sl),
        (fun sl => if sl = s.pIter then mwR2 inp (mwXGP inp s.x s.g s.p).1
          else s.R2H sl),
        (fun sl i d => if sl = s.pIter ∧ i < inp.N ∧ d < 3
          then (mwXGP inp s.x s.g s.p).1 i d else s.mH sl i d),
        s.pIter + 1,
        if mwXsum inp s.x s.g s.p < inp.eps then true else false⟩ := by
  rw [MwPGP_step, if_neg (by simp [hdone]), if_pos ⟨rfl, hq⟩, if_neg hnb]

theorem MwPGP_step_break (inp : MwIn) (k : ℕ) (s : MwS)
    (hdone : s.done = false) (hq : mwQual inp k)
    (hb : mwR2 inp (mwXGP inp s.x s.g s.p).1 < inp.minfb) :
    MwPGP_step inp true k s =
      ⟨(mwXGP inp s.x s.g s.p).1, (mwXGP inp s.x s.g s.p).2.1,
        (mwXGP inp s.x s.g s.p).2.2,
        (fun sl => if sl = s.pIter then mwCost inp (mwXGP inp s.x s.g s.p).1
          else s.objH sl),
        (fun sl => if sl = s.pIter then mwR2 inp (mwXGP inp s.x s.g s.p).1
          else s.R2H sl),
        (fun sl i d => if sl = s.pIter ∧ i < inp.N ∧ d < 3
          then (mwXGP inp s.x s.g s.p).1 i d else s.mH sl i d),
        s.pIter, true⟩ := by
  rw [MwPGP_step, if_neg (by simp [hdone]), if_pos ⟨rfl, hq⟩, if_pos hb]

theorem mwXGP_cg (inp : MwIn) (x g p : ℕ → ℕ → ℝ)
    (hbr : mwNga inp x g ≤ mwNphi inp x g)
    (hcg : mwAlphaCG inp g p < mwAlphaF inp x p) :
    mwXGP inp x g p = (cgX inp x g p, cgG inp g p, cgP inp x g p) := by
  rw [mwXGP, if_pos hbr, if_pos hcg]

theorem mwR2_nonneg (inp : MwIn) (x1 : ℕ → ℕ → ℝ) : 0 ≤ mwR2 inp x1 := by
  rw [mwR2]
  have h := rsum_nonneg (n := inp.ngrid)
    (f := fun g => (Amulvec inp x1 g - inp.b g) ^ 2)
    (fun i _ => sq_nonneg _)
  linarith

theorem MwPGP_step_verbose_eq (inp : MwIn) (hminfb : inp.minfb ≤ 0) (k : ℕ)
    (s t : MwS) (hx : s.x = t.x) (hg : s.g = t.g) (hp : s.p = t.p)
    (hd : s.done = t.done) :
    (MwPGP_step inp true k s).x = (MwPGP_step inp false k t).x ∧
    (MwPGP_step inp true k s).g = (MwPGP_step inp false k t).g ∧
    (MwPGP_step inp true k s).p = (MwPGP_step inp false k t).p ∧
    (MwPGP_step inp true k s).done = (MwPGP_step inp false k t).done := by
  by_cases hdn : t.done = true
  · rw [MwPGP_step_frozen inp true k s (hd.trans hdn),
      MwPGP_step_frozen inp false k t hdn]
    exact ⟨hx, hg, hp, hd⟩
  · have hdf : t.done = false := by
      cases hv : t.done
      · rfl
      · exact absurd hv hdn
    have hsf : s.done = false := hd.trans hdf
    rw [MwPGP_step_noprint inp false k t hdf (by simp)]
    by_cases hq : mwQual inp k
    · rw [MwPGP_step_print inp k s hsf hq
        (not_lt.mpr (le_trans hminfb (mwR2_nonneg inp _)))]
      exact ⟨by rw [hx, hg, hp], by rw [hx, hg, hp], by rw [hx, hg, hp],
        by rw [hx, hg, hp]⟩
    · rw [MwPGP_step_noprint inp true k s hsf (fun h => hq h.2)]
      exact ⟨by rw [hx, hg, hp], by rw [hx, hg, hp], by rw [hx, hg, hp],
        by rw [hx, hg, hp]⟩

/-- C1 (amended): when `min_fb ≤ 0` (so the sampled-objective break can
never fire), the `verbose` flag changes no numerical output of
`MwPGP_algorithm`: the iterate, gradient, direction and loop-exit flag
agree between the verbose and quiet runs at every iteration, and the
final iterate of `MwPGP_algorithm` is identical.  (With `min_fb > 0`
a verbose run can break out early and return a different final iterate
than the quiet run — see the counterexample.) -/
theorem MwPGP_verbose_invariance_amended (inp : MwIn)
    (hminfb : inp.minfb ≤ 0) :
    (∀ n : ℕ,
      (MwPGP_iter inp true n).x = (MwPGP_iter inp false n).x ∧
      (MwPGP_iter inp true n).g = (MwPGP_iter inp false n).g ∧
      (MwPGP_iter inp true n).p = (MwPGP_iter inp false n).p ∧
      (MwPGP_iter inp true n).done = (MwPGP_iter inp false n).done) ∧
    (MwPGP_algorithm inp true).x = (MwPGP_algorithm inp false).x := by
  have hiter : ∀ n : ℕ,
      (MwPGP_iter inp true n).x = (MwPGP_iter inp false n).x ∧
      (MwPGP_iter inp true n).g = (MwPGP_iter inp false n).g ∧
      (MwPGP_iter inp true n).p = (MwPGP_iter inp false n).p ∧
      (MwPGP_iter inp true n).done = (MwPGP_iter inp false n).done := by
    intro n
    induction n with
    | zero => exact ⟨rfl, rfl, rfl, rfl⟩
    | succ m ih =>
        obtain ⟨hx, hg, hp, hd⟩ := ih
        exact MwPGP_step_verbose_eq inp hminfb m _ _ hx hg hp hd
  exact ⟨hiter, (hiter inp.maxiter).1⟩

/-- C1 (amended, witness): the verbose-invariance statement at a
concrete input with `min_fb = -1`. -/
theorem MwPGP_verbose_invariance_amended_wit :
    (MwPGP_algorithm mwWit true).x = (MwPGP_algorithm mwWit false).x :=
  (MwPGP_verbose_invariance_amended mwWit (by norm_num [mwWit])).2

/-! ## Projection and feasibility lemmas -/

theorem proj_feas (x1 x2 x3 m : ℝ) (hm : 0 < m) :
    (projection_L2_balls x1 x2 x3 m).1 ^ 2 +
      (projection_L2_balls x1 x2 x3 m).2.1 ^ 2 +
      (projection_L2_balls x1 x2 x3 m).2.2 ^ 2 ≤ m ^ 2 := by
  have hS : (0 : ℝ) ≤ x1 ^ 2 + x2 ^ 2 + x3 ^ 2 := by positivity
  have h2 := Real.sq_sqrt hS
  unfold projection_L2_balls
  rcases le_or_lt (Real.sqrt (x1 ^ 2 + x2 ^ 2 + x3 ^ 2) / m) 1 with hc | hc
  · rw [max_eq_left hc]
    have hsq : Real.sqrt (x1 ^ 2 + x2 ^ 2 + x3 ^ 2) ≤ m := (div_le_one hm).mp hc
    simp only [div_one]
    nlinarith [Real.sqrt_nonneg (x1 ^ 2 + x2 ^ 2 + x3 ^ 2)]
  · rw [max_eq_right hc.le]
    have hmlt : m < Real.sqrt (x1 ^ 2 + x2 ^ 2 + x3 ^ 2) := by
      rw [lt_div_iff hm] at hc
      linarith
    have hSL : m ^ 2 < x1 ^ 2 + x2 ^ 2 + x3 ^ 2 := by
      nlinarith [Real.sqrt_nonneg (x1 ^ 2 + x2 ^ 2 + x3 ^ 2)]
    have hSne : x1 ^ 2 + x2 ^ 2 + x3 ^ 2 ≠ 0 := by nlinarith
    have hsne : Real.sqrt (x1 ^ 2 + x2 ^ 2 + x3 ^ 2) ≠ 0 := by
      intro h0
      rw [h0] at hmlt
      linarith
    have hexp : (x1 / (Real.sqrt (x1 ^ 2 + x2 ^ 2 + x3 ^ 2) / m)) ^ 2 +
        (x2 / (Real.sqrt (x1 ^ 2 + x2 ^ 2 + x3 ^ 2) / m)) ^ 2 +
        (x3 / (Real.sqrt (x1 ^ 2 + x2 ^ 2 + x3 ^ 2) / m)) ^ 2 =
        (x1 ^ 2 + x2 ^ 2 + x3 ^ 2) * m ^ 2 /
          Real.sqrt (x1 ^ 2 + x2 ^ 2 + x3 ^ 2) ^ 2 := by
      field_simp
      ring
    rw [hexp, h2, mul_comm, mul_div_assoc, div_self hSne, mul_one]

theorem MwPGP_step_feas (inp : MwIn) (vb : Bool) (k : ℕ) (s : MwS)
    (hM : ∀ i, i < inp.N → 0 < inp.mmax i)
    (hfeas : mwFeas inp s.x) (hsafe : mwSafe inp s) :
    mwFeas inp (MwPGP_step inp vb k s).x := by
  by_cases hd : s.done = true
  · rw [MwPGP_step_frozen inp vb k s hd]
    exact hfeas
  · have hdf : s.done = false := by
      cases hv : s.done
      · rfl
      · exact absurd hv hd
    have hx : (MwPGP_step inp vb k s).x = (mwXGP inp s.x s.g s.p).1 := by
      rw [MwPGP_step, if_neg (by simp [hdf])]
      by_cases hq : vb = true ∧ mwQual inp k
      · rw [if_pos hq]
        by_cases hb : mwR2 inp (mwXGP inp s.x s.g s.p).1 < inp.minfb
        · rw [if_pos hb]
        · rw [if_neg hb]
      · rw [if_neg hq]
    rw [hx, mwXGP]
    by_cases hbr : mwNga inp s.x s.g ≤ mwNphi inp s.x s.g
    · rw [if_pos hbr]
      by_cases hcg : mwAlphaCG inp s.g s.p < mwAlphaF inp s.x s.p
      · rw [if_pos hcg]
        intro i hi
        have hai := hsafe.2 i hi
        have hci := hfeas i hi
        have hlei : mwAlphaCG inp s.g s.p ≤ find_max_alphaf (s.x i 0)
            (s.x i 1) (s.x i 2) (s.p i 0) (s.p i 1) (s.p i 2) (inp.mmax i) :=
          le_trans hcg.le (mwAlphaF_le inp s.x s.p i hi)
        exact find_max_alphaf_between (s.x i 0) (s.x i 1) (s.x i 2)
          (s.p i 0) (s.p i 1) (s.p i 2) (inp.mmax i) (mwAlphaCG inp s.g s.p)
          hai hci hsafe.1 hlei
      · rw [if_neg hcg]
        intro i hi
        exact proj_feas _ _ _ (inp.mmax i) (hM i hi)
    · rw [if_neg hbr]
      intro i hi
      exact proj_feas _ _ _ (inp.mmax i) (hM i hi)

/-- C3 (amended): the feasibility invariant `‖x_i‖ ≤ M_i` is preserved
by every `MwPGP_algorithm` iteration provided each iteration is
step-safe: its conjugate-gradient step size is nonnegative and every
direction triple's squared norm exceeds the `1e-20` floor of
`find_max_alphaf`.  Without the floor proviso the invariant fails: a
tiny direction makes `alpha_f` the `1e100` sentinel while `alpha_cg`
can be huge, and the unprojected conjugate-gradient step leaves the
ball — see the counterexample. -/
theorem MwPGP_feasibility_amended (inp : MwIn) (vb : Bool)
    (hM : ∀ i, i < inp.N → 0 < inp.mmax i) (h0 : mwFeas inp inp.m0)
    (n : ℕ) (hsafe : ∀ k, k < n → mwSafe inp (MwPGP_iter inp vb k)) :
    mwFeas inp (MwPGP_iter inp vb n).x := by
  induction n with
  | zero => exact h0
  | succ m ih =>
      exact MwPGP_step_feas inp vb m _ hM
        (ih (fun k hk => hsafe k (by omega))) (hsafe m (by omega))

/-! ## Evaluation helpers for concrete runs -/

theorem Qop_zeroV (inp : MwIn) (v : ℕ → ℕ → ℝ) (hv : ∀ i d, v i d = 0)
    (i d : ℕ) : Qop inp v i d = 0 := by
  unfold Qop Amulvec
  have h1 : rsum inp.ngrid (fun g => inp.A g (3 * i + d) *
      rsum (3 * inp.N) (fun j => inp.A g j * v (j / 3) (j % 3))) =
      rsum inp.ngrid (fun _ => (0 : ℝ)) := by
    refine rsum_congr (fun g _ => ?_)
    have h2 : rsum (3 * inp.N) (fun j => inp.A g j * v (j / 3) (j % 3)) =
        rsum (3 * inp.N) (fun _ => (0 : ℝ)) :=
      rsum_congr (fun j _ => by rw [hv]; ring)
    rw [h2, rsum_zero_fun, mul_zero]
  rw [h1, rsum_zero_fun, hv, mul_zero, add_zero]

theorem Qop_zeroA (inp : MwIn) (hA : ∀ g j, inp.A g j = 0)
    (v : ℕ → ℕ → ℝ) (i d : ℕ) :
    Qop inp v i d = 2 * (inp.regl2 + 1 / (2 * inp.nu)) * v i d := by
  unfold Qop
  have h1 : rsum inp.ngrid (fun g => inp.A g (3 * i + d) * Amulvec inp v g) =
      rsum inp.ngrid (fun _ => (0 : ℝ)) :=
    rsum_congr (fun g _ => by rw [hA]; ring)
  rw [h1, rsum_zero_fun, zero_add]

theorem find_max_alphaf_eval (x1 x2 x3 p1 p2 p3 m v : ℝ)
    (ha : 1 / 10 ^ 20 < p1 ^ 2 + p2 ^ 2 + p3 ^ 2)
    (hv : (-2 * (x1 * p1 + x2 * p2 + x3 * p3)) ^ 2 -
      4 * (p1 ^ 2 + p2 ^ 2 + p3 ^ 2) * (x1 ^ 2 + x2 ^ 2 + x3 ^ 2 - m ^ 2) =
        v ^ 2)
    (hvnn : 0 ≤ v) :
    find_max_alphaf x1 x2 x3 p1 p2 p3 m =
      (-(-2 * (x1 * p1 + x2 * p2 + x3 * p3)) + v) /
        (2 * (p1 ^ 2 + p2 ^ 2 + p3 ^ 2)) := by
  rw [find_max_alphaf, if_pos ha, hv, Real.sqrt_sq hvnn]

theorem find_max_alphaf_gt (x1 x2 x3 p1 p2 p3 m t : ℝ)
    (ha : 1 / 10 ^ 20 < p1 ^ 2 + p2 ^ 2 + p3 ^ 2)
    (h : (2 * (p1 ^ 2 + p2 ^ 2 + p3 ^ 2) * t +
        (-2 * (x1 * p1 + x2 * p2 + x3 * p3))) ^ 2 <
      (-2 * (x1 * p1 + x2 * p2 + x3 * p3)) ^ 2 -
        4 * (p1 ^ 2 + p2 ^ 2 + p3 ^ 2) * (x1 ^ 2 + x2 ^ 2 + x3 ^ 2 - m ^ 2)) :
    t < find_max_alphaf x1 x2 x3 p1 p2 p3 m := by
  have ha0 : (0 : ℝ) < p1 ^ 2 + p2 ^ 2 + p3 ^ 2 := lt_trans (by positivity) ha
  rw [find_max_alphaf, if_pos ha, lt_div_iff (by linarith)]
  have hd0 : 0 ≤ (-2 * (x1 * p1 + x2 * p2 + x3 * p3)) ^ 2 -
      4 * (p1 ^ 2 + p2 ^ 2 + p3 ^ 2) * (x1 ^ 2 + x2 ^ 2 + x3 ^ 2 - m ^ 2) :=
    le_of_lt (lt_of_le_of_lt (sq_nonneg _) h)
  have hsq := Real.sq_sqrt hd0
  have hkey : 2 * (p1 ^ 2 + p2 ^ 2 + p3 ^ 2) * t +
      (-2 * (x1 * p1 + x2 * p2 + x3 * p3)) <
      Real.sqrt ((-2 * (x1 * p1 + x2 * p2 + x3 * p3)) ^ 2 -
        4 * (p1 ^ 2 + p2 ^ 2 + p3 ^ 2) * (x1 ^ 2 + x2 ^ 2 + x3 ^ 2 - m ^ 2)) := by
    rcases le_or_lt 0 (2 * (p1 ^ 2 + p2 ^ 2 + p3 ^ 2) * t +
        (-2 * (x1 * p1 + x2 * p2 + x3 * p3))) with hpos | hneg
    · by_contra hle
      push_neg at hle
      nlinarith [Real.sqrt_nonneg ((-2 * (x1 * p1 + x2 * p2 + x3 * p3)) ^ 2 -
        4 * (p1 ^ 2 + p2 ^ 2 + p3 ^ 2) * (x1 ^ 2 + x2 ^ 2 + x3 ^ 2 - m ^ 2))]
    · exact lt_of_lt_of_le hneg (Real.sqrt_nonneg _)
  linarith

/-! ## Concrete MwPGP runs -/

theorem mwPhi_away (inp : MwIn) (x g : ℕ → ℕ → ℝ) (i : ℕ)
    (h : |x i 0 ^ 2 + x i 1 ^ 2 + x i 2 ^ 2 - inp.mmax i ^ 2| >
      1 / 10 ^ 8 + (1 / 10 ^ 5) * inp.mmax i ^ 2) :
    mwPhi inp x g i = (g i 0, g i 1, g i 2) := by
  unfold mwPhi phi_MwPGP
  rw [if_pos h]

theorem grpg_away (x1 x2 x3 g1 g2 g3 a m : ℝ)
    (h : |x1 ^ 2 + x2 ^ 2 + x3 ^ 2 - m ^ 2| >
      1 / 10 ^ 8 + (1 / 10 ^ 5) * m ^ 2) :
    g_reduced_projected_gradient x1 x2 x3 g1 g2 g3 a m = (g1, g2, g3) := by
  unfold g_reduced_projected_gradient phi_MwPGP beta_tilde
  rw [if_pos h, if_neg (not_lt.mpr (le_of_lt h))]
  norm_num

theorem mwNga_eq_mwNphi (inp : MwIn) (x g : ℕ → ℕ → ℝ)
    (h : ∀ i, i < inp.N → |x i 0 ^ 2 + x i 1 ^ 2 + x i 2 ^ 2 -
      inp.mmax i ^ 2| > 1 / 10 ^ 8 + (1 / 10 ^ 5) * inp.mmax i ^ 2) :
    mwNga inp x g = mwNphi inp x g := by
  unfold mwNga mwNphi
  refine rsum_congr (fun i hi => ?_)
  rw [grpg_away (x i 0) (x i 1) (x i 2) (g i 0) (g i 1) (g i 2)
    inp.alpha (inp.mmax i) (h i hi), mwPhi_away inp x g i (h i hi)]

theorem mwAlphaF_one (inp : MwIn) (hN : inp.N = 1) (x p : ℕ → ℕ → ℝ) :
    mwAlphaF inp x p = find_max_alphaf (x 0 0) (x 0 1) (x 0 2)
      (p 0 0) (p 0 1) (p 0 2) (inp.mmax 0) := by
  unfold mwAlphaF
  rw [hN]
  rw [show List.range 1 = [0] from rfl]
  simp

theorem tget_triX (v0 v1 v2 : ℝ) (i d : ℕ) :
    tget (triX v0 v1 v2 i 0, triX v0 v1 v2 i 1, triX v0 v1 v2 i 2) d =
      triX v0 v1 v2 i d := by
  unfold tget triX
  split_ifs <;> simp_all

/-! ### The `mwWit` run (step-safety of the start state) -/

theorem mwWit_start_x : (MwPGP_start mwWit).x = triX 0 0 0 := by
  funext i d
  show mwWit.m0 i d = triX 0 0 0 i d
  unfold triX
  split_ifs <;> norm_num [mwWit]

theorem mwWit_start_g : (MwPGP_start mwWit).g = triX (-1) 0 0 := by
  funext i d
  show Qop mwWit mwWit.m0 i d - ATb_rs mwWit i d = triX (-1) 0 0 i d
  rw [Qop_zeroV mwWit mwWit.m0 (fun _ _ => rfl) i d]
  unfold ATb_rs triX
  norm_num [mwWit, tri3]
  split_ifs <;> norm_num

theorem mwWit_start_p : (MwPGP_start mwWit).p = triX (-1) 0 0 := by
  funext i d
  show tget (mwPhi mwWit mwWit.m0 (MwPGP_start mwWit).g i) d =
    triX (-1) 0 0 i d
  rw [mwWit_start_g, mwPhi_away mwWit mwWit.m0 (triX (-1) 0 0) i
    (by norm_num [mwWit]), tget_triX]

theorem mwWit_start_safe : mwSafe mwWit (MwPGP_iter mwWit false 0) := by
  show mwSafe mwWit (MwPGP_start mwWit)
  constructor
  · show 0 ≤ mwAlphaCG mwWit (MwPGP_start mwWit).g (MwPGP_start mwWit).p
    rw [mwWit_start_g, mwWit_start_p]
    unfold mwAlphaCG mwGP mwPATAP
    rw [show mwWit.N = 1 from rfl, rsum_one, rsum_one,
      Qop_zeroA mwWit (fun _ _ => rfl) (triX (-1) 0 0) 0 0,
      Qop_zeroA mwWit (fun _ _ => rfl) (triX (-1) 0 0) 0 1,
      Qop_zeroA mwWit (fun _ _ => rfl) (triX (-1) 0 0) 0 2]
    norm_num [mwWit, triX]
  · intro i hi
    rw [show mwWit.N = 1 from rfl] at hi
    have hi0 : i = 0 := by omega
    subst hi0
    rw [mwWit_start_p]
    norm_num [triX]

/-- C3 (amended, witness): one iteration at a concrete step-safe
input. -/
theorem MwPGP_feasibility_amended_wit :
    mwFeas mwWit (MwPGP_iter mwWit false 1).x := by
  apply MwPGP_feasibility_amended mwWit false
  · intro i _
    norm_num [mwWit]
  · intro i _
    show mwWit.m0 i 0 ^ 2 + mwWit.m0 i 1 ^ 2 + mwWit.m0 i 2 ^ 2 ≤
      mwWit.mmax i ^ 2
    norm_num [mwWit]
  · intro k hk
    have hk0 : k = 0 := by omega
    subst hk0
    exact mwWit_start_safe

/-! ### The `mwCx3` run (unsafe step leaving the ball) -/

theorem mwCx3_start_x : (MwPGP_start mwCx3).x = triX 0 0 0 := by
  funext i d
  show mwCx3.m0 i d = triX 0 0 0 i d
  unfold triX
  split_ifs <;> norm_num [mwCx3]

theorem mwCx3_start_g : (MwPGP_start mwCx3).g = triX (1 / 10 ^ 11) 0 0 := by
  funext i d
  show Qop mwCx3 mwCx3.m0 i d - ATb_rs mwCx3 i d = triX (1 / 10 ^ 11) 0 0 i d
  rw [Qop_zeroV mwCx3 mwCx3.m0 (fun _ _ => rfl) i d]
  unfold ATb_rs triX
  norm_num [mwCx3, tri3]
  split_ifs <;> norm_num

theorem mwCx3_start_p : (MwPGP_start mwCx3).p = triX (1 / 10 ^ 11) 0 0 := by
  funext i d
  show tget (mwPhi mwCx3 mwCx3.m0 (MwPGP_start mwCx3).g i) d =
    triX (1 / 10 ^ 11) 0 0 i d
  rw [mwCx3_start_g, mwPhi_away mwCx3 mwCx3.m0 (triX (1 / 10 ^ 11) 0 0) i
    (by norm_num [mwCx3]), tget_triX]

theorem mwCx3_alphaCG :
    mwAlphaCG mwCx3 (triX (1 / 10 ^ 11) 0 0) (triX (1 / 10 ^ 11) 0 0) =
      10 ^ 30 := by
  unfold mwAlphaCG mwGP mwPATAP
  rw [show mwCx3.N = 1 from rfl, rsum_one, rsum_one,
    Qop_zeroA mwCx3 (fun _ _ => rfl) (triX (1 / 10 ^ 11) 0 0) 0 0,
    Qop_zeroA mwCx3 (fun _ _ => rfl) (triX (1 / 10 ^ 11) 0 0) 0 1,
    Qop_zeroA mwCx3 (fun _ _ => rfl) (triX (1 / 10 ^ 11) 0 0) 0 2]
  norm_num [mwCx3, triX]

theorem mwCx3_x1 : (MwPGP_iter mwCx3 false 1).x = triX (-(10 ^ 19)) 0 0 := by
  have hstep : MwPGP_iter mwCx3 false 1 =
      MwPGP_step mwCx3 false 0 (MwPGP_start mwCx3) := rfl
  rw [hstep, MwPGP_step_noprint mwCx3 false 0 (MwPGP_start mwCx3) rfl
    (by simp)]
  show (mwXGP mwCx3 (MwPGP_start mwCx3).x (MwPGP_start mwCx3).g
    (MwPGP_start mwCx3).p).1 = triX (-(10 ^ 19)) 0 0
  rw [mwCx3_start_x, mwCx3_start_g, mwCx3_start_p]
  have hbr : mwNga mwCx3 (triX 0 0 0) (triX (1 / 10 ^ 11) 0 0) ≤
      mwNphi mwCx3 (triX 0 0 0) (triX (1 / 10 ^ 11) 0 0) :=
    le_of_eq (mwNga_eq_mwNphi mwCx3 _ _ (by
      intro i hi
      rw [show mwCx3.N = 1 from rfl] at hi
      have hi0 : i = 0 := by omega
      subst hi0
      norm_num [mwCx3, triX]))
  have hcg : mwAlphaCG mwCx3 (triX (1 / 10 ^ 11) 0 0)
      (triX (1 / 10 ^ 11) 0 0) <
      mwAlphaF mwCx3 (triX 0 0 0) (triX (1 / 10 ^ 11) 0 0) := by
    rw [mwCx3_alphaCG, mwAlphaF_one mwCx3 rfl]
    rw [find_max_alphaf, if_neg (by norm_num [triX])]
    norm_num
  rw [mwXGP_cg mwCx3 _ _ _ hbr hcg]
  show cgX mwCx3 (triX 0 0 0) (triX (1 / 10 ^ 11) 0 0)
    (triX (1 / 10 ^ 11) 0 0) = triX (-(10 ^ 19)) 0 0
  funext i d
  show triX 0 0 0 i d - mwAlphaCG mwCx3 (triX (1 / 10 ^ 11) 0 0)
    (triX (1 / 10 ^ 11) 0 0) * triX (1 / 10 ^ 11) 0 0 i d =
    triX (-(10 ^ 19)) 0 0 i d
  rw [mwCx3_alphaCG]
  unfold triX
  split_ifs <;> norm_num

/-- C3 (counterexample): on an input whose conjugate direction has
squared norm `1e-22` (below the `find_max_alphaf` floor) the sentinel
`α_f = 1e100` lets an unprojected conjugate-gradient step of size
`α_cg = 1e30` through, and after one iteration of `MwPGP_algorithm`
the single dipole sits at distance `1e19` from the origin — far beyond
its radius-`1` ball, even with the spec's `1 + 1e-6` slack. -/
theorem MwPGP_infeasible_cx :
    (MwPGP_algorithm mwCx3 false).x 0 0 = -(10 ^ 19) ∧
    ¬ ((MwPGP_algorithm mwCx3 false).x 0 0 ^ 2 +
        (MwPGP_algorithm mwCx3 false).x 0 1 ^ 2 +
        (MwPGP_algorithm mwCx3 false).x 0 2 ^ 2 ≤
        (mwCx3.mmax 0 * (1 + 1 / 10 ^ 6)) ^ 2) := by
  have halgo : MwPGP_algorithm mwCx3 false = MwPGP_iter mwCx3 false 1 := rfl
  rw [halgo, mwCx3_x1]
  norm_num [triX, mwCx3]

theorem Qop_mwCx1_00 (v : ℕ → ℕ → ℝ) : Qop mwCx1 v 0 0 = 3 * v 0 0 := by
  unfold Qop Amulvec
  rw [show mwCx1.ngrid = 2 from rfl, rsum_two,
    show (3 * mwCx1.N) = 3 from by norm_num [mwCx1], rsum_three, rsum_three]
  norm_num [mwCx1]
  ring

theorem Qop_mwCx1_01 (v : ℕ → ℕ → ℝ) : Qop mwCx1 v 0 1 = 6 * v 0 1 := by
  unfold Qop Amulvec
  rw [show mwCx1.ngrid = 2 from rfl, rsum_two,
    show (3 * mwCx1.N) = 3 from by norm_num [mwCx1], rsum_three, rsum_three]
  norm_num [mwCx1]
  ring

theorem Qop_mwCx1_02 (v : ℕ → ℕ → ℝ) : Qop mwCx1 v 0 2 = 2 * v 0 2 := by
  unfold Qop Amulvec
  rw [show mwCx1.ngrid = 2 from rfl, rsum_two,
    show (3 * mwCx1.N) = 3 from by norm_num [mwCx1], rsum_three, rsum_three]
  norm_num [mwCx1]

/-! ### The `mwCx1` run (verbose break changes the final iterate) -/

theorem mwCx1_g0val (d : ℕ) : Qop mwCx1 mwCx1.m0 0 d - ATb_rs mwCx1 0 d
    = -(tri3 (3 / 10) (2 / 5) 0 0 d) := by
  rw [Qop_zeroV mwCx1 mwCx1.m0 (fun _ _ => rfl) 0 d]
  unfold ATb_rs
  norm_num [mwCx1]

theorem mwCx1_s0 :
    (MwPGP_start mwCx1).x 0 0 = 0 ∧ (MwPGP_start mwCx1).x 0 1 = 0 ∧
    (MwPGP_start mwCx1).x 0 2 = 0 ∧
    (MwPGP_start mwCx1).g 0 0 = -(3 / 10) ∧
    (MwPGP_start mwCx1).g 0 1 = -(2 / 5) ∧
    (MwPGP_start mwCx1).g 0 2 = 0 ∧
    (MwPGP_start mwCx1).p 0 0 = -(3 / 10) ∧
    (MwPGP_start mwCx1).p 0 1 = -(2 / 5) ∧
    (MwPGP_start mwCx1).p 0 2 = 0 := by
  have hphi : mwPhi mwCx1 mwCx1.m0 (MwPGP_start mwCx1).g 0 =
      ((MwPGP_start mwCx1).g 0 0, (MwPGP_start mwCx1).g 0 1,
        (MwPGP_start mwCx1).g 0 2) :=
    mwPhi_away mwCx1 mwCx1.m0 (MwPGP_start mwCx1).g 0 (by norm_num [mwCx1])
  have hg : ∀ d, (MwPGP_start mwCx1).g 0 d = -(tri3 (3 / 10) (2 / 5) 0 0 d) :=
    fun d => mwCx1_g0val d
  refine ⟨rfl, rfl, rfl, ?_, ?_, ?_, ?_, ?_, ?_⟩
  · rw [hg 0]; norm_num [tri3]
  · rw [hg 1]; norm_num [tri3]
  · rw [hg 2]; norm_num [tri3]
  · show tget (mwPhi mwCx1 mwCx1.m0 (MwPGP_start mwCx1).g 0) 0 = _
    rw [hphi, tget_zero, hg 0]; norm_num [tri3]
  · show tget (mwPhi mwCx1 mwCx1.m0 (MwPGP_start mwCx1).g 0) 1 = _
    rw [hphi, tget_one, hg 1]; norm_num [tri3]
  · show tget (mwPhi mwCx1 mwCx1.m0 (MwPGP_start mwCx1).g 0) 2 = _
    rw [hphi, tget_two, hg 2]; norm_num [tri3]

theorem mwCx1_step0 (x g p : ℕ → ℕ → ℝ)
    (hx0 : x 0 0 = 0) (hx1 : x 0 1 = 0) (hx2 : x 0 2 = 0)
    (hg0 : g 0 0 = -(3 / 10)) (hg1 : g 0 1 = -(2 / 5)) (hg2 : g 0 2 = 0)
    (hp0 : p 0 0 = -(3 / 10)) (hp1 : p 0 1 = -(2 / 5)) (hp2 : p 0 2 = 0) :
    (mwXGP mwCx1 x g p).1 0 0 = 5 / 82 ∧
    (mwXGP mwCx1 x g p).1 0 1 = 10 / 123 ∧
    (mwXGP mwCx1 x g p).1 0 2 = 0 ∧
    (mwXGP mwCx1 x g p).2.1 0 0 = -(24 / 205) ∧
    (mwXGP mwCx1 x g p).2.1 0 1 = 18 / 205 ∧
    (mwXGP mwCx1 x g p).2.1 0 2 = 0 ∧
    (mwXGP mwCx1 x g p).2.2 0 0 = -(240 / 1681) ∧
    (mwXGP mwCx1 x g p).2.2 0 1 = 90 / 1681 ∧
    (mwXGP mwCx1 x g p).2.2 0 2 = 0 ∧
    mwXsum mwCx1 x g p = 5 / 82 + 10 / 123 ∧
    mwR2 mwCx1 (mwXGP mwCx1 x g p).1 =
      (1 / 2) * ((5 / 82) ^ 2 + (20 / 123) ^ 2) := by
  have hacg : mwAlphaCG mwCx1 g p = 25 / 123 := by
    unfold mwAlphaCG mwGP mwPATAP
    rw [show mwCx1.N = 1 from rfl]
    simp only [rsum_one]
    rw [Qop_mwCx1_00 p, Qop_mwCx1_01 p, Qop_mwCx1_02 p,
      hg0, hg1, hg2, hp0, hp1, hp2]
    norm_num
  have haf : mwAlphaF mwCx1 x p = 2 := by
    rw [mwAlphaF_one mwCx1 rfl, hx0, hx1, hx2, hp0, hp1, hp2,
      show mwCx1.mmax 0 = 1 from rfl,
      find_max_alphaf_eval 0 0 0 (-(3 / 10)) (-(2 / 5)) 0 1 1
        (by norm_num) (by norm_num) (by norm_num)]
    norm_num
  have hbr : mwNga mwCx1 x g ≤ mwNphi mwCx1 x g :=
    le_of_eq (mwNga_eq_mwNphi mwCx1 x g (by
      intro i hi
      rw [show mwCx1.N = 1 from rfl] at hi
      have hi0 : i = 0 := by omega
      subst hi0
      rw [hx0, hx1, hx2]
      norm_num [mwCx1, abs_of_nonneg]))
  have hcg : mwAlphaCG mwCx1 g p < mwAlphaF mwCx1 x p := by
    rw [hacg, haf]
    norm_num
  have hXGP := mwXGP_cg mwCx1 x g p hbr hcg
  have hcx0 : cgX mwCx1 x g p 0 0 = 5 / 82 := by
    show x 0 0 - mwAlphaCG mwCx1 g p * p 0 0 = _
    rw [hx0, hacg, hp0]
    norm_num
  have hcx1 : cgX mwCx1 x g p 0 1 = 10 / 123 := by
    show x 0 1 - mwAlphaCG mwCx1 g p * p 0 1 = _
    rw [hx1, hacg, hp1]
    norm_num
  have hcx2 : cgX mwCx1 x g p 0 2 = 0 := by
    show x 0 2 - mwAlphaCG mwCx1 g p * p 0 2 = _
    rw [hx2, hacg, hp2]
    norm_num
  have hcgg0 : cgG mwCx1 g p 0 0 = -(24 / 205) := by
    show g 0 0 - mwAlphaCG mwCx1 g p * mwATAp mwCx1 p 0 0 = _
    unfold mwATAp
    rw [Qop_mwCx1_00 p, hg0, hacg, hp0]
    norm_num
  have hcgg1 : cgG mwCx1 g p 0 1 = 18 / 205 := by
    show g 0 1 - mwAlphaCG mwCx1 g p * mwATAp mwCx1 p 0 1 = _
    unfold mwATAp
    rw [Qop_mwCx1_01 p, hg1, hacg, hp1]
    norm_num
  have hcgg2 : cgG mwCx1 g p 0 2 = 0 := by
    show g 0 2 - mwAlphaCG mwCx1 g p * mwATAp mwCx1 p 0 2 = _
    unfold mwATAp
    rw [Qop_mwCx1_02 p, hg2, hacg, hp2]
    norm_num
  have hphi1 : mwPhi mwCx1 (cgX mwCx1 x g p) (cgG mwCx1 g p) 0 =
      (cgG mwCx1 g p 0 0, cgG mwCx1 g p 0 1, cgG mwCx1 g p 0 2) :=
    mwPhi_away mwCx1 _ _ 0 (by
      rw [hcx0, hcx1, hcx2]
      norm_num [mwCx1, abs_of_nonneg])
  have hpatap : mwPATAP mwCx1 p = 123 / 100 := by
    unfold mwPATAP
    rw [show mwCx1.N = 1 from rfl]
    simp only [rsum_one]
    rw [Qop_mwCx1_00 p, Qop_mwCx1_01 p, Qop_mwCx1_02 p, hp0, hp1, hp2]
    norm_num
  have hgam : cgGamma mwCx1 x g p = -(144 / 1681) := by
    unfold cgGamma mwATAp
    rw [show mwCx1.N = 1 from rfl]
    simp only [rsum_one]
    rw [hphi1, hpatap, Qop_mwCx1_00 p, Qop_mwCx1_01 p, Qop_mwCx1_02 p,
      hcgg0, hcgg1, hcgg2, hp0, hp1, hp2]
    norm_num
  have hcp0 : cgP mwCx1 x g p 0 0 = -(240 / 1681) := by
    show tget (mwPhi mwCx1 (cgX mwCx1 x g p) (cgG mwCx1 g p) 0) 0 -
      cgGamma mwCx1 x g p * p 0 0 = _
    rw [hphi1, tget_zero, hgam, hcgg0, hp0]
    norm_num
  have hcp1 : cgP mwCx1 x g p 0 1 = 90 / 1681 := by
    show tget (mwPhi mwCx1 (cgX mwCx1 x g p) (cgG mwCx1 g p) 0) 1 -
      cgGamma mwCx1 x g p * p 0 1 = _
    rw [hphi1, tget_one, hgam, hcgg1, hp1]
    norm_num
  have hcp2 : cgP mwCx1 x g p 0 2 = 0 := by
    show tget (mwPhi mwCx1 (cgX mwCx1 x g p) (cgG mwCx1 g p) 0) 2 -
      cgGamma mwCx1 x g p * p 0 2 = _
    rw [hphi1, tget_two, hgam, hcgg2, hp2]
    norm_num
  have hxs : mwXsum mwCx1 x g p = 5 / 82 + 10 / 123 := by
    unfold mwXsum
    rw [show mwCx1.N = 1 from rfl]
    simp only [rsum_one]
    rw [hXGP]
    show |cgX mwCx1 x g p 0 0 - x 0 0| + |cgX mwCx1 x g p 0 1 - x 0 1| +
      |cgX mwCx1 x g p 0 2 - x 0 2| = _
    rw [hcx0, hcx1, hcx2, hx0, hx1, hx2]
    rw [sub_zero, sub_zero, sub_zero,
      abs_of_nonneg (by norm_num : (0:ℝ) ≤ 5 / 82),
      abs_of_nonneg (by norm_num : (0:ℝ) ≤ 10 / 123), abs_zero]
    norm_num
  have hr2 : mwR2 mwCx1 (mwXGP mwCx1 x g p).1 =
      (1 / 2) * ((5 / 82) ^ 2 + (20 / 123) ^ 2) := by
    unfold mwR2 Amulvec
    rw [show mwCx1.ngrid = 2 from rfl]
    simp only [rsum_two]
    rw [show (3 * mwCx1.N) = 3 from by norm_num [mwCx1]]
    simp only [rsum_three]
    rw [hXGP]
    show (1 / 2) * ((mwCx1.A 0 0 * cgX mwCx1 x g p 0 0 +
        mwCx1.A 0 1 * cgX mwCx1 x g p 0 1 +
        mwCx1.A 0 2 * cgX mwCx1 x g p 0 2 - mwCx1.b 0) ^ 2 +
      (mwCx1.A 1 0 * cgX mwCx1 x g p 0 0 +
        mwCx1.A 1 1 * cgX mwCx1 x g p 0 1 +
        mwCx1.A 1 2 * cgX mwCx1 x g p 0 2 - mwCx1.b 1) ^ 2) = _
    rw [hcx0, hcx1, hcx2]
    norm_num [mwCx1]
  refine ⟨?_, ?_, ?_, ?_, ?_, ?_, ?_, ?_, ?_, hxs, hr2⟩
  · rw [hXGP]; exact hcx0
  · rw [hXGP]; exact hcx1
  · rw [hXGP]; exact hcx2
  · rw [hXGP]; exact hcgg0
  · rw [hXGP]; exact hcgg1
  · rw [hXGP]; exact hcgg2
  · rw [hXGP]; exact hcp0
  · rw [hXGP]; exact hcp1
  · rw [hXGP]; exact hcp2

theorem mwCx1_step1 (x g p : ℕ → ℕ → ℝ)
    (hx0 : x 0 0 = 5 / 82) (hx1 : x 0 1 = 10 / 123) (hx2 : x 0 2 = 0)
    (hg0 : g 0 0 = -(24 / 205)) (hg1 : g 0 1 = 18 / 205) (hg2 : g 0 2 = 0)
    (hp0 : p 0 0 = -(240 / 1681)) (hp1 : p 0 1 = 90 / 1681)
    (hp2 : p 0 2 = 0) :
    (mwXGP mwCx1 x g p).1 0 0 = 1 / 10 ∧
    (mwXGP mwCx1 x g p).1 0 1 = 1 / 15 ∧
    (mwXGP mwCx1 x g p).1 0 2 = 0 ∧
    (mwXGP mwCx1 x g p).2.1 0 0 = 0 ∧
    (mwXGP mwCx1 x g p).2.1 0 1 = 0 ∧
    (mwXGP mwCx1 x g p).2.1 0 2 = 0 ∧
    (mwXGP mwCx1 x g p).2.2 0 0 = 0 ∧
    (mwXGP mwCx1 x g p).2.2 0 1 = 0 ∧
    (mwXGP mwCx1 x g p).2.2 0 2 = 0 ∧
    mwXsum mwCx1 x g p = 8 / 205 + 3 / 205 := by
  have hacg : mwAlphaCG mwCx1 g p = 41 / 150 := by
    unfold mwAlphaCG mwGP mwPATAP
    rw [show mwCx1.N = 1 from rfl]
    simp only [rsum_one]
    rw [Qop_mwCx1_00 p, Qop_mwCx1_01 p, Qop_mwCx1_02 p,
      hg0, hg1, hg2, hp0, hp1, hp2]
    norm_num
  have hbr : mwNga mwCx1 x g ≤ mwNphi mwCx1 x g :=
    le_of_eq (mwNga_eq_mwNphi mwCx1 x g (by
      intro i hi
      rw [show mwCx1.N = 1 from rfl] at hi
      have hi0 : i = 0 := by omega
      subst hi0
      rw [hx0, hx1, hx2]
      norm_num [mwCx1, abs_of_nonneg]))
  have hcg : mwAlphaCG mwCx1 g p < mwAlphaF mwCx1 x p := by
    rw [hacg, mwAlphaF_one mwCx1 rfl, hx0, hx1, hx2, hp0, hp1, hp2,
      show mwCx1.mmax 0 = 1 from rfl]
    exact find_max_alphaf_gt (5 / 82) (10 / 123) 0 (-(240 / 1681))
      (90 / 1681) 0 1 (41 / 150) (by norm_num) (by norm_num)
  have hXGP := mwXGP_cg mwCx1 x g p hbr hcg
  have hcx0 : cgX mwCx1 x g p 0 0 = 1 / 10 := by
    show x 0 0 - mwAlphaCG mwCx1 g p * p 0 0 = _
    rw [hx0, hacg, hp0]
    norm_num
  have hcx1 : cgX mwCx1 x g p 0 1 = 1 / 15 := by
    show x 0 1 - mwAlphaCG mwCx1 g p * p 0 1 = _
    rw [hx1, hacg, hp1]
    norm_num
  have hcx2 : cgX mwCx1 x g p 0 2 = 0 := by
    show x 0 2 - mwAlphaCG mwCx1 g p * p 0 2 = _
    rw [hx2, hacg, hp2]
    norm_num
  have hcgg0 : cgG mwCx1 g p 0 0 = 0 := by
    show g 0 0 - mwAlphaCG mwCx1 g p * mwATAp mwCx1 p 0 0 = _
    unfold mwATAp
    rw [Qop_mwCx1_00 p, hg0, hacg, hp0]
    norm_num
  have hcgg1 : cgG mwCx1 g p 0 1 = 0 := by
    show g 0 1 - mwAlphaCG mwCx1 g p * mwATAp mwCx1 p 0 1 = _
    unfold mwATAp
    rw [Qop_mwCx1_01 p, hg1, hacg, hp1]
    norm_num
  have hcgg2 : cgG mwCx1 g p 0 2 = 0 := by
    show g 0 2 - mwAlphaCG mwCx1 g p * mwATAp mwCx1 p 0 2 = _
    unfold mwATAp
    rw [Qop_mwCx1_02 p, hg2, hacg, hp2]
    norm_num
  have hphi1 : mwPhi mwCx1 (cgX mwCx1 x g p) (cgG mwCx1 g p) 0 =
      (cgG mwCx1 g p 0 0, cgG mwCx1 g p 0 1, cgG mwCx1 g p 0 2) :=
    mwPhi_away mwCx1 _ _ 0 (by
      rw [hcx0, hcx1, hcx2]
      norm_num [mwCx1, abs_of_nonneg])
  have hgam : cgGamma mwCx1 x g p = 0 := by
    unfold cgGamma mwATAp
    rw [show mwCx1.N = 1 from rfl]
    simp only [rsum_one]
    rw [hphi1, Qop_mwCx1_00 p, Qop_mwCx1_01 p, Qop_mwCx1_02 p,
      hcgg0, hcgg1, hcgg2, hp0, hp1, hp2]
    norm_num
  have hcp0 : cgP mwCx1 x g p 0 0 = 0 := by
    show tget (mwPhi mwCx1 (cgX mwCx1 x g p) (cgG mwCx1 g p) 0) 0 -
      cgGamma mwCx1 x g p * p 0 0 = _
    rw [hphi1, tget_zero, hgam, hcgg0, hp0]
    norm_num
  have hcp1 : cgP mwCx1 x g p 0 1 = 0 := by
    show tget (mwPhi mwCx1 (cgX mwCx1 x g p) (cgG mwCx1 g p) 0) 1 -
      cgGamma mwCx1 x g p * p 0 1 = _
    rw [hphi1, tget_one, hgam, hcgg1, hp1]
    norm_num
  have hcp2 : cgP mwCx1 x g p 0 2 = 0 := by
    show tget (mwPhi mwCx1 (cgX mwCx1 x g p) (cgG mwCx1 g p) 0) 2 -
      cgGamma mwCx1 x g p * p 0 2 = _
    rw [hphi1, tget_two, hgam, hcgg2, hp2]
    norm_num
  have hxs : mwXsum mwCx1 x g p = 8 / 205 + 3 / 205 := by
    unfold mwXsum
    rw [show mwCx1.N = 1 from rfl]
    simp only [rsum_one]
    rw [hXGP]
    show |cgX mwCx1 x g p 0 0 - x 0 0| + |cgX mwCx1 x g p 0 1 - x 0 1| +
      |cgX mwCx1 x g p 0 2 - x 0 2| = _
    rw [hcx0, hcx1, hcx2, hx0, hx1, hx2]
    rw [show (1 : ℝ) / 10 - 5 / 82 = 8 / 205 from by norm_num,
      show (1 : ℝ) / 15 - 10 / 123 = -(3 / 205) from by norm_num,
      sub_zero, abs_zero,
      abs_of_nonneg (by norm_num : (0:ℝ) ≤ 8 / 205), abs_neg,
      abs_of_nonneg (by norm_num : (0:ℝ) ≤ 3 / 205)]
    norm_num
  refine ⟨?_, ?_, ?_, ?_, ?_, ?_, ?_, ?_, ?_, hxs⟩
  · rw [hXGP]; exact hcx0
  · rw [hXGP]; exact hcx1
  · rw [hXGP]; exact hcx2
  · rw [hXGP]; exact hcgg0
  · rw [hXGP]; exact hcgg1
  · rw [hXGP]; exact hcgg2
  · rw [hXGP]; exact hcp0
  · rw [hXGP]; exact hcp1
  · rw [hXGP]; exact hcp2

theorem mwCx1_step2 (x g p : ℕ → ℕ → ℝ)
    (hx0 : x 0 0 = 1 / 10) (hx1 : x 0 1 = 1 / 15) (hx2 : x 0 2 = 0)
    (hg0 : g 0 0 = 0) (hg1 : g 0 1 = 0) (hg2 : g 0 2 = 0)
    (hp0 : p 0 0 = 0) (hp1 : p 0 1 = 0) (hp2 : p 0 2 = 0) :
    (mwXGP mwCx1 x g p).1 0 0 = 1 / 10 ∧
    (mwXGP mwCx1 x g p).1 0 1 = 1 / 15 ∧
    (mwXGP mwCx1 x g p).1 0 2 = 0 ∧
    mwXsum mwCx1 x g p = 0 := by
  have hacg : mwAlphaCG mwCx1 g p = 0 := by
    unfold mwAlphaCG mwGP mwPATAP
    rw [show mwCx1.N = 1 from rfl]
    simp only [rsum_one]
    rw [Qop_mwCx1_00 p, Qop_mwCx1_01 p, Qop_mwCx1_02 p,
      hg0, hg1, hg2, hp0, hp1, hp2]
    norm_num
  have hbr : mwNga mwCx1 x g ≤ mwNphi mwCx1 x g :=
    le_of_eq (mwNga_eq_mwNphi mwCx1 x g (by
      intro i hi
      rw [show mwCx1.N = 1 from rfl] at hi
      have hi0 : i = 0 := by omega
      subst hi0
      rw [hx0, hx1, hx2]
      norm_num [mwCx1, abs_of_nonneg]))
  have hcg : mwAlphaCG mwCx1 g p < mwAlphaF mwCx1 x p := by
    rw [hacg, mwAlphaF_one mwCx1 rfl, hx0, hx1, hx2, hp0, hp1, hp2,
      show mwCx1.mmax 0 = 1 from rfl, find_max_alphaf, if_neg (by norm_num)]
    norm_num
  have hXGP := mwXGP_cg mwCx1 x g p hbr hcg
  have hcx0 : cgX mwCx1 x g p 0 0 = 1 / 10 := by
    show x 0 0 - mwAlphaCG mwCx1 g p * p 0 0 = _
    rw [hx0, hacg, hp0]
    norm_num
  have hcx1 : cgX mwCx1 x g p 0 1 = 1 / 15 := by
    show x 0 1 - mwAlphaCG mwCx1 g p * p 0 1 = _
    rw [hx1, hacg, hp1]
    norm_num
  have hcx2 : cgX mwCx1 x g p 0 2 = 0 := by
    show x 0 2 - mwAlphaCG mwCx1 g p * p 0 2 = _
    rw [hx2, hacg, hp2]
    norm_num
  have hxs : mwXsum mwCx1 x g p = 0 := by
    unfold mwXsum
    rw [show mwCx1.N = 1 from rfl]
    simp only [rsum_one]
    rw [hXGP]
    show |cgX mwCx1 x g p 0 0 - x 0 0| + |cgX mwCx1 x g p 0 1 - x 0 1| +
      |cgX mwCx1 x g p 0 2 - x 0 2| = _
    rw [hcx0, hcx1, hcx2, hx0, hx1, hx2, sub_self, sub_self, sub_zero,
      abs_zero]
    norm_num
  exact ⟨by rw [hXGP]; exact hcx0, by rw [hXGP]; exact hcx1,
    by rw [hXGP]; exact hcx2, hxs⟩

theorem mwCx1_false_final : (MwPGP_algorithm mwCx1 false).x 0 0 = 1 / 10 := by
  obtain ⟨hs0, hs1, hs2, hs3, hs4, hs5, hs6, hs7, hs8⟩ := mwCx1_s0
  obtain ⟨hA0, hA1, hA2, hA3, hA4, hA5, hA6, hA7, hA8, hAxs, -⟩ :=
    mwCx1_step0 _ _ _ hs0 hs1 hs2 hs3 hs4 hs5 hs6 hs7 hs8
  have h1 : MwPGP_iter mwCx1 false 1 =
      MwPGP_step mwCx1 false 0 (MwPGP_start mwCx1) := rfl
  have hrec1 := MwPGP_step_noprint mwCx1 false 0 (MwPGP_start mwCx1) rfl
    (by simp)
  have hi1x0 : (MwPGP_iter mwCx1 false 1).x 0 0 = 5 / 82 := by
    rw [h1, hrec1]; exact hA0
  have hi1x1 : (MwPGP_iter mwCx1 false 1).x 0 1 = 10 / 123 := by
    rw [h1, hrec1]; exact hA1
  have hi1x2 : (MwPGP_iter mwCx1 false 1).x 0 2 = 0 := by
    rw [h1, hrec1]; exact hA2
  have hi1g0 : (MwPGP_iter mwCx1 false 1).g 0 0 = -(24 / 205) := by
    rw [h1, hrec1]; exact hA3
  have hi1g1 : (MwPGP_iter mwCx1 false 1).g 0 1 = 18 / 205 := by
    rw [h1, hrec1]; exact hA4
  have hi1g2 : (MwPGP_iter mwCx1 false 1).g 0 2 = 0 := by
    rw [h1, hrec1]; exact hA5
  have hi1p0 : (MwPGP_iter mwCx1 false 1).p 0 0 = -(240 / 1681) := by
    rw [h1, hrec1]; exact hA6
  have hi1p1 : (MwPGP_iter mwCx1 false 1).p 0 1 = 90 / 1681 := by
    rw [h1, hrec1]; exact hA7
  have hi1p2 : (MwPGP_iter mwCx1 false 1).p 0 2 = 0 := by
    rw [h1, hrec1]; exact hA8
  have hi1done : (MwPGP_iter mwCx1 false 1).done = false := by
    rw [h1, hrec1]
    show (if mwXsum mwCx1 (MwPGP_start mwCx1).x (MwPGP_start mwCx1).g
      (MwPGP_start mwCx1).p < mwCx1.eps then true else false) = false
    rw [hAxs, if_neg (by norm_num [mwCx1])]
  obtain ⟨hB0, hB1, hB2, hB3, hB4, hB5, hB6, hB7, hB8, hBxs⟩ :=
    mwCx1_step1 _ _ _ hi1x0 hi1x1 hi1x2 hi1g0 hi1g1 hi1g2 hi1p0 hi1p1 hi1p2
  have h2 : MwPGP_iter mwCx1 false 2 =
      MwPGP_step mwCx1 false 1 (MwPGP_iter mwCx1 false 1) := rfl
  have hrec2 := MwPGP_step_noprint mwCx1 false 1 (MwPGP_iter mwCx1 false 1)
    hi1done (by simp)
  have hi2x0 : (MwPGP_iter mwCx1 false 2).x 0 0 = 1 / 10 := by
    rw [h2, hrec2]; exact hB0
  have hi2x1 : (MwPGP_iter mwCx1 false 2).x 0 1 = 1 / 15 := by
    rw [h2, hrec2]; exact hB1
  have hi2x2 : (MwPGP_iter mwCx1 false 2).x 0 2 = 0 := by
    rw [h2, hrec2]; exact hB2
  have hi2g0 : (MwPGP_iter mwCx1 false 2).g 0 0 = 0 := by
    rw [h2, hrec2]; exact hB3
  have hi2g1 : (MwPGP_iter mwCx1 false 2).g 0 1 = 0 := by
    rw [h2, hrec2]; exact hB4
  have hi2g2 : (MwPGP_iter mwCx1 false 2).g 0 2 = 0 := by
    rw [h2, hrec2]; exact hB5
  have hi2p0 : (MwPGP_iter mwCx1 false 2).p 0 0 = 0 := by
    rw [h2, hrec2]; exact hB6
  have hi2p1 : (MwPGP_iter mwCx1 false 2).p 0 1 = 0 := by
    rw [h2, hrec2]; exact hB7
  have hi2p2 : (MwPGP_iter mwCx1 false 2).p 0 2 = 0 := by
    rw [h2, hrec2]; exact hB8
  have hi2done : (MwPGP_iter mwCx1 false 2).done = false := by
    rw [h2, hrec2]
    show (if mwXsum mwCx1 (MwPGP_iter mwCx1 false 1).x
      (MwPGP_iter mwCx1 false 1).g (MwPGP_iter mwCx1 false 1).p < mwCx1.eps
      then true else false) = false
    rw [hBxs, if_neg (by norm_num [mwCx1])]
  obtain ⟨hC0, hC1, hC2, hCxs⟩ :=
    mwCx1_step2 _ _ _ hi2x0 hi2x1 hi2x2 hi2g0 hi2g1 hi2g2 hi2p0 hi2p1 hi2p2
  have h3 : MwPGP_iter mwCx1 false 3 =
      MwPGP_step mwCx1 false 2 (MwPGP_iter mwCx1 false 2) := rfl
  have hrec3 := MwPGP_step_noprint mwCx1 false 2 (MwPGP_iter mwCx1 false 2)
    hi2done (by simp)
  have hi3x0 : (MwPGP_iter mwCx1 false 3).x 0 0 = 1 / 10 := by
    rw [h3, hrec3]; exact hC0
  have hi3done : (MwPGP_iter mwCx1 false 3).done = true := by
    rw [h3, hrec3]
    show (if mwXsum mwCx1 (MwPGP_iter mwCx1 false 2).x
      (MwPGP_iter mwCx1 false 2).g (MwPGP_iter mwCx1 false 2).p < mwCx1.eps
      then true else false) = true
    rw [hCxs, if_pos (by norm_num [mwCx1])]
  have hfrozen := MwPGP_iter_frozen mwCx1 false 3 hi3done 20 (by norm_num)
  have halgo : MwPGP_algorithm mwCx1 false = MwPGP_iter mwCx1 false 20 := rfl
  rw [halgo, hfrozen]
  exact hi3x0

theorem mwCx1_true_final : (MwPGP_algorithm mwCx1 true).x 0 0 = 5 / 82 := by
  obtain ⟨hs0, hs1, hs2, hs3, hs4, hs5, hs6, hs7, hs8⟩ := mwCx1_s0
  obtain ⟨hA0, hA1, hA2, hA3, hA4, hA5, hA6, hA7, hA8, hAxs, hAr2⟩ :=
    mwCx1_step0 _ _ _ hs0 hs1 hs2 hs3 hs4 hs5 hs6 hs7 hs8
  have hq0 : mwQual mwCx1 0 := Or.inr (Or.inl rfl)
  have hb : mwR2 mwCx1 (mwXGP mwCx1 (MwPGP_start mwCx1).x
      (MwPGP_start mwCx1).g (MwPGP_start mwCx1).p).1 < mwCx1.minfb := by
    rw [hAr2]
    norm_num [mwCx1]
  have h1 : MwPGP_iter mwCx1 true 1 =
      MwPGP_step mwCx1 true 0 (MwPGP_start mwCx1) := rfl
  have hrec1 := MwPGP_step_break mwCx1 0 (MwPGP_start mwCx1) rfl hq0 hb
  have hi1x0 : (MwPGP_iter mwCx1 true 1).x 0 0 = 5 / 82 := by
    rw [h1, hrec1]; exact hA0
  have hi1done : (MwPGP_iter mwCx1 true 1).done = true := by
    rw [h1, hrec1]
  have hfrozen := MwPGP_iter_frozen mwCx1 true 1 hi1done 20 (by norm_num)
  have halgo : MwPGP_algorithm mwCx1 true = MwPGP_iter mwCx1 true 20 := rfl
  rw [halgo, hfrozen]
  exact hi1x0

/-- C1 (counterexample): on the two-grid-point input `mwCx1` with
`min_fb = 1 > 0`, the verbose run samples `R² < min_fb` at iteration 0
and breaks out with `x = (5/82, 10/123, 0)`, while the quiet run —
whose loop never evaluates the `min_fb` test — continues to
convergence at `x = (1/10, 1/15, 0)`: the `verbose` flag changes the
final iterate of `MwPGP_algorithm`. -/
theorem MwPGP_verbose_changes_result_cx :
    (MwPGP_algorithm mwCx1 true).x 0 0 = 5 / 82 ∧
    (MwPGP_algorithm mwCx1 false).x 0 0 = 1 / 10 ∧
    ((5 : ℝ) / 82) ≠ 1 / 10 :=
  ⟨mwCx1_true_final, mwCx1_false_final, by norm_num⟩

/-! ### The `mwCx7` run (history-slot counter overflow) -/

theorem Amulvec_zeroA (inp : MwIn) (hA : ∀ g j, inp.A g j = 0)
    (v : ℕ → ℕ → ℝ) (g : ℕ) : Amulvec inp v g = 0 := by
  unfold Amulvec
  have h1 : rsum (3 * inp.N) (fun j => inp.A g j * v (j / 3) (j % 3)) =
      rsum (3 * inp.N) (fun _ => (0 : ℝ)) :=
    rsum_congr (fun j _ => by rw [hA]; ring)
  rw [h1, rsum_zero_fun]

theorem mwR2_zeroA (inp : MwIn) (hA : ∀ g j, inp.A g j = 0)
    (hb : ∀ g, inp.b g = 0) (x1 : ℕ → ℕ → ℝ) : mwR2 inp x1 = 0 := by
  unfold mwR2
  have h1 : rsum inp.ngrid (fun g => (Amulvec inp x1 g - inp.b g) ^ 2) =
      rsum inp.ngrid (fun _ => (0 : ℝ)) :=
    rsum_congr (fun g _ => by rw [Amulvec_zeroA inp hA x1 g, hb]; ring)
  rw [h1, rsum_zero_fun, mul_zero]

theorem mwCx7_vals (x g p : ℕ → ℕ → ℝ)
    (hx0 : x 0 0 = 0) (hx1 : x 0 1 = 0) (hx2 : x 0 2 = 0)
    (hg0 : g 0 0 = 0) (hg1 : g 0 1 = 0) (hg2 : g 0 2 = 0)
    (hp0 : p 0 0 = 0) (hp1 : p 0 1 = 0) (hp2 : p 0 2 = 0) :
    (mwXGP mwCx7 x g p).1 0 0 = 0 ∧
    (mwXGP mwCx7 x g p).1 0 1 = 0 ∧
    (mwXGP mwCx7 x g p).1 0 2 = 0 ∧
    (mwXGP mwCx7 x g p).2.1 0 0 = 0 ∧
    (mwXGP mwCx7 x g p).2.1 0 1 = 0 ∧
    (mwXGP mwCx7 x g p).2.1 0 2 = 0 ∧
    (mwXGP mwCx7 x g p).2.2 0 0 = 0 ∧
    (mwXGP mwCx7 x g p).2.2 0 1 = 0 ∧
    (mwXGP mwCx7 x g p).2.2 0 2 = 0 ∧
    mwXsum mwCx7 x g p = 0 := by
  have hacg : mwAlphaCG mwCx7 g p = 0 := by
    unfold mwAlphaCG mwGP mwPATAP
    rw [show mwCx7.N = 1 from rfl]
    simp only [rsum_one]
    rw [hg0, hg1, hg2, hp0, hp1, hp2]
    norm_num
  have hbr : mwNga mwCx7 x g ≤ mwNphi mwCx7 x g :=
    le_of_eq (mwNga_eq_mwNphi mwCx7 x g (by
      intro i hi
      rw [show mwCx7.N = 1 from rfl] at hi
      have hi0 : i = 0 := by omega
      subst hi0
      rw [hx0, hx1, hx2]
      norm_num [mwCx7, abs_of_nonneg]))
  have hcg : mwAlphaCG mwCx7 g p < mwAlphaF mwCx7 x p := by
    rw [hacg, mwAlphaF_one mwCx7 rfl, hx0, hx1, hx2, hp0, hp1, hp2,
      show mwCx7.mmax 0 = 1 from rfl, find_max_alphaf, if_neg (by norm_num)]
    norm_num
  have hXGP := mwXGP_cg mwCx7 x g p hbr hcg
  have hcx0 : cgX mwCx7 x g p 0 0 = 0 := by
    show x 0 0 - mwAlphaCG mwCx7 g p * p 0 0 = _
    rw [hx0, hacg, hp0]
    norm_num
  have hcx1 : cgX mwCx7 x g p 0 1 = 0 := by
    show x 0 1 - mwAlphaCG mwCx7 g p * p 0 1 = _
    rw [hx1, hacg, hp1]
    norm_num
  have hcx2 : cgX mwCx7 x g p 0 2 = 0 := by
    show x 0 2 - mwAlphaCG mwCx7 g p * p 0 2 = _
    rw [hx2, hacg, hp2]
    norm_num
  have hcgg0 : cgG mwCx7 g p 0 0 = 0 := by
    show g 0 0 - mwAlphaCG mwCx7 g p * mwATAp mwCx7 p 0 0 = _
    unfold mwATAp
    rw [Qop_zeroA mwCx7 (fun _ _ => rfl) p 0 0, hg0, hacg, hp0]
    norm_num
  have hcgg1 : cgG mwCx7 g p 0 1 = 0 := by
    show g 0 1 - mwAlphaCG mwCx7 g p * mwATAp mwCx7 p 0 1 = _
    unfold mwATAp
    rw [Qop_zeroA mwCx7 (fun _ _ => rfl) p 0 1, hg1, hacg, hp1]
    norm_num
  have hcgg2 : cgG mwCx7 g p 0 2 = 0 := by
    show g 0 2 - mwAlphaCG mwCx7 g p * mwATAp mwCx7 p 0 2 = _
    unfold mwATAp
    rw [Qop_zeroA mwCx7 (fun _ _ => rfl) p 0 2, hg2, hacg, hp2]
    norm_num
  have hphi1 : mwPhi mwCx7 (cgX mwCx7 x g p) (cgG mwCx7 g p) 0 =
      (cgG mwCx7 g p 0 0, cgG mwCx7 g p 0 1, cgG mwCx7 g p 0 2) :=
    mwPhi_away mwCx7 _ _ 0 (by
      rw [hcx0, hcx1, hcx2]
      norm_num [mwCx7, abs_of_nonneg])
  have hgam : cgGamma mwCx7 x g p = 0 := by
    unfold cgGamma mwATAp
    rw [show mwCx7.N = 1 from rfl]
    simp only [rsum_one]
    rw [hphi1, hcgg0, hcgg1, hcgg2]
    norm_num
  have hcp0 : cgP mwCx7 x g p 0 0 = 0 := by
    show tget (mwPhi mwCx7 (cgX mwCx7 x g p) (cgG mwCx7 g p) 0) 0 -
      cgGamma mwCx7 x g p * p 0 0 = _
    rw [hphi1, tget_zero, hgam, hcgg0, hp0]
    norm_num
  have hcp1 : cgP mwCx7 x g p 0 1 = 0 := by
    show tget (mwPhi mwCx7 (cgX mwCx7 x g p) (cgG mwCx7 g p) 0) 1 -
      cgGamma mwCx7 x g p * p 0 1 = _
    rw [hphi1, tget_one, hgam, hcgg1, hp1]
    norm_num
  have hcp2 : cgP mwCx7 x g p 0 2 = 0 := by
    show tget (mwPhi mwCx7 (cgX mwCx7 x g p) (cgG mwCx7 g p) 0) 2 -
      cgGamma mwCx7 x g p * p 0 2 = _
    rw [hphi1, tget_two, hgam, hcgg2, hp2]
    norm_num
  have hxs : mwXsum mwCx7 x g p = 0 := by
    unfold mwXsum
    rw [show mwCx7.N = 1 from rfl]
    simp only [rsum_one]
    rw [hXGP]
    show |cgX mwCx7 x g p 0 0 - x 0 0| + |cgX mwCx7 x g p 0 1 - x 0 1| +
      |cgX mwCx7 x g p 0 2 - x 0 2| = _
    rw [hcx0, hcx1, hcx2, hx0, hx1, hx2, sub_self, abs_zero]
    norm_num
  refine ⟨?_, ?_, ?_, ?_, ?_, ?_, ?_, ?_, ?_, hxs⟩
  · rw [hXGP]; exact hcx0
  · rw [hXGP]; exact hcx1
  · rw [hXGP]; exact hcx2
  · rw [hXGP]; exact hcgg0
  · rw [hXGP]; exact hcgg1
  · rw [hXGP]; exact hcgg2
  · rw [hXGP]; exact hcp0
  · rw [hXGP]; exact hcp1
  · rw [hXGP]; exact hcp2

theorem mwCx7_qual (n : ℕ) :
    mwQual mwCx7 n ↔ (n % 5 = 0 ∨ n = 0 ∨ n = 104) := by
  unfold mwQual
  rw [show mwCx7.maxiter = 105 from rfl]

theorem mwCx7_invariant : ∀ n, n ≤ 104 →
    (MwPGP_iter mwCx7 true n).x 0 0 = 0 ∧
    (MwPGP_iter mwCx7 true n).x 0 1 = 0 ∧
    (MwPGP_iter mwCx7 true n).x 0 2 = 0 ∧
    (MwPGP_iter mwCx7 true n).g 0 0 = 0 ∧
    (MwPGP_iter mwCx7 true n).g 0 1 = 0 ∧
    (MwPGP_iter mwCx7 true n).g 0 2 = 0 ∧
    (MwPGP_iter mwCx7 true n).p 0 0 = 0 ∧
    (MwPGP_iter mwCx7 true n).p 0 1 = 0 ∧
    (MwPGP_iter mwCx7 true n).p 0 2 = 0 ∧
    (MwPGP_iter mwCx7 true n).done = false ∧
    (MwPGP_iter mwCx7 true n).pIter = (n + 4) / 5 := by
  intro n
  induction n with
  | zero =>
      intro _
      have hg : ∀ d, (MwPGP_start mwCx7).g 0 d = 0 := by
        intro d
        show Qop mwCx7 mwCx7.m0 0 d - ATb_rs mwCx7 0 d = 0
        rw [Qop_zeroV mwCx7 mwCx7.m0 (fun _ _ => rfl) 0 d]
        unfold ATb_rs
        norm_num [mwCx7]
      have hphi : mwPhi mwCx7 mwCx7.m0 (MwPGP_start mwCx7).g 0 =
          ((MwPGP_start mwCx7).g 0 0, (MwPGP_start mwCx7).g 0 1,
            (MwPGP_start mwCx7).g 0 2) :=
        mwPhi_away mwCx7 mwCx7.m0 (MwPGP_start mwCx7).g 0
          (by norm_num [mwCx7])
      refine ⟨rfl, rfl, rfl, hg 0, hg 1, hg 2, ?_, ?_, ?_, rfl, rfl⟩
      · show tget (mwPhi mwCx7 mwCx7.m0 (MwPGP_start mwCx7).g 0) 0 = 0
        rw [hphi, tget_zero, hg 0]
      · show tget (mwPhi mwCx7 mwCx7.m0 (MwPGP_start mwCx7).g 0) 1 = 0
        rw [hphi, tget_one, hg 1]
      · show tget (mwPhi mwCx7 mwCx7.m0 (MwPGP_start mwCx7).g 0) 2 = 0
        rw [hphi, tget_two, hg 2]
  | succ m ih =>
      intro hm
      obtain ⟨hx0, hx1, hx2, hg0, hg1, hg2, hp0, hp1, hp2, hdone, hpi⟩ :=
        ih (by omega)
      obtain ⟨hv0, hv1, hv2, hv3, hv4, hv5, hv6, hv7, hv8, hvxs⟩ :=
        mwCx7_vals _ _ _ hx0 hx1 hx2 hg0 hg1 hg2 hp0 hp1 hp2
      have hstep : MwPGP_iter mwCx7 true (m + 1) =
          MwPGP_step mwCx7 true m (MwPGP_iter mwCx7 true m) := rfl
      have hdflag : (if mwXsum mwCx7 (MwPGP_iter mwCx7 true m).x
          (MwPGP_iter mwCx7 true m).g (MwPGP_iter mwCx7 true m).p <
          mwCx7.eps then true else false) = false := by
        rw [hvxs, if_neg (by norm_num [mwCx7])]
      by_cases hq : mwQual mwCx7 m
      · have hnb : ¬ mwR2 mwCx7 (mwXGP mwCx7 (MwPGP_iter mwCx7 true m).x
            (MwPGP_iter mwCx7 true m).g (MwPGP_iter mwCx7 true m).p).1 <
            mwCx7.minfb := by
          rw [mwR2_zeroA mwCx7 (fun _ _ => rfl) (fun _ => rfl)]
          norm_num [mwCx7]
        rw [hstep, MwPGP_step_print mwCx7 m _ hdone hq hnb]
        refine ⟨hv0, hv1, hv2, hv3, hv4, hv5, hv6, hv7, hv8, hdflag, ?_⟩
        show (MwPGP_iter mwCx7 true m).pIter + 1 = (m + 1 + 4) / 5
        rw [hpi]
        rcases (mwCx7_qual m).mp hq with h5 | h0 | h104
        · omega
        · omega
        · omega
      · rw [hstep, MwPGP_step_noprint mwCx7 true m _ hdone
          (fun h => hq h.2)]
        refine ⟨hv0, hv1, hv2, hv3, hv4, hv5, hv6, hv7, hv8, hdflag, ?_⟩
        show (MwPGP_iter mwCx7 true m).pIter = (m + 1 + 4) / 5
        rw [hpi]
        have hnq : ¬ (m % 5 = 0 ∨ m = 0 ∨ m = 104) :=
          fun h => hq ((mwCx7_qual m).mpr h)
        push_neg at hnq
        omega

theorem mwCx7_pIter22 : (MwPGP_algorithm mwCx7 true).pIter = 22 := by
  obtain ⟨hx0, hx1, hx2, hg0, hg1, hg2, hp0, hp1, hp2, hdone, hpi⟩ :=
    mwCx7_invariant 104 (le_refl 104)
  have halgo : MwPGP_algorithm mwCx7 true =
      MwPGP_step mwCx7 true 104 (MwPGP_iter mwCx7 true 104) := rfl
  have hq : mwQual mwCx7 104 := (mwCx7_qual 104).mpr (Or.inr (Or.inr rfl))
  have hnb : ¬ mwR2 mwCx7 (mwXGP mwCx7 (MwPGP_iter mwCx7 true 104).x
      (MwPGP_iter mwCx7 true 104).g (MwPGP_iter mwCx7 true 104).p).1 <
      mwCx7.minfb := by
    rw [mwR2_zeroA mwCx7 (fun _ _ => rfl) (fun _ => rfl)]
    norm_num [mwCx7]
  rw [halgo, MwPGP_step_print mwCx7 104 _ hdone hq hnb]
  show (MwPGP_iter mwCx7 true 104).pIter + 1 = 22
  rw [hpi]

set_option maxRecDepth 8000 in
/-- C7: the history-slot counters are not capped by the buffer
capacity.  In `MwPGP_algorithm` with `max_iter = 105` and verbose
reporting, the slot counter reaches `22` — the source performed `22`
history writes at slots `0..21` while the buffers hold
`MwPGP_hist_cap = 21` entries (valid slots `0..20`), so the last write
is out of bounds.  Likewise `GPMO_baseline` with `K = 8`,
`nhistory = 3` performs `5` snapshot writes at slots `0..4` into
buffers of `nhistory + 1 = 4` entries. -/
theorem history_write_overflow :
    ((MwPGP_algorithm mwCx7 true).pIter = 22 ∧ MwPGP_hist_cap < 22) ∧
    ((GPMO_baseline P7x (-1) 8 3 true).pIter = 5 ∧ 3 + 1 < 5) := by
  refine ⟨⟨mwCx7_pIter22, by norm_num [MwPGP_hist_cap]⟩, ?_, by norm_num⟩
  norm_num [GPMO_baseline, GPMO_baseline_step, initGS, place, print_GPMO,
    scanR2s, scanOne, scanIdxs, selIdx, sentR2s, colDot, sumSq, qsum,
    argminL, minL, SENT, P7x, List.range_succ, List.foldl_append,
    List.foldl]

end PMOpt
